import Mathlib

/-!
# Verification of the `Lists` provisioning handler (pnp-js-provisioning)

A shallow embedding of `src/handlers/lists.ts` (and, for one claim, of the
compiled `lib/handlers/lists.js`).  Strings are modelled as `List Char`; the
remote SharePoint client is an explicit environment of functions returning
`Except`; each remote call appears in an event trace as an `issue` followed by
a `settle` (for `await call()`), with the `Promise.all` content-type deletion
batch issuing all its calls before any of them settles.

The `xml-js` round trip and attribute extraction used by `processField` are an
external library and are abstracted as a structure of pure functions
(`XmlLib`).  `Logger` calls and the telemetry `scope_started`/`scope_ended`
calls from `HandlerBase` perform no remote list operations and are not
modelled.  JavaScript's `String.prototype.replace` is modelled including the
`$`-substitution patterns (`$$`, `$&`, `` $` ``, `$'`) of a string
replacement; the token regex has no capture groups, so group references stay
literal.
-/

set_option maxRecDepth 10000

namespace PnpLists

/-- Strings of the JavaScript program, as lists of (unicode) characters. -/
abbrev Str := List Char

/-! ## The token regex `/{[a-z]*:[ÆØÅæøåA-za-z ]*}/g` and `exec` semantics

The first character class is `[a-z]`.  The second is `[ÆØÅæøåA-za-z ]`:
the six Nordic letters, the *code point range* `A`–`z` (which, besides the
ASCII letters, contains `[`, `\`, `]`, `^`, `_` and the backtick), the range
`a`–`z` (already contained in `A`–`z`) and the space. -/

def isTypeChar (c : Char) : Bool := 'a' ≤ c && c ≤ 'z'

def isNameChar (c : Char) : Bool :=
  c == 'Æ' || c == 'Ø' || c == 'Å' || c == 'æ' || c == 'ø' || c == 'å' ||
    ('A' ≤ c && c ≤ 'z') || ('a' ≤ c && c ≤ 'z') || c == ' '

/-- Length of the (unique, because both classes exclude `:`, `{` and `}`)
match of the token regex at the *start* of `s`, if any.  A match is
`'{'`, a run of `isTypeChar`, `':'`, a run of `isNameChar`, `'}'`. -/
def matchLen (s : Str) : Option Nat :=
  match s with
  | [] => none
  | c :: rest =>
    if c = '{' then
      match rest.dropWhile isTypeChar with
      | [] => none
      | d :: rest2 =>
        if d = ':' then
          match rest2.dropWhile isNameChar with
          | [] => none
          | e :: _ =>
            if e = '}' then
              some ((rest.takeWhile isTypeChar).length + (rest2.takeWhile isNameChar).length + 3)
            else none
        else none
    else none

/-- `regex.exec` on a global regex with `lastIndex = i`: the first match at a
position `≥ i`, returned as (index, length).  Returning `none` is the case in
which JavaScript resets `lastIndex` to `0`. -/
def execFrom (s : Str) (i : Nat) : Option (Nat × Nat) :=
  if _h : s.length ≤ i then none
  else
    match matchLen (s.drop i) with
    | some len => some (i, len)
    | none => execFrom s (i + 1)
termination_by s.length - i
decreasing_by simp_wf; omega

/-- `String.prototype.indexOf` for a string needle: index of the first
occurrence of `pat` in `s` (`some 0` for the empty needle, as in JS). -/
def firstOccur (s pat : Str) : Option Nat :=
  if pat.isPrefixOf s then some 0
  else
    match s with
    | [] => none
    | _ :: rest => (firstOccur rest pat).map (· + 1)

/-- The `$`-substitution `String.prototype.replace` applies to a *string*
replacement (the token regex has no capture groups, so `$1`…`$9` and
`$<name>` stay literal): `$$` inserts `$`, `$&` the matched text, `` $` ``
the portion before the match, `$'` (dollar, code 36, followed by the
apostrophe, code 39) the portion after it; any other `$` is literal. -/
def expandRepl (mtch before after : Str) : Str → Str
  | [] => []
  | c :: rest =>
    if c = '$' then
      match rest with
      | [] => ['$']
      | d :: rest2 =>
        if d = '$' then '$' :: expandRepl mtch before after rest2
        else if d = '&' then mtch ++ expandRepl mtch before after rest2
        else if d = Char.ofNat 96 then before ++ expandRepl mtch before after rest2
        else if d = Char.ofNat 39 then after ++ expandRepl mtch before after rest2
        else '$' :: d :: expandRepl mtch before after rest2
    else c :: expandRepl mtch before after rest

/-- `String.prototype.replace` with a string pattern and a string
replacement: replace the first occurrence of `pat`, if any, applying the
`$`-substitution patterns to the replacement. -/
def replaceFirst (s pat repl : Str) : Str :=
  match firstOccur s pat with
  | none => s
  | some i => s.take i ++ expandRepl pat (s.take i) (s.drop (i + pat.length)) repl
      ++ s.drop (i + pat.length)

/-- `String.prototype.split(":")`. -/
def splitColon : Str → List Str
  | [] => [[]]
  | c :: rest =>
    match splitColon rest with
    | [] => [[c]]
    | p :: ps => if c = ':' then [] :: p :: ps else (c :: p) :: ps

/-- The list metadata cached by the handler (`this.lists`): the `data` object
returned by `web.lists.ensure`, of which the handler reads `Title` and `Id`. -/
structure ListData where
  Title : Str
  Id : Str
deriving DecidableEq, Repr

/-- `this.lists.filter(l => l.Title === Value)` followed by the
`list.length === 1` check: the id of the unique cached list with the given
title, if exactly one exists.  `Value` is `Option`al because the JS
destructuring `[Type, Value]` yields `undefined` when `split` returned fewer
than two parts (and `l.Title === undefined` is false). -/
def lookupUnique (cache : List ListData) (va : Option Str) : Option Str :=
  match cache.filter (fun l => va == some l.Title) with
  | [l] => some l.Id
  | _ => none

/-- One-step decode of a matched token, as the source does it:
`match.replace(/[{}]/g, "").split(":")` destructured into `[Type, Value]`. -/
def tokenParts (mtch : Str) : Str × Option Str :=
  let stripped := mtch.filter (fun c => !(c == '{' || c == '}'))
  let parts := splitColon stripped
  (parts.headD [], (parts.drop 1).head?)

/-- The `m.forEach` body run on the (single, the regex has no capture groups)
element of the match array: decode the token, and on `case "listid"` with a
unique cached title, replace the first occurrence of the matched text. -/
def tokenStep (cache : List ListData) (s : Str) (i len : Nat) : Str :=
  let mtch := (s.drop i).take len
  let pr := tokenParts mtch
  if pr.1 = "listid".toList then
    match lookupUnique cache pr.2 with
    | some id => replaceFirst s mtch id
    | none => s
  else s

/-- The body of `replaceFieldXmlTokens`: the `while ((m = regex.exec(f)) !== null)`
loop, fuelled because the source loop does not terminate on all inputs
(settled by the claims below).  The final `Nat` is the shared regex's
`lastIndex` when the function returns — `exec` returning `null` resets it
to `0`. -/
def tokenLoop (cache : List ListData) : Nat → Str → Nat → Option (Str × Nat)
  | 0, _, _ => none
  | fuel + 1, s, li =>
    match execFrom s li with
    | none => some (s, 0)
    | some (i, len) =>
      let li1 := i + len
      -- `if (m.index === this.tokenRegex.lastIndex) { this.tokenRegex.lastIndex++; }`
      let li2 := if i = li1 then li1 + 1 else li1
      tokenLoop cache fuel (tokenStep cache s i len) li2

/-- `replaceFieldXmlTokens`, entered with the shared regex's `lastIndex` at
`0` (its value whenever the previous call returned). -/
def replaceFieldXmlTokens (cache : List ListData) (fuel : Nat) (s : Str) : Option (Str × Nat) :=
  tokenLoop cache fuel s 0

/-- A GUID-like id: no braces, no dollar sign (so `replace` inserts it
literally, with no `$`-substitution), and at least one character (a digit or
a dash, say) that no class of the token regex accepts.  Real SharePoint list
ids are GUIDs and satisfy this. -/
def idOK (id : Str) : Prop :=
  '{' ∉ id ∧ '}' ∉ id ∧ '$' ∉ id ∧
    ∃ c ∈ id, isTypeChar c = false ∧ isNameChar c = false ∧ c ≠ ':'

instance (id : Str) : Decidable (idOK id) := by unfold idOK; infer_instance

/-- Number of positions of `s` at which the token regex matches. -/
def gm : Str → Nat
  | [] => 0
  | c :: t => (if (matchLen (c :: t)).isSome then 1 else 0) + gm t

/-- Number of positions inside `X` at which the regex matches in `X ++ Y`. -/
def cc : Str → Str → Nat
  | [], _ => 0
  | c :: t, Y => (if (matchLen (c :: t ++ Y)).isSome then 1 else 0) + cc t Y

/-- The claim-side lookup: the id of the list whose `Title` equals the token
name, when exactly one cached list has that title. -/
def uniqueTitleId (cache : List ListData) (name : Str) : Option Str :=
  match cache.filter (fun l => decide (l.Title = name)) with
  | [l] => some l.Id
  | _ => none

/-- The claim's reading of the token's type: the characters between `{` and
the first `:`. -/
def tokenTypeAt (s : Str) (i len : Nat) : Str :=
  (((s.drop i).take len).drop 1).takeWhile (fun c => c != ':')

/-- The claim's reading of the token's name: the characters between the first
`:` and the closing `}`. -/
def tokenNameAt (s : Str) (i len : Nat) : Str :=
  (((((s.drop i).take len).drop 1).dropWhile (fun c => c != ':')).drop 1).dropLast

/-- What the claim predicts for a string with at most one match: the single
`{listid:Name}` token replaced by the id of the unique cached list titled
`Name`, every other character unchanged (and the regex's `lastIndex` reset). -/
def singleSpec (cache : List ListData) (s : Str) : Str × Nat :=
  match execFrom s 0 with
  | none => (s, 0)
  | some (i, len) =>
    if tokenTypeAt s i len = "listid".toList then
      match uniqueTitleId cache (tokenNameAt s i len) with
      | some id => (s.take i ++ id ++ s.drop (i + len), 0)
      | none => (s, 0)
    else (s, 0)

/-- `k` copies of `l`, used for the non-termination counterexample. -/
def repList (l : Str) : Nat → Str
  | 0 => []
  | n + 1 => l ++ repList l n

/-- The token of the non-termination counterexample. -/
def tokA : Str := "{listid:A}".toList

/-- The pathological id of the non-termination counterexample: two copies of
the very token it replaces. -/
def idA : Str := "{listid:A}{listid:A}".toList

/-- A cache whose single entry has the pathological id `{listid:A}{listid:A}`:
replacing `{listid:A}` grows the string by one fresh copy of the token ahead
of `lastIndex` forever. -/
def cacheA : List ListData := [⟨"A".toList, idA⟩]

/-! ## The remote client, traces, and the handler interpreter

Each `await remoteCall()` appears in the trace as an `issue` followed by a
`settle`.  The environment `Env` is one function per remote operation of the
`sp-pnp-js` client the handler uses; returning `Except.error` models a
rejected promise.  `Option` on interpreter results models divergence (the
token-replacement `while` loop is the only possible source). -/

abbrev Err := Nat

structure EnsureResult where
  created : Bool
  data : ListData
deriving DecidableEq

structure CTB where
  ContentTypeID : Str
deriving DecidableEq

structure FieldRefCfg where
  ID : Str
  Hidden : Bool
  Required : Bool
  DisplayName : Str
deriving DecidableEq

structure ViewCfg where
  Title : Str
  PersonalView : Bool
  AdditionalSettings : Str
  ViewFields : List Str
deriving DecidableEq

/-- A list configuration (`IList` of `../schema`).  `Option.none` models an
absent (`undefined`, hence falsy) property. -/
structure IList where
  Title : Str
  Description : Str
  Template : Nat
  ContentTypesEnabled : Bool
  AdditionalSettings : Str
  ContentTypeBindings : Option (List CTB)
  RemoveExistingContentTypes : Bool
  Fields : Option (List Str)
  FieldRefs : Option (List FieldRefCfg)
  Views : Option (List ViewCfg)
deriving DecidableEq

/-- The attributes `processField` reads off `JSON.parse(xml2json(fieldXml))`. -/
structure FieldAttrs where
  ID : Str
  InternalName : Str
  DisplayName : Str

/-- The pure `xml-js` library: attribute extraction and the
`json2xml(xml2json(x))` round trip. -/
structure XmlLib where
  parseAttrs : Str → FieldAttrs
  roundtrip : Str → Str

inductive RemoteCall where
  | ensure (title desc : Str) (template : Nat) (ctEnabled : Bool) (settings : Str)
  | addAvailableContentType (listTitle ctId : Str)
  | getContentTypes (listTitle : Str)
  | deleteContentType (listTitle ctId : Str)
  | getFieldById (listTitle fieldId : Str)
  | deleteField (listTitle fieldId : Str)
  | createFieldAsXml (listTitle xml : Str)
  | updateFieldTitle (listTitle title : Str)
  | updateFieldRef (listTitle fieldId : Str) (hidden required : Bool) (title : Str)
  | getView (listTitle viewTitle : Str)
  | updateView (listTitle viewTitle settings : Str)
  | addView (listTitle viewTitle : Str) (personal : Bool) (settings : Str)
  | removeAllViewFields (listTitle viewTitle : Str)
  | addViewField (listTitle viewTitle fieldName : Str)
deriving DecidableEq

inductive Event where
  | issue (c : RemoteCall)
  | settle (c : RemoteCall) (ok : Bool)
deriving DecidableEq

/-- The wrapped client plus the remote service, as one deterministic oracle. -/
structure Env where
  ensure : Str → Str → Nat → Bool → Str → Except Err EnsureResult
  addAvailableContentType : Str → Str → Except Err Unit
  getContentTypes : Str → Except Err (List Str)
  deleteContentType : Str → Str → Except Err Unit
  getFieldById : Str → Str → Except Err Unit
  deleteField : Str → Str → Except Err Unit
  createFieldAsXml : Str → Str → Except Err Unit
  updateFieldTitle : Str → Str → Except Err Unit
  updateFieldRef : Str → Str → Bool → Bool → Str → Except Err Unit
  getView : Str → Str → Except Err Unit
  updateView : Str → Str → Str → Except Err Unit
  addView : Str → Str → Bool → Str → Except Err Unit
  removeAllViewFields : Str → Str → Except Err Unit
  addViewField : Str → Str → Str → Except Err Unit

/-- Handler state during a run: the `this.lists` cache and the event trace. -/
structure St where
  cache : List ListData
  trace : List Event
deriving DecidableEq

def exOk {α : Type} : Except Err α → Bool
  | .ok _ => true
  | .error _ => false

def errOf {α : Type} : Except Err α → Option Err
  | .ok _ => none
  | .error e => some e

/-- `await call()`: issue the call, then settle it with the oracle's verdict. -/
def emit {α : Type} (st : St) (c : RemoteCall) (r : Except Err α) : St × Except Err α :=
  ({ st with trace := st.trace ++ [.issue c, .settle c (exOk r)] }, r)

/-- Sequential `reduce((chain, x) => chain.then(_ => f(x)), Promise.resolve())`:
after a rejection the later `then` callbacks never run. -/
def seqP {α : Type} (f : α → St → St × Except Err Unit) : List α → St → St × Except Err Unit
  | [], st => (st, .ok ())
  | x :: xs, st =>
    match f x st with
    | (st', .ok _) => seqP f xs st'
    | (st', .error e) => (st', .error e)

/-- As `seqP`, for interpreter functions that can diverge. -/
def seqRun {α : Type} (f : α → St → Option (St × Except Err Unit)) :
    List α → St → Option (St × Except Err Unit)
  | [], st => some (st, .ok ())
  | x :: xs, st =>
    match f x st with
    | none => none
    | some (st', .ok _) => seqRun f xs st'
    | some (st', .error e) => some (st', .error e)

/-- `await p; await q` with rejections propagating. -/
def andThen (o : Option (St × Except Err Unit)) (g : St → Option (St × Except Err Unit)) :
    Option (St × Except Err Unit) :=
  match o with
  | none => none
  | some (st, .ok _) => g st
  | some (st, .error e) => some (st, .error e)

/-- The first rejection decides `Promise.all` (all batched promises settle
together, so array order decides). -/
def firstErr : List (Except Err Unit) → Except Err Unit
  | [] => .ok ()
  | .ok _ :: rest => firstErr rest
  | .error e :: _ => .error e

/-- The `Promise.all(promises)` deletion batch of `processContentTypeBindings`:
every delete is issued when pushed, before any of them is awaited. -/
def deleteBatch (env : Env) (listTitle : Str) (ids : List Str) (st : St) : St × Except Err Unit :=
  ({ st with trace := st.trace
      ++ ids.map (fun i => Event.issue (.deleteContentType listTitle i))
      ++ ids.map (fun i => Event.settle (.deleteContentType listTitle i)
          (exOk (env.deleteContentType listTitle i))) },
    firstErr (ids.map (fun i => env.deleteContentType listTitle i)))

/-- `shouldRemove`: no configured binding occurs in the content type's id, and
the id does not contain the folder marker `0x0120`. -/
def shouldRemove (ctbs : List CTB) (ct : Str) : Bool :=
  ((ctbs.filter (fun b => (firstOccur ct b.ContentTypeID).isSome)).length == 0)
    && !(firstOccur ct ("0x0120".toList)).isSome

def processContentTypeBinding (env : Env) (lc : IList) (ctId : Str) (st : St) :
    St × Except Err Unit :=
  emit st (.addAvailableContentType lc.Title ctId) (env.addAvailableContentType lc.Title ctId)

def processContentTypeBindings (env : Env) (lc : IList) (st : St) : St × Except Err Unit :=
  match lc.ContentTypeBindings with
  | none => (st, .ok ())
  | some ctbs =>
    match seqP (fun b => processContentTypeBinding env lc b.ContentTypeID) ctbs st with
    | (st1, .error e) => (st1, .error e)
    | (st1, .ok _) =>
      if lc.RemoveExistingContentTypes then
        match emit st1 (.getContentTypes lc.Title) (env.getContentTypes lc.Title) with
        | (st2, .error e) => (st2, .error e)
        | (st2, .ok cts) => deleteBatch env lc.Title (cts.filter (shouldRemove ctbs)) st2
      else (st1, .ok ())

def processList (env : Env) (lc : IList) (st : St) : St × Except Err Unit :=
  match emit st (.ensure lc.Title lc.Description lc.Template lc.ContentTypesEnabled
      lc.AdditionalSettings)
      (env.ensure lc.Title lc.Description lc.Template lc.ContentTypesEnabled
        lc.AdditionalSettings) with
  | (st1, .error e) => (st1, .error e)
  | (st1, .ok res) =>
    processContentTypeBindings env lc { st1 with cache := st1.cache ++ [res.data] }

/-- The `try { let field = await list.fields.getById(fAttr.ID); await
field.delete(); } catch (err) { Logger.log(...warning...); }` block of the
TypeScript `processField`: an existence check whose failure is swallowed. -/
def fieldTryBlock (env : Env) (lt fid : Str) (st : St) : St :=
  match emit st (.getFieldById lt fid) (env.getFieldById lt fid) with
  | (st1, .error _) => st1
  | (st1, .ok _) => (emit st1 (.deleteField lt fid) (env.deleteField lt fid)).1

/-- `processField` of the TypeScript source: the `getById`/`delete` try block
swallows its error as an existence check, then the field is created from the
token-substituted XML and its title updated. -/
def processFieldTS (xl : XmlLib) (env : Env) (rfuel : Nat) (lc : IList) (fieldXml : Str)
    (st : St) : Option (St × Except Err Unit) :=
  match tokenLoop (fieldTryBlock env lc.Title (xl.parseAttrs fieldXml).ID st).cache rfuel
      (xl.roundtrip fieldXml) 0 with
  | none => none
  | some (sub, _) =>
    match emit (fieldTryBlock env lc.Title (xl.parseAttrs fieldXml).ID st)
        (.createFieldAsXml lc.Title sub) (env.createFieldAsXml lc.Title sub) with
    | (st3, .error e) => some (st3, .error e)
    | (st3, .ok _) =>
      some (emit st3 (.updateFieldTitle lc.Title (xl.parseAttrs fieldXml).DisplayName)
        (env.updateFieldTitle lc.Title (xl.parseAttrs fieldXml).DisplayName))

/-- `processField` of the compiled `lib/handlers/lists.js`: identical except
that the catch block re-throws (`throw err;`) after logging. -/
def processFieldJS (xl : XmlLib) (env : Env) (rfuel : Nat) (lc : IList) (fieldXml : Str)
    (st : St) : Option (St × Except Err Unit) :=
  match emit st (.getFieldById lc.Title (xl.parseAttrs fieldXml).ID)
      (env.getFieldById lc.Title (xl.parseAttrs fieldXml).ID) with
  | (st1, .error e) => some (st1, .error e)
  | (st1, .ok _) =>
    match emit st1 (.deleteField lc.Title (xl.parseAttrs fieldXml).ID)
        (env.deleteField lc.Title (xl.parseAttrs fieldXml).ID) with
    | (st2, .error e) => some (st2, .error e)
    | (st2, .ok _) =>
      match tokenLoop st2.cache rfuel (xl.roundtrip fieldXml) 0 with
      | none => none
      | some (sub, _) =>
        match emit st2 (.createFieldAsXml lc.Title sub) (env.createFieldAsXml lc.Title sub) with
        | (st3, .error e) => some (st3, .error e)
        | (st3, .ok _) =>
          some (emit st3 (.updateFieldTitle lc.Title (xl.parseAttrs fieldXml).DisplayName)
            (env.updateFieldTitle lc.Title (xl.parseAttrs fieldXml).DisplayName))

def processFields (xl : XmlLib) (env : Env) (rfuel : Nat) (lc : IList) (st : St) :
    Option (St × Except Err Unit) :=
  match lc.Fields with
  | none => some (st, .ok ())
  | some fs => seqRun (fun fx => processFieldTS xl env rfuel lc fx) fs st

def processFieldRef (env : Env) (lc : IList) (fr : FieldRefCfg) (st : St) :
    St × Except Err Unit :=
  emit st (.updateFieldRef lc.Title fr.ID fr.Hidden fr.Required fr.DisplayName)
    (env.updateFieldRef lc.Title fr.ID fr.Hidden fr.Required fr.DisplayName)

def processFieldRefs (env : Env) (lc : IList) (st : St) : St × Except Err Unit :=
  match lc.FieldRefs with
  | none => (st, .ok ())
  | some frs => seqP (processFieldRef env lc) frs st

def processViewFields (env : Env) (listTitle viewTitle : Str) (viewFields : List Str)
    (st : St) : St × Except Err Unit :=
  match emit st (.removeAllViewFields listTitle viewTitle)
      (env.removeAllViewFields listTitle viewTitle) with
  | (st1, .error e) => (st1, .error e)
  | (st1, .ok _) =>
    seqP (fun f st => emit st (.addViewField listTitle viewTitle f)
      (env.addViewField listTitle viewTitle f)) viewFields st1

/-- The catch branch of `processView`: add the view, then set its fields. -/
def viewFallback (env : Env) (lc : IList) (v : ViewCfg) (st : St) : St × Except Err Unit :=
  match emit st (.addView lc.Title v.Title v.PersonalView v.AdditionalSettings)
      (env.addView lc.Title v.Title v.PersonalView v.AdditionalSettings) with
  | (st1, .error e) => (st1, .error e)
  | (st1, .ok _) => processViewFields env lc.Title v.Title v.ViewFields st1

/-- `processView`: the try block covers the `get`, the `update` and the view
fields; any rejection there drops into the add-view fallback. -/
def processView (env : Env) (lc : IList) (v : ViewCfg) (st : St) : St × Except Err Unit :=
  match emit st (.getView lc.Title v.Title) (env.getView lc.Title v.Title) with
  | (st1, .error _) => viewFallback env lc v st1
  | (st1, .ok _) =>
    match emit st1 (.updateView lc.Title v.Title v.AdditionalSettings)
        (env.updateView lc.Title v.Title v.AdditionalSettings) with
    | (st2, .error _) => viewFallback env lc v st2
    | (st2, .ok _) =>
      match processViewFields env lc.Title v.Title v.ViewFields st2 with
      | (st3, .error _) => viewFallback env lc v st3
      | (st3, .ok _) => (st3, .ok ())

def processViews (env : Env) (lc : IList) (st : St) : St × Except Err Unit :=
  match lc.Views with
  | none => (st, .ok ())
  | some vs => seqP (processView env lc) vs st

/-- `ProvisionObjects`: four sequential phases, each a sequential chain over
the configurations in array order; the first uncaught rejection aborts the
rest.  (`scope_started`/`scope_ended` from `HandlerBase` are telemetry, not
remote list operations; the catch re-throws the error unchanged.) -/
def ProvisionObjects (xl : XmlLib) (env : Env) (rfuel : Nat) (lists : List IList) (st : St) :
    Option (St × Except Err Unit) :=
  andThen (some (seqP (processList env) lists st)) (fun st1 =>
    andThen (seqRun (fun lc => processFields xl env rfuel lc) lists st1) (fun st2 =>
      andThen (some (seqP (processFieldRefs env) lists st2)) (fun st3 =>
        some (seqP (processViews env) lists st3))))

/-! ### Trace classifiers and claim-side descriptions -/

/-- The phase a call belongs to: lists (1), fields (2), field refs (3),
views (4). -/
def callPhase : RemoteCall → Nat
  | .ensure .. => 1
  | .addAvailableContentType .. => 1
  | .getContentTypes .. => 1
  | .deleteContentType .. => 1
  | .getFieldById .. => 2
  | .deleteField .. => 2
  | .createFieldAsXml .. => 2
  | .updateFieldTitle .. => 2
  | .updateFieldRef .. => 3
  | .getView .. => 4
  | .updateView .. => 4
  | .addView .. => 4
  | .removeAllViewFields .. => 4
  | .addViewField .. => 4

def evPhase : Event → Nat
  | .issue c => callPhase c
  | .settle c _ => callPhase c

/-- The list title a remote call addresses: every operation of the handler is
made on a list fetched (or ensured) by title, the call's first argument. -/
def callTitle : RemoteCall → Str
  | .ensure t _ _ _ _ => t
  | .addAvailableContentType t _ => t
  | .getContentTypes t => t
  | .deleteContentType t _ => t
  | .getFieldById t _ => t
  | .deleteField t _ => t
  | .createFieldAsXml t _ => t
  | .updateFieldTitle t _ => t
  | .updateFieldRef t _ _ _ _ => t
  | .getView t _ => t
  | .updateView t _ _ => t
  | .addView t _ _ _ => t
  | .removeAllViewFields t _ => t
  | .addViewField t _ _ => t

def evTitle : Event → Str
  | .issue c => callTitle c
  | .settle c _ => callTitle c

def isEnsure : RemoteCall → Bool
  | .ensure .. => true
  | _ => false

def isSettle : Event → Bool
  | .settle _ _ => true
  | _ => false

def issuedCalls (t : List Event) : List RemoteCall :=
  t.filterMap (fun ev => match ev with | .issue c => some c | _ => none)

def ensureCallOf (lc : IList) : RemoteCall :=
  .ensure lc.Title lc.Description lc.Template lc.ContentTypesEnabled lc.AdditionalSettings

/-- The oracle's verdict for a call, used to state that a propagated error is
the remote error itself. -/
def envErrOf (env : Env) : RemoteCall → Option Err
  | .ensure t d tp b s => errOf (env.ensure t d tp b s)
  | .addAvailableContentType a b => errOf (env.addAvailableContentType a b)
  | .getContentTypes a => errOf (env.getContentTypes a)
  | .deleteContentType a b => errOf (env.deleteContentType a b)
  | .getFieldById a b => errOf (env.getFieldById a b)
  | .deleteField a b => errOf (env.deleteField a b)
  | .createFieldAsXml a b => errOf (env.createFieldAsXml a b)
  | .updateFieldTitle a b => errOf (env.updateFieldTitle a b)
  | .updateFieldRef a b c d e => errOf (env.updateFieldRef a b c d e)
  | .getView a b => errOf (env.getView a b)
  | .updateView a b c => errOf (env.updateView a b c)
  | .addView a b c d => errOf (env.addView a b c d)
  | .removeAllViewFields a b => errOf (env.removeAllViewFields a b)
  | .addViewField a b c => errOf (env.addViewField a b c)

/-- Strict sequentiality: the trace is a sequence of issue/settle pairs, each
call settled before the next is issued. -/
def seqOK : List Event → Bool
  | [] => true
  | .issue c :: .settle c' _ :: rest => c == c' && seqOK rest
  | _ => false

/-- The `data` the cache receives for a configuration (meaningful when the
ensure call succeeds). -/
def ensureData (env : Env) (lc : IList) : ListData :=
  match env.ensure lc.Title lc.Description lc.Template lc.ContentTypesEnabled
      lc.AdditionalSettings with
  | .ok r => r.data
  | .error _ => ⟨[], []⟩

def ensureOK (env : Env) (lc : IList) : Bool :=
  exOk (env.ensure lc.Title lc.Description lc.Template lc.ContentTypesEnabled
    lc.AdditionalSettings)

/-- What claim C5 predicts `processView` appends to the trace, as a function
of whether the fetch succeeds (all subsequent calls assumed to succeed). -/
def claimViewTrace (env : Env) (lt : Str) (v : ViewCfg) : List Event :=
  (match env.getView lt v.Title with
   | .error _ =>
     [Event.issue (.getView lt v.Title), Event.settle (.getView lt v.Title) false,
      Event.issue (.addView lt v.Title v.PersonalView v.AdditionalSettings),
      Event.settle (.addView lt v.Title v.PersonalView v.AdditionalSettings) true]
   | .ok _ =>
     [Event.issue (.getView lt v.Title), Event.settle (.getView lt v.Title) true,
      Event.issue (.updateView lt v.Title v.AdditionalSettings),
      Event.settle (.updateView lt v.Title v.AdditionalSettings) true])
  ++ ([Event.issue (.removeAllViewFields lt v.Title),
       Event.settle (.removeAllViewFields lt v.Title) true]
    ++ (v.ViewFields.map (fun f =>
        [Event.issue (.addViewField lt v.Title f),
         Event.settle (.addViewField lt v.Title f) true])).flatten)

def isEnsureIssue : Event → Bool
  | .issue c => isEnsure c
  | _ => false

def isDelIssue : Event → Bool
  | .issue (.deleteContentType _ _) => true
  | _ => false

/-- The field-ref update call of one configured field ref. -/
def refCallOf (lc : IList) (fr : FieldRefCfg) : RemoteCall :=
  .updateFieldRef lc.Title fr.ID fr.Hidden fr.Required fr.DisplayName

/-- The field-ref calls a configuration produces, in configured order. -/
def refCallsOf (lc : IList) : List RemoteCall :=
  (lc.FieldRefs.getD []).map (refCallOf lc)

/-- The claim's per-configuration reading of phase 1: the chunk of
configuration `i` holds exactly the ensure call of configuration `i` (its
content-type calls grouped with it, all on its title), and the chunks stand
in array order. -/
def ListChunks (lists : List IList) (t1 : List Event) (m : Nat) : Prop :=
  ∃ ds : List (List Event), t1 = ds.flatten ∧ ds.length = m ∧
    ∀ i (hi : i < ds.length) (hxi : i < lists.length),
      (issuedCalls (ds.get ⟨i, hi⟩)).filter isEnsure = [ensureCallOf (lists.get ⟨i, hxi⟩)] ∧
      ∀ ev ∈ ds.get ⟨i, hi⟩, evPhase ev = 1 ∧ evTitle ev = (lists.get ⟨i, hxi⟩).Title

/-- The claim's per-configuration reading of a later phase: the phase's trace
is a concatenation of per-configuration chunks in array order, chunk `i`
holding only phase-`k` operations on configuration `i`'s list; a resolving
run has one chunk per configuration. -/
def PhaseChunks (lists : List IList) (k : Nat) (t : List Event) (r : Except Err Unit) : Prop :=
  ∃ ds : List (List Event), t = ds.flatten ∧ ds.length ≤ lists.length ∧
    (∀ i (hi : i < ds.length) (hxi : i < lists.length),
      ∀ ev ∈ ds.get ⟨i, hi⟩, evPhase ev = k ∧ evTitle ev = (lists.get ⟨i, hxi⟩).Title) ∧
    (r = .ok () → ds.length = lists.length)

/-- As `PhaseChunks` for the field-ref phase, plus exactness: chunk `i`
issues a prefix of configuration `i`'s field-ref updates in configured
order — all of them when the run resolves. -/
def RefChunks (lists : List IList) (t3 : List Event) (r : Except Err Unit) : Prop :=
  ∃ ds : List (List Event), t3 = ds.flatten ∧ ds.length ≤ lists.length ∧
    (∀ i (hi : i < ds.length) (hxi : i < lists.length),
      (∀ ev ∈ ds.get ⟨i, hi⟩, evPhase ev = 3 ∧ evTitle ev = (lists.get ⟨i, hxi⟩).Title) ∧
      ∃ rest, refCallsOf (lists.get ⟨i, hxi⟩) = issuedCalls (ds.get ⟨i, hi⟩) ++ rest) ∧
    (r = .ok () → ds.length = lists.length ∧
      ∀ i (hi : i < ds.length) (hxi : i < lists.length),
        issuedCalls (ds.get ⟨i, hi⟩) = refCallsOf (lists.get ⟨i, hxi⟩))

/-- `f` only appends to the trace, and only events satisfying `p`. -/
def TraceExtP (p : Event → Prop) (f : St → St × Except Err Unit) : Prop :=
  ∀ st, ∃ Δ, (f st).1.trace = st.trace ++ Δ ∧ ∀ ev ∈ Δ, p ev

/-- As `TraceExtP`, for possibly diverging interpreter functions. -/
def TraceExt (p : Event → Prop) (f : St → Option (St × Except Err Unit)) : Prop :=
  ∀ st st' r, f st = some (st', r) → ∃ Δ, st'.trace = st.trace ++ Δ ∧ ∀ ev ∈ Δ, p ev

/-- `f` never touches the `this.lists` cache. -/
def CachePresP (f : St → St × Except Err Unit) : Prop :=
  ∀ st, (f st).1.cache = st.cache

def CachePres (f : St → Option (St × Except Err Unit)) : Prop :=
  ∀ st st' r, f st = some (st', r) → st'.cache = st.cache

/-- A rejection `f` propagates is a remote error verbatim: the trace ends with
the failing settle (followed only by the settles of an already-issued
`Promise.all` batch), the failing call was issued, and the propagated error is
exactly the oracle's error for that call. -/
def ErrPropP (env : Env) (f : St → St × Except Err Unit) : Prop :=
  ∀ st st' e, f st = (st', .error e) →
    ∃ pre c tail, st'.trace = st.trace ++ (pre ++ Event.settle c false :: tail) ∧
      Event.issue c ∈ pre ∧ envErrOf env c = some e ∧ ∀ ev ∈ tail, isSettle ev = true

def ErrProp (env : Env) (f : St → Option (St × Except Err Unit)) : Prop :=
  ∀ st st' e, f st = some (st', .error e) →
    ∃ pre c tail, st'.trace = st.trace ++ (pre ++ Event.settle c false :: tail) ∧
      Event.issue c ∈ pre ∧ envErrOf env c = some e ∧ ∀ ev ∈ tail, isSettle ev = true

/-- `f` appends trace chunks that are strictly sequential (issue/settle pairs). -/
def SeqExtP (f : St → St × Except Err Unit) : Prop :=
  ∀ st, ∃ Δ, (f st).1.trace = st.trace ++ Δ ∧ seqOK Δ = true

def SeqExt (f : St → Option (St × Except Err Unit)) : Prop :=
  ∀ st st' r, f st = some (st', r) → ∃ Δ, st'.trace = st.trace ++ Δ ∧ seqOK Δ = true

/-- What a propagated rejection looks like in the appended trace chunk: it is
the oracle's error for a call that was issued, whose failing settle ends the
chunk except possibly for further settles of an already-issued batch. -/
def ErrShape (env : Env) (d : List Event) (r : Except Err Unit) : Prop :=
  ∀ e, r = .error e →
    ∃ pre c tail, d = pre ++ Event.settle c false :: tail ∧ Event.issue c ∈ pre ∧
      envErrOf env c = some e ∧ ∀ ev ∈ tail, isSettle ev = true

/-- Full behaviour bundle of a cache-preserving interpreter function: it
appends a chunk of events satisfying `p`, leaves the cache alone, and any
rejection it returns has `ErrShape`. -/
def ModP (env : Env) (p : Event → Prop) (f : St → St × Except Err Unit) : Prop :=
  ∀ st, ∃ d r, f st = (⟨st.cache, st.trace ++ d⟩, r) ∧ (∀ ev ∈ d, p ev) ∧ ErrShape env d r

/-- As `ModP` for possibly diverging functions. -/
def ModO (env : Env) (p : Event → Prop) (f : St → Option (St × Except Err Unit)) : Prop :=
  ∀ st, f st = none ∨
    ∃ d r, f st = some (⟨st.cache, st.trace ++ d⟩, r) ∧ (∀ ev ∈ d, p ev) ∧ ErrShape env d r

/-! ### Concrete fixtures (environments and configurations) -/

/-- A pure xml library stub: the round trip is the identity and every field
parses to fixed attributes. -/
def xl0 : XmlLib := ⟨fun _ => ⟨"fid".toList, "IntName".toList, "DispName".toList⟩, fun s => s⟩

/-- The list metadata the all-ok environment's `ensure` returns: a list titled
`A` with the GUID-like id `1-2`. -/
def dataA : ListData := ⟨"A".toList, "1-2".toList⟩

/-- An environment in which every remote operation succeeds. -/
def okEnv : Env :=
  ⟨fun _ _ _ _ _ => .ok ⟨true, dataA⟩, fun _ _ => .ok (), fun _ => .ok [],
   fun _ _ => .ok (), fun _ _ => .ok (), fun _ _ => .ok (), fun _ _ => .ok (),
   fun _ _ => .ok (), fun _ _ _ _ _ => .ok (), fun _ _ => .ok (),
   fun _ _ _ => .ok (), fun _ _ _ _ => .ok (), fun _ _ => .ok (), fun _ _ _ => .ok ()⟩

/-- As `okEnv`, but deleting a field rejects with error 7. -/
def envDelFail : Env := { okEnv with deleteField := fun _ _ => .error 7 }

/-- As `okEnv`, but updating a view rejects with error 3. -/
def envUpdFail : Env := { okEnv with updateView := fun _ _ _ => .error 3 }

/-- As `okEnv`, but fetching a view rejects with error 4 (the view does not
exist). -/
def envGetViewFail : Env := { okEnv with getView := fun _ _ => .error 4 }

/-- As `okEnv`, but updating a field ref rejects with error 9. -/
def envRefFail : Env := { okEnv with updateFieldRef := fun _ _ _ _ _ => .error 9 }

/-- As `okEnv`, but the list reports three existing content types, one of them
a folder type. -/
def envCT : Env :=
  { okEnv with getContentTypes :=
      fun _ => .ok ["0xA1".toList, "0xB2".toList, "0x01200B".toList] }

/-- A view configuration with one view field. -/
def v0 : ViewCfg := ⟨"V".toList, false, "vs".toList, ["F1".toList]⟩

/-- A base list configuration: no bindings, fields, field refs or views. -/
def lc0 : IList := ⟨"A".toList, "d".toList, 100, false, "s".toList, none, false, none, none, none⟩

/-- A configuration with one view. -/
def lcV : IList := { lc0 with Views := some [v0] }

/-- A configuration with one content-type binding asking for removal of the
existing content types. -/
def lcCT : IList :=
  { lc0 with ContentTypeBindings := some [⟨"0x9".toList⟩], RemoveExistingContentTypes := true }

/-- A field-ref configuration and a list configuration carrying it. -/
def fr0 : FieldRefCfg := ⟨"fid".toList, false, true, "D".toList⟩

def lcR : IList := { lc0 with FieldRefs := some [fr0] }

/-- A field xml without tokens. -/
def fx0 : Str := "<Field/>".toList

/-- The initial handler state: empty cache, empty trace. -/
def st0 : St := ⟨[], []⟩

/-- A cache mapping the title `A` to the short id `G`. -/
def cacheG : List ListData := [⟨"A".toList, "G".toList⟩]

/-- The trace of the all-ok run over `[lcV]`. -/
def trOkV : List Event :=
  [.issue (.ensure "A".toList "d".toList 100 false "s".toList),
   .settle (.ensure "A".toList "d".toList 100 false "s".toList) true,
   .issue (.getView "A".toList "V".toList),
   .settle (.getView "A".toList "V".toList) true,
   .issue (.updateView "A".toList "V".toList "vs".toList),
   .settle (.updateView "A".toList "V".toList "vs".toList) true,
   .issue (.removeAllViewFields "A".toList "V".toList),
   .settle (.removeAllViewFields "A".toList "V".toList) true,
   .issue (.addViewField "A".toList "V".toList "F1".toList),
   .settle (.addViewField "A".toList "V".toList "F1".toList) true]

/-- The trace of the `envRefFail` run over `[lcR]`: the field-ref update
rejects and the run stops there. -/
def trRefFail : List Event :=
  [.issue (.ensure "A".toList "d".toList 100 false "s".toList),
   .settle (.ensure "A".toList "d".toList 100 false "s".toList) true,
   .issue (.updateFieldRef "A".toList "fid".toList false true "D".toList),
   .settle (.updateFieldRef "A".toList "fid".toList false true "D".toList) false]

/-- The trace of the `envCT` run over `[lcCT]`: the two non-folder content
types are deleted by a `Promise.all` batch — both deletes are issued before
either settles. -/
def trCT : List Event :=
  [.issue (.ensure "A".toList "d".toList 100 false "s".toList),
   .settle (.ensure "A".toList "d".toList 100 false "s".toList) true,
   .issue (.addAvailableContentType "A".toList "0x9".toList),
   .settle (.addAvailableContentType "A".toList "0x9".toList) true,
   .issue (.getContentTypes "A".toList),
   .settle (.getContentTypes "A".toList) true,
   .issue (.deleteContentType "A".toList "0xA1".toList),
   .issue (.deleteContentType "A".toList "0xB2".toList),
   .settle (.deleteContentType "A".toList "0xA1".toList) true,
   .settle (.deleteContentType "A".toList "0xB2".toList) true]

/-- The trace of the `envUpdFail` run over `[lcV]`: the view update rejects
inside `processView`'s try block, and the add-view fallback runs instead. -/
def trUpdFail : List Event :=
  [.issue (.ensure "A".toList "d".toList 100 false "s".toList),
   .settle (.ensure "A".toList "d".toList 100 false "s".toList) true,
   .issue (.getView "A".toList "V".toList),
   .settle (.getView "A".toList "V".toList) true,
   .issue (.updateView "A".toList "V".toList "vs".toList),
   .settle (.updateView "A".toList "V".toList "vs".toList) false,
   .issue (.addView "A".toList "V".toList false "vs".toList),
   .settle (.addView "A".toList "V".toList false "vs".toList) true,
   .issue (.removeAllViewFields "A".toList "V".toList),
   .settle (.removeAllViewFields "A".toList "V".toList) true,
   .issue (.addViewField "A".toList "V".toList "F1".toList),
   .settle (.addViewField "A".toList "V".toList "F1".toList) true]

/-- The trace of the TypeScript `processField` under `envDelFail`: the delete
rejection is swallowed and the create/update still run. -/
def trTSDel : List Event :=
  [.issue (.getFieldById "A".toList "fid".toList),
   .settle (.getFieldById "A".toList "fid".toList) true,
   .issue (.deleteField "A".toList "fid".toList),
   .settle (.deleteField "A".toList "fid".toList) false,
   .issue (.createFieldAsXml "A".toList "<Field/>".toList),
   .settle (.createFieldAsXml "A".toList "<Field/>".toList) true,
   .issue (.updateFieldTitle "A".toList "DispName".toList),
   .settle (.updateFieldTitle "A".toList "DispName".toList) true]

/-- The trace of the compiled-JavaScript `processField` under `envDelFail`:
the rethrown delete rejection stops the run before any create. -/
def trJSDel : List Event :=
  [.issue (.getFieldById "A".toList "fid".toList),
   .settle (.getFieldById "A".toList "fid".toList) true,
   .issue (.deleteField "A".toList "fid".toList),
   .settle (.deleteField "A".toList "fid".toList) false]

/-! ## Shape of a regex match -/

theorem matchLen_nil : matchLen [] = none := rfl

theorem matchLen_cons_ne {c : Char} (h : c ≠ '{') (r : Str) : matchLen (c :: r) = none := by
  simp [matchLen, h]

theorem matchLen_some {s : Str} {l : Nat} (h : matchLen s = some l) :
    ∃ a b t, s = '{' :: (a ++ ':' :: (b ++ '}' :: t)) ∧
      (∀ c ∈ a, isTypeChar c = true) ∧ (∀ c ∈ b, isNameChar c = true) ∧
      l = a.length + b.length + 3 := by
  unfold matchLen at h
  split at h
  · exact absurd h (by simp)
  rename_i c rest
  split at h
  case isFalse => exact absurd h (by simp)
  case isTrue hc =>
    subst hc
    split at h
    · exact absurd h (by simp)
    rename_i d rest2 h1
    split at h
    case isFalse => exact absurd h (by simp)
    case isTrue hd =>
      subst hd
      split at h
      · exact absurd h (by simp)
      rename_i e t h2
      split at h
      case isFalse => exact absurd h (by simp)
      case isTrue he =>
        subst he
        refine ⟨rest.takeWhile isTypeChar, rest2.takeWhile isNameChar, t, ?_, ?_, ?_, ?_⟩
        · have e1 : rest = rest.takeWhile isTypeChar ++ (':' :: rest2) := by
            conv_lhs => rw [← List.takeWhile_append_dropWhile (p := isTypeChar) (l := rest)]
            rw [h1]
          have e2 : rest2 = rest2.takeWhile isNameChar ++ ('}' :: t) := by
            conv_lhs => rw [← List.takeWhile_append_dropWhile (p := isNameChar) (l := rest2)]
            rw [h2]
          rw [← e2, ← e1]
        · intro c hc; exact List.mem_takeWhile_imp hc
        · intro c hc; exact List.mem_takeWhile_imp hc
        · simpa using h.symm

theorem takeWhile_append_cons {p : Char → Bool} {a : Str} (ha : ∀ c ∈ a, p c = true)
    {x : Char} (hx : p x = false) (r : Str) : (a ++ x :: r).takeWhile p = a := by
  induction a with
  | nil => simp [List.takeWhile_cons, hx]
  | cons c t ih =>
    have hc : p c = true := ha c (by simp)
    simp only [List.cons_append, List.takeWhile_cons, hc, if_true]
    rw [ih (fun c h => ha c (by simp [h]))]

theorem dropWhile_append_cons {p : Char → Bool} {a : Str} (ha : ∀ c ∈ a, p c = true)
    {x : Char} (hx : p x = false) (r : Str) : (a ++ x :: r).dropWhile p = x :: r := by
  induction a with
  | nil => simp [List.dropWhile_cons, hx]
  | cons c t ih =>
    have hc : p c = true := ha c (by simp)
    simp only [List.cons_append, List.dropWhile_cons, hc, if_true]
    exact ih (fun c h => ha c (by simp [h]))

theorem matchLen_of_shape {a b : Str} (t : Str) (ha : ∀ c ∈ a, isTypeChar c = true)
    (hb : ∀ c ∈ b, isNameChar c = true) :
    matchLen ('{' :: (a ++ ':' :: (b ++ '}' :: t))) = some (a.length + b.length + 3) := by
  have htc : isTypeChar ':' = false := by decide
  have hnb : isNameChar '}' = false := by decide
  simp only [matchLen, if_pos rfl]
  rw [dropWhile_append_cons ha htc, takeWhile_append_cons ha htc]
  simp only [if_pos rfl]
  rw [dropWhile_append_cons hb hnb, takeWhile_append_cons hb hnb]
  simp

theorem matchLen_three_le {s : Str} {l : Nat} (h : matchLen s = some l) : 3 ≤ l := by
  obtain ⟨a, b, t, _, _, _, hl⟩ := matchLen_some h
  omega

theorem matchLen_le_length {s : Str} {l : Nat} (h : matchLen s = some l) : l ≤ s.length := by
  obtain ⟨a, b, t, hs, _, _, hl⟩ := matchLen_some h
  subst hs; simp; omega

/-- A match is determined by the first `l` characters: whatever follows them
may be replaced. -/
theorem matchLen_congr {x u : Str} {l : Nat} (h : matchLen (x ++ u) = some l)
    (hl : l ≤ x.length) (u' : Str) : matchLen (x ++ u') = some l := by
  obtain ⟨a, b, t, hs, ha, hb, hlen⟩ := matchLen_some h
  subst hlen
  have hshape : x ++ u = ('{' :: (a ++ ':' :: (b ++ ['}']))) ++ t := by
    rw [hs]; simp
  rcases List.append_eq_append_iff.mp hshape.symm with ⟨x', hx, _⟩ | ⟨p', hp, _⟩
  · -- x = P ++ x'
    rw [hx, List.append_assoc]
    have := matchLen_of_shape (t := (x' ++ u')) ha hb
    simpa [List.append_assoc] using this
  · -- P = x ++ p'; lengths force p' = []
    have hlenp : x.length + p'.length = a.length + b.length + 3 := by
      have := congrArg List.length hp
      simp at this; omega
    have hp0 : p'.length = 0 := by omega
    have hpnil : p' = [] := List.length_eq_zero.mp hp0
    rw [hpnil, List.append_nil] at hp
    rw [← hp]
    have := matchLen_of_shape (t := u') ha hb
    simpa [List.append_assoc] using this

/-- Every character in a match is a brace, a colon, or belongs to one of the
two character classes. -/
theorem matchLen_chars {s : Str} {l : Nat} (h : matchLen s = some l) :
    ∀ c ∈ s.take l, c = '{' ∨ c = '}' ∨ c = ':' ∨ isTypeChar c = true ∨ isNameChar c = true := by
  obtain ⟨a, b, t, hs, ha, hb, hlen⟩ := matchLen_some h
  have hshape : s = ('{' :: (a ++ ':' :: (b ++ ['}']))) ++ t := by rw [hs]; simp
  have hplen : ('{' :: (a ++ ':' :: (b ++ ['}']))).length = l := by simp; omega
  rw [hshape, ← hplen, List.take_left]
  intro c hc
  have hca := ha c
  have hcb := hb c
  simp only [List.mem_cons, List.mem_append, List.not_mem_nil, or_false,
    List.mem_singleton] at hc
  tauto

/-! ## Counting matches -/

theorem gm_append : ∀ X Y : Str, gm (X ++ Y) = cc X Y + gm Y := by
  intro X Y
  induction X with
  | nil => simp [gm, cc]
  | cons c t ih =>
    simp only [List.cons_append, gm, cc, List.append_eq, ih]
    omega

theorem cc_zero_of_no_lbrace {X : Str} (h : '{' ∉ X) (Y : Str) : cc X Y = 0 := by
  induction X with
  | nil => rfl
  | cons c t ih =>
    have hc : c ≠ '{' := fun hc => h (hc ▸ List.mem_cons_self c t)
    simp only [cc, List.cons_append, matchLen_cons_ne hc]
    simp [ih (fun hm => h (List.mem_cons_of_mem c hm))]

theorem cc_pos_of_match {X Y : Str} (hX : X ≠ []) (h : (matchLen (X ++ Y)).isSome) :
    1 ≤ cc X Y := by
  match X with
  | [] => exact absurd rfl hX
  | c :: t => simp only [cc, List.cons_append]; simp only [List.cons_append] at h; simp [h]

/-- A match inside `t ++ id ++ B` that starts in `t` cannot reach past `t`
when `id` is GUID-like: it would have to either swallow a character of `id`
that no class accepts, or close with a `}` inside `id`. -/
theorem matchLen_stops {id : Str} (hid : idOK id) {t B : Str} {l : Nat}
    (h : matchLen (t ++ (id ++ B)) = some l) : l ≤ t.length := by
  obtain ⟨hlb, hrb, hdollar, cstar, hcs, hct, hcn, hcc⟩ := hid
  by_contra hlt
  push_neg at hlt
  have hchars := matchLen_chars h
  by_cases hbig : t.length + id.length ≤ l
  · -- the match swallows all of id, in particular the barrier character
    have hmem : cstar ∈ (t ++ (id ++ B)).take l := by
      rw [← List.append_assoc, List.take_append_eq_append_take]
      have h1 : (t ++ id).take l = t ++ id := by
        apply List.take_of_length_le
        simpa using hbig
      rw [h1]
      exact List.mem_append_left _ (List.mem_append_right _ hcs)
    rcases hchars cstar hmem with h | h | h | h | h
    · exact hlb (h ▸ hcs)
    · exact hrb (h ▸ hcs)
    · exact hcc h
    · rw [hct] at h; exact Bool.false_ne_true h
    · rw [hcn] at h; exact Bool.false_ne_true h
  · -- the match would close with a '}' strictly inside id
    push_neg at hbig
    obtain ⟨a, b, tt, hs, ha, hb, hlen⟩ := matchLen_some h
    have hshape : t ++ (id ++ B) = ('{' :: (a ++ ':' :: (b ++ ['}']))) ++ tt := by
      rw [hs]; simp
    have hplen : ('{' :: (a ++ ':' :: (b ++ ['}']))).length = l := by simp; omega
    have hlength : l ≤ (t ++ (id ++ B)).length := matchLen_le_length h
    -- index l-1 of the left side is inside id; of the right side it is '}'
    have hidx : l - 1 < (t ++ (id ++ B)).length := by omega
    have hshape2 : t ++ (id ++ B) = ('{' :: (a ++ ':' :: b)) ++ ('}' :: tt) := by
      rw [hs]; simp
    have hl1 : (t ++ (id ++ B))[l-1] = '}' := by
      rw [List.getElem_of_eq hshape2]
      have hq : ('{' :: (a ++ ':' :: b)).length = l - 1 := by simp; omega
      rw [List.getElem_append_right (by omega)]
      simp [hq]
    have hl2 : (t ++ (id ++ B))[l-1] ∈ id := by
      have h3 : t.length ≤ l - 1 := by omega
      rw [List.getElem_append_right h3]
      have h4 : l - 1 - t.length < id.length := by omega
      rw [List.getElem_append_left h4]
      exact List.getElem_mem _
    rw [hl1] at hl2
    exact hrb hl2

/-- Replacing one match by a GUID-like id strictly decreases the number of
match positions. -/
theorem gm_replace_lt {id : Str} (hid : idOK id) {mid A B : Str}
    (hm : matchLen (mid ++ B) = some mid.length) (hmid : mid ≠ []) :
    gm (A ++ (id ++ B)) < gm (A ++ (mid ++ B)) := by
  have h1 : gm (A ++ (id ++ B)) = cc A (id ++ B) + (cc id B + gm B) := by
    rw [gm_append, gm_append]
  have h2 : gm (A ++ (mid ++ B)) = cc A (mid ++ B) + (cc mid B + gm B) := by
    rw [gm_append, gm_append]
  have hz : cc id B = 0 := cc_zero_of_no_lbrace hid.1 B
  have hpos : 1 ≤ cc mid B := cc_pos_of_match hmid (by simp [hm])
  have hle : cc A (id ++ B) ≤ cc A (mid ++ B) := by
    clear h1 h2
    induction A with
    | nil => simp [cc]
    | cons c t ih =>
      simp only [cc, List.cons_append]
      have hind : (if (matchLen (c :: (t ++ (id ++ B)))).isSome then 1 else 0) ≤
          (if (matchLen (c :: (t ++ (mid ++ B)))).isSome then 1 else 0) := by
        by_cases hmm : (matchLen (c :: (t ++ (id ++ B)))).isSome = true
        · obtain ⟨l, hl⟩ := Option.isSome_iff_exists.mp hmm
          have hl' : matchLen ((c :: t) ++ (id ++ B)) = some l := by
            simpa [List.cons_append] using hl
          have hstop : l ≤ (c :: t).length := matchLen_stops hid hl'
          have hcongr := matchLen_congr hl' hstop (mid ++ B)
          have hs2 : (matchLen (c :: (t ++ (mid ++ B)))).isSome = true := by
            simp only [List.cons_append] at hcongr
            simp [hcongr]
          simp [hmm, hs2]
        · rw [if_neg hmm]
          exact Nat.zero_le _
      simp only [List.cons_append] at hind ⊢
      omega
  omega

theorem gm_drop_le (s : Str) (k : Nat) : gm (s.drop k) ≤ gm s := by
  conv_rhs => rw [← List.take_append_drop k s]
  rw [gm_append]
  omega

theorem gm_pos_of_match {s : Str} {p : Nat} (h : (matchLen (s.drop p)).isSome) :
    1 ≤ gm (s.drop p) := by
  match hd : s.drop p with
  | [] => rw [hd] at h; simp [matchLen_nil] at h
  | c :: t =>
    rw [hd] at h
    simp [gm, h]

/-- With at most one match position in `s`, two match positions coincide. -/
theorem match_uniq_of_gm_le_one {s : Str} (h1 : gm s ≤ 1) {p q : Nat}
    (hp : (matchLen (s.drop p)).isSome) (hq : (matchLen (s.drop q)).isSome) : p = q := by
  by_contra hne
  -- by symmetry assume p < q
  wlog hlt : p < q generalizing p q
  · exact this hq hp (Ne.symm hne) (by omega)
  have hnil : s.drop p ≠ [] := by
    intro hd; rw [hd] at hp; simp [matchLen_nil] at hp
  have h2 : gm (s.drop p) = (if (matchLen (s.drop p)).isSome then 1 else 0) + gm (s.drop (p+1)) := by
    match hd : s.drop p with
    | [] => exact absurd hd hnil
    | c :: t =>
      have ht : s.drop (p+1) = t := by
        rw [← List.tail_drop, hd]; rfl
      rw [ht, ← hd]
      conv_lhs => rw [hd]
      simp [gm, hd]
  have h3 : gm (s.drop q) ≤ gm (s.drop (p+1)) := by
    have : s.drop q = (s.drop (p+1)).drop (q - (p+1)) := by
      rw [List.drop_drop]
      congr 1
      omega
    rw [this]
    exact gm_drop_le _ _
  have h4 : 1 ≤ gm (s.drop q) := gm_pos_of_match hq
  have h5 : gm (s.drop p) ≤ gm s := gm_drop_le s p
  simp only [hp, if_true] at h2
  omega

theorem execFrom_none_of_forall {s : Str} {i : Nat}
    (h : ∀ p, i ≤ p → matchLen (s.drop p) = none) : execFrom s i = none := by
  rw [execFrom]
  split
  · rfl
  · rw [h i (le_refl i)]
    exact execFrom_none_of_forall (fun p hp => h p (by omega))
termination_by s.length - i
decreasing_by simp_wf; omega

theorem execFrom_sound {s : Str} {i j len : Nat} (h : execFrom s i = some (j, len)) :
    i ≤ j ∧ matchLen (s.drop j) = some len := by
  rw [execFrom] at h
  split at h
  · exact absurd h (by simp)
  · rename_i hlen
    split at h
    · rename_i l hml
      simp only [Option.some.injEq, Prod.mk.injEq] at h
      obtain ⟨rfl, rfl⟩ := h
      exact ⟨le_refl _, hml⟩
    · have := execFrom_sound h
      exact ⟨by omega, this.2⟩
termination_by s.length - i
decreasing_by simp_wf; omega

theorem execFrom_none_of_gm_zero {s : Str} (h : gm s = 0) (i : Nat) : execFrom s i = none := by
  apply execFrom_none_of_forall
  intro p _
  by_contra hm
  have : (matchLen (s.drop p)).isSome := by
    cases hml : matchLen (s.drop p) with
    | none => exact absurd hml hm
    | some l => simp
  have h1 := gm_pos_of_match this
  have h2 := gm_drop_le s p
  omega

/-! ## `indexOf` / `replace` -/

theorem isPrefixOf_iff_exists : ∀ p s : Str, p.isPrefixOf s = true ↔ ∃ r, s = p ++ r := by
  intro p
  induction p with
  | nil => intro s; simp [List.isPrefixOf]
  | cons c t ih =>
    intro s
    match s with
    | [] => simp [List.isPrefixOf]
    | d :: u =>
      simp only [List.isPrefixOf, Bool.and_eq_true, beq_iff_eq, ih u, List.cons_append,
        List.cons.injEq]
      constructor
      · rintro ⟨rfl, r, rfl⟩; exact ⟨r, rfl, rfl⟩
      · rintro ⟨r, rfl, rfl⟩; exact ⟨rfl, r, rfl⟩

theorem firstOccur_some {s pat : Str} : ∀ {i : Nat}, firstOccur s pat = some i →
    i ≤ s.length ∧ ∃ r, s.drop i = pat ++ r := by
  induction s with
  | nil =>
    intro i h
    rw [firstOccur.eq_def] at h
    split at h
    · rename_i hp
      simp only [Option.some.injEq] at h
      subst h
      obtain ⟨r, hr⟩ := (isPrefixOf_iff_exists pat []).mp hp
      exact ⟨by simp, r, by simpa using hr⟩
    · simp at h
  | cons c rest ih =>
    intro i h
    rw [firstOccur.eq_def] at h
    split at h
    · rename_i hp
      simp only [Option.some.injEq] at h
      subst h
      obtain ⟨r, hr⟩ := (isPrefixOf_iff_exists pat (c :: rest)).mp hp
      exact ⟨by simp, r, by simpa using hr⟩
    · simp only [Option.map_eq_some'] at h
      obtain ⟨j, hj, rfl⟩ := h
      obtain ⟨hle, r, hr⟩ := ih hj
      exact ⟨by simp; omega, r, by simpa using hr⟩

theorem firstOccur_isSome_of {s pat : Str} (h : ∃ u v, s = u ++ (pat ++ v)) :
    (firstOccur s pat).isSome := by
  obtain ⟨u, v, rfl⟩ := h
  induction u with
  | nil =>
    rw [firstOccur.eq_def]
    have : pat.isPrefixOf ([] ++ (pat ++ v)) = true := by
      rw [isPrefixOf_iff_exists]; exact ⟨v, by simp⟩
    rw [if_pos this]; simp
  | cons c t ih =>
    rw [firstOccur.eq_def]
    split
    · simp
    · simp only [List.cons_append]
      cases hfo : firstOccur (t ++ (pat ++ v)) pat with
      | none => rw [hfo] at ih; simp at ih
      | some j => simp

theorem firstOccur_isSome_iff {s pat : Str} :
    (firstOccur s pat).isSome ↔ ∃ u v, s = u ++ (pat ++ v) := by
  constructor
  · intro h
    obtain ⟨i, hi⟩ := Option.isSome_iff_exists.mp h
    obtain ⟨hle, r, hr⟩ := firstOccur_some hi
    exact ⟨s.take i, r, by rw [← hr, List.take_append_drop]⟩
  · exact firstOccur_isSome_of

/-- Decomposition of the string at the first occurrence used by `replace`. -/
theorem firstOccur_decomp {s pat : Str} {f : Nat} (h : firstOccur s pat = some f) :
    s = s.take f ++ (pat ++ s.drop (f + pat.length)) := by
  obtain ⟨hle, r, hr⟩ := firstOccur_some h
  have h1 : (s.drop f).drop pat.length = r := by rw [hr, List.drop_left]
  have hdrop : s.drop (f + pat.length) = r := by
    rw [← h1, List.drop_drop, Nat.add_comm]
  rw [hdrop]
  conv_lhs => rw [← List.take_append_drop f s]
  rw [hr]

theorem expandRepl_no_dollar {repl : Str} (h : '$' ∉ repl) (mtch before after : Str) :
    expandRepl mtch before after repl = repl := by
  induction repl with
  | nil => rfl
  | cons c rest ih =>
    rw [List.mem_cons, not_or] at h
    obtain ⟨h1, h2⟩ := h
    have hc : ¬ c = '$' := fun hh => h1 hh.symm
    rw [expandRepl.eq_def]
    dsimp only
    rw [if_neg hc, ih h2]

/-- On a `$`-free replacement, `replace` inserts the replacement literally. -/
theorem replaceFirst_eq {s pat : Str} {f : Nat} (h : firstOccur s pat = some f) {repl : Str}
    (hrep : '$' ∉ repl) :
    replaceFirst s pat repl = s.take f ++ repl ++ s.drop (f + pat.length) := by
  simp [replaceFirst, h, expandRepl_no_dollar hrep]

/-! ## The token-replacement loop -/

theorem tokenLoop_zero (cache : List ListData) (s : Str) (li : Nat) :
    tokenLoop cache 0 s li = none := rfl

theorem tokenLoop_succ_none {s : Str} {li : Nat} (cache : List ListData) (fuel : Nat)
    (h : execFrom s li = none) : tokenLoop cache (fuel + 1) s li = some (s, 0) := by
  simp [tokenLoop, h]

theorem tokenLoop_succ_some {s : Str} {li i len : Nat} (cache : List ListData) (fuel : Nat)
    (h : execFrom s li = some (i, len)) :
    tokenLoop cache (fuel + 1) s li =
      tokenLoop cache fuel (tokenStep cache s i len)
        (if i = i + len then i + len + 1 else i + len) := by
  simp [tokenLoop, h]

theorem tokenLoop_snd_zero {cache : List ListData} :
    ∀ {fuel : Nat} {s : Str} {li : Nat} {r : Str × Nat},
      tokenLoop cache fuel s li = some r → r.2 = 0 := by
  intro fuel
  induction fuel with
  | zero => intro s li r h; exact absurd h (by simp [tokenLoop_zero])
  | succ fuel ih =>
    intro s li r h
    cases hx : execFrom s li with
    | none =>
      rw [tokenLoop_succ_none cache fuel hx] at h
      simp only [Option.some.injEq] at h
      rw [← h]
    | some p =>
      obtain ⟨i, len⟩ := p
      rw [tokenLoop_succ_some cache fuel hx] at h
      exact ih h

theorem tokenLoop_mono {cache : List ListData} :
    ∀ {fuel : Nat} {s : Str} {li : Nat} {r : Str × Nat},
      tokenLoop cache fuel s li = some r → tokenLoop cache (fuel + 1) s li = some r := by
  intro fuel
  induction fuel with
  | zero => intro s li r h; exact absurd h (by simp [tokenLoop_zero])
  | succ fuel ih =>
    intro s li r h
    cases hx : execFrom s li with
    | none =>
      rw [tokenLoop_succ_none cache fuel hx] at h
      rw [tokenLoop_succ_none cache (fuel + 1) hx]
      exact h
    | some p =>
      obtain ⟨i, len⟩ := p
      rw [tokenLoop_succ_some cache fuel hx] at h
      rw [tokenLoop_succ_some cache (fuel + 1) hx]
      exact ih h

theorem tokenLoop_mono_le {cache : List ListData} {fuel fuel' : Nat} {s : Str} {li : Nat}
    {r : Str × Nat} (hle : fuel ≤ fuel') (h : tokenLoop cache fuel s li = some r) :
    tokenLoop cache fuel' s li = some r := by
  induction fuel' with
  | zero =>
    have : fuel = 0 := by omega
    subst this; exact h
  | succ fuel' ih =>
    rcases Nat.lt_or_ge fuel (fuel' + 1) with hlt | hge
    · exact tokenLoop_mono (ih (by omega))
    · have : fuel = fuel' + 1 := by omega
      subst this; exact h

/-! ## Decoding a matched token -/

theorem typeChar_props {c : Char} (h : isTypeChar c = true) :
    c ≠ '{' ∧ c ≠ '}' ∧ c ≠ ':' := by
  refine ⟨?_, ?_, ?_⟩ <;> (rintro rfl; revert h; decide)

theorem nameChar_props {c : Char} (h : isNameChar c = true) :
    c ≠ '{' ∧ c ≠ '}' ∧ c ≠ ':' := by
  refine ⟨?_, ?_, ?_⟩ <;> (rintro rfl; revert h; decide)

theorem splitColon_ne_nil : ∀ b : Str, splitColon b ≠ [] := by
  intro b
  match b with
  | [] => simp [splitColon]
  | c :: rest =>
    simp only [splitColon]
    split
    · simp
    · split <;> simp

theorem splitColon_no_colon {b : Str} (h : ':' ∉ b) : splitColon b = [b] := by
  induction b with
  | nil => rfl
  | cons c t ih =>
    have hc : c ≠ ':' := fun hc => h (hc ▸ List.mem_cons_self c t)
    have ht := ih (fun hm => h (List.mem_cons_of_mem c hm))
    simp [splitColon, ht, hc]

theorem splitColon_append {a : Str} (h : ':' ∉ a) (r : Str) :
    splitColon (a ++ ':' :: r) = a :: splitColon r := by
  induction a with
  | nil =>
    simp only [List.nil_append, splitColon]
    match hr : splitColon r with
    | [] => exact absurd hr (splitColon_ne_nil r)
    | p :: ps => simp
  | cons c t ih =>
    have hc : c ≠ ':' := fun hc => h (hc ▸ List.mem_cons_self c t)
    have ht := ih (fun hm => h (List.mem_cons_of_mem c hm))
    simp only [List.cons_append, splitColon, List.append_eq]
    rw [ht]
    simp [hc]

theorem tokenParts_shape {a b : Str} (ha : ∀ c ∈ a, isTypeChar c = true)
    (hb : ∀ c ∈ b, isNameChar c = true) :
    tokenParts ('{' :: (a ++ ':' :: (b ++ ['}']))) = (a, some b) := by
  have hfa : ∀ c ∈ a, (!(c == '{' || c == '}')) = true := by
    intro c hc
    obtain ⟨h1, h2, _⟩ := typeChar_props (ha c hc)
    simp [h1, h2]
  have hfb : ∀ c ∈ b, (!(c == '{' || c == '}')) = true := by
    intro c hc
    obtain ⟨h1, h2, _⟩ := nameChar_props (hb c hc)
    simp [h1, h2]
  have hstrip : ('{' :: (a ++ ':' :: (b ++ ['}']))).filter (fun c => !(c == '{' || c == '}'))
      = a ++ ':' :: b := by
    rw [List.filter_cons, if_neg (by decide), List.filter_append,
      List.filter_eq_self.mpr hfa, List.filter_cons, if_pos (by decide),
      List.filter_append, List.filter_eq_self.mpr hfb, List.filter_cons, if_neg (by decide),
      List.filter_nil, List.append_nil]
  have hca : ':' ∉ a := fun hm => (typeChar_props (ha _ hm)).2.2 rfl
  have hcb : ':' ∉ b := fun hm => (nameChar_props (hb _ hm)).2.2 rfl
  simp only [tokenParts]
  rw [hstrip, splitColon_append hca, splitColon_no_colon hcb]
  rfl

/-- The matched text `(s.drop i).take len` has the canonical token shape. -/
theorem match_take_shape {s : Str} {i len : Nat} (h : matchLen (s.drop i) = some len) :
    ∃ a b, (s.drop i).take len = '{' :: (a ++ ':' :: (b ++ ['}'])) ∧
      (∀ c ∈ a, isTypeChar c = true) ∧ (∀ c ∈ b, isNameChar c = true) ∧
      len = a.length + b.length + 3 := by
  obtain ⟨a, b, t, hs, ha, hb, hlen⟩ := matchLen_some h
  refine ⟨a, b, ?_, ha, hb, hlen⟩
  have hshape : s.drop i = ('{' :: (a ++ ':' :: (b ++ ['}']))) ++ t := by rw [hs]; simp
  have hplen : ('{' :: (a ++ ':' :: (b ++ ['}']))).length = len := by simp; omega
  rw [hshape, ← hplen, List.take_left]

/-- Re-match: the matched text itself, wherever it occurs, is a match of the
same length. -/
theorem matchLen_match_text {s : Str} {i len : Nat} (h : matchLen (s.drop i) = some len)
    (u : Str) : matchLen ((s.drop i).take len ++ u) = some len := by
  have hle : len ≤ (s.drop i).length := matchLen_le_length h
  have hx : (s.drop i).take len ++ (s.drop i).drop len = s.drop i := List.take_append_drop _ _
  have h' : matchLen ((s.drop i).take len ++ (s.drop i).drop len) = some len := by rw [hx]; exact h
  have hlen2 : len ≤ ((s.drop i).take len).length := by
    rw [List.length_take]
    exact Nat.le_min.mpr ⟨Nat.le_refl _, hle⟩
  exact matchLen_congr h' hlen2 u

theorem lookupUnique_eq_uniqueTitleId (cache : List ListData) (name : Str) :
    lookupUnique cache (some name) = uniqueTitleId cache name := by
  unfold lookupUnique uniqueTitleId
  have hfil : cache.filter (fun l => some name == some l.Title)
      = cache.filter (fun l => decide (l.Title = name)) := by
    apply List.filter_congr
    intro l _
    by_cases h : l.Title = name
    · simp [h]
    · have h2 : ¬ name = l.Title := fun hh => h hh.symm
      simp [h, h2]
  rw [hfil]

theorem uniqueTitleId_mem {cache : List ListData} {name id : Str}
    (h : uniqueTitleId cache name = some id) : ∃ l ∈ cache, l.Id = id := by
  unfold uniqueTitleId at h
  split at h
  · rename_i l hl
    simp only [Option.some.injEq] at h
    have : l ∈ cache.filter (fun l => decide (l.Title = name)) := by rw [hl]; simp
    exact ⟨l, List.mem_of_mem_filter this, h⟩
  · exact absurd h (by simp)

theorem tokenTypeAt_shape {s : Str} {i len : Nat} {a b : Str}
    (hm : (s.drop i).take len = '{' :: (a ++ ':' :: (b ++ ['}'])))
    (ha : ∀ c ∈ a, isTypeChar c = true) : tokenTypeAt s i len = a := by
  unfold tokenTypeAt
  rw [hm]
  simp only [List.drop_one, List.tail_cons]
  have hfa : ∀ c ∈ a, (c != ':') = true := by
    intro c hc
    have := (typeChar_props (ha c hc)).2.2
    simp [this]
  have hcol : (':' != ':') = false := by decide
  exact takeWhile_append_cons hfa hcol _

theorem tokenNameAt_shape {s : Str} {i len : Nat} {a b : Str}
    (hm : (s.drop i).take len = '{' :: (a ++ ':' :: (b ++ ['}'])))
    (ha : ∀ c ∈ a, isTypeChar c = true) : tokenNameAt s i len = b := by
  unfold tokenNameAt
  rw [hm]
  simp only [List.drop_one, List.tail_cons]
  have hfa : ∀ c ∈ a, (c != ':') = true := by
    intro c hc
    have := (typeChar_props (ha c hc)).2.2
    simp [this]
  have hcol : (':' != ':') = false := by decide
  rw [dropWhile_append_cons hfa hcol _]
  simp only [List.drop_one, List.tail_cons]
  exact List.dropLast_concat

theorem lookupUnique_mem {cache : List ListData} {va : Option Str} {id : Str}
    (h : lookupUnique cache va = some id) : ∃ l ∈ cache, l.Id = id := by
  unfold lookupUnique at h
  split at h
  · rename_i l hl
    simp only [Option.some.injEq] at h
    have : l ∈ cache.filter (fun l => va == some l.Title) := by rw [hl]; simp
    exact ⟨l, List.mem_of_mem_filter this, h⟩
  · exact absurd h (by simp)

/-- One loop iteration either leaves the string alone or strictly decreases
the number of match positions (for GUID-like cached ids). -/
theorem tokenStep_gm_lt {cache : List ListData} (hca : ∀ l ∈ cache, idOK l.Id)
    {s : Str} {i len : Nat} (hml : matchLen (s.drop i) = some len) :
    tokenStep cache s i len = s ∨ gm (tokenStep cache s i len) < gm s := by
  unfold tokenStep
  by_cases hty : (tokenParts ((s.drop i).take len)).1 = "listid".toList
  · rw [if_pos hty]
    cases hlu : lookupUnique cache (tokenParts ((s.drop i).take len)).2 with
    | none => exact Or.inl rfl
    | some id =>
      right
      obtain ⟨l, hlmem, rfl⟩ := lookupUnique_mem hlu
      have hid := hca l hlmem
      have hlenle : len ≤ (s.drop i).length := matchLen_le_length hml
      have hlen_m : ((s.drop i).take len).length = len := by
        rw [List.length_take]; exact Nat.min_eq_left hlenle
      have hocc : ∃ u v, s = u ++ ((s.drop i).take len ++ v) := by
        refine ⟨s.take i, (s.drop i).drop len, ?_⟩
        rw [List.take_append_drop, List.take_append_drop]
      obtain ⟨f, hf⟩ := Option.isSome_iff_exists.mp (firstOccur_isSome_of hocc)
      show gm (replaceFirst s ((s.drop i).take len) l.Id) < gm s
      rw [replaceFirst_eq hf hid.2.2.1]
      have hdec : s = s.take f ++ ((s.drop i).take len ++
          s.drop (f + ((s.drop i).take len).length)) := firstOccur_decomp hf
      have hmm : matchLen ((s.drop i).take len ++
          s.drop (f + ((s.drop i).take len).length)) = some ((s.drop i).take len).length := by
        rw [hlen_m]
        exact matchLen_match_text hml _
      have hne : (s.drop i).take len ≠ [] := by
        have := matchLen_three_le hml
        intro hnil
        rw [hnil] at hlen_m
        simp at hlen_m
        omega
      have hlt := gm_replace_lt hid hmm hne (A := s.take f)
      rw [List.append_assoc]
      calc gm (s.take f ++ (l.Id ++ s.drop (f + ((s.drop i).take len).length)))
          < gm (s.take f ++ ((s.drop i).take len ++
              s.drop (f + ((s.drop i).take len).length))) := hlt
        _ = gm s := by rw [← hdec]
  · rw [if_neg hty]
    exact Or.inl rfl

/-- The loop terminates for GUID-like cached ids: lexicographic descent on
(number of match positions, distance from `lastIndex` to the end). -/
theorem tokenLoop_term (cache : List ListData) (hca : ∀ l ∈ cache, idOK l.Id) :
    ∀ n k s li, gm s ≤ n → s.length ≤ li + k →
      ∃ fuel r, tokenLoop cache fuel s li = some r := by
  intro n
  induction n with
  | zero =>
    intro k s li hg _
    exact ⟨1, (s, 0), tokenLoop_succ_none cache 0 (execFrom_none_of_gm_zero (by omega) li)⟩
  | succ n ihn =>
    intro k
    induction k using Nat.strong_induction_on with
    | _ k ihk =>
      intro s li hg hk
      cases hx : execFrom s li with
      | none => exact ⟨1, (s, 0), tokenLoop_succ_none cache 0 hx⟩
      | some p =>
        obtain ⟨i, len⟩ := p
        obtain ⟨hle, hml⟩ := execFrom_sound hx
        have h3 := matchLen_three_le hml
        have hlen := matchLen_le_length hml
        have hdl : (s.drop i).length = s.length - i := by simp
        have hguard : ¬ i = i + len := by omega
        have hil : i + len ≤ s.length := by omega
        rcases tokenStep_gm_lt hca hml with heq | hlt
        · have hk3 : 3 ≤ k := by omega
          obtain ⟨fuel, r, hr⟩ := ihk (k - 3) (by omega) s (i + len) hg (by omega)
          refine ⟨fuel + 1, r, ?_⟩
          rw [tokenLoop_succ_some cache fuel hx, if_neg hguard, heq]
          exact hr
        · obtain ⟨fuel, r, hr⟩ := ihn (tokenStep cache s i len).length
            (tokenStep cache s i len) (i + len) (by omega) (by omega)
          refine ⟨fuel + 1, r, ?_⟩
          rw [tokenLoop_succ_some cache fuel hx, if_neg hguard]
          exact hr

/-! ## The non-termination counterexample -/

theorem repA_length : ∀ k, (repList tokA k).length = 10 * k := by
  intro k
  induction k with
  | zero => rfl
  | succ k ih =>
    show (tokA ++ repList tokA k).length = 10 * (k + 1)
    rw [List.length_append, ih]
    have h10 : tokA.length = 10 := by decide
    rw [h10]; ring

theorem repA_drop : ∀ k, (repList tokA (k + 1)).drop (10 * k) = tokA := by
  intro k
  induction k with
  | zero =>
    show (tokA ++ repList tokA 0).drop 0 = tokA
    simp [repList]
  | succ k ih =>
    show (tokA ++ repList tokA (k + 1)).drop (10 * (k + 1)) = tokA
    have h10 : 10 * (k + 1) = tokA.length + 10 * k := by
      have : tokA.length = 10 := by decide
      rw [this]; ring
    rw [h10, List.drop_append]
    exact ih

theorem tokenStepA (k : Nat) :
    tokenStep cacheA (repList tokA (k + 1)) (10 * k) 10 = repList tokA (k + 2) := by
  unfold tokenStep
  rw [repA_drop k]
  have htake : tokA.take 10 = tokA := by decide
  rw [htake]
  rw [if_pos (by decide : (tokenParts tokA).1 = "listid".toList)]
  have hlu : lookupUnique cacheA (tokenParts tokA).2 = some idA := by decide
  rw [hlu]
  show replaceFirst (repList tokA (k + 1)) tokA idA = repList tokA (k + 2)
  have hpre : tokA.isPrefixOf (repList tokA (k + 1)) = true :=
    (isPrefixOf_iff_exists tokA (repList tokA (k + 1))).mpr ⟨repList tokA k, rfl⟩
  have hfo : firstOccur (repList tokA (k + 1)) tokA = some 0 := by
    rw [firstOccur.eq_def]
    rw [if_pos hpre]
  rw [replaceFirst_eq hfo (by decide)]
  simp only [List.take_zero, List.nil_append, Nat.zero_add]
  have hdrop10 : (repList tokA (k + 1)).drop tokA.length = repList tokA k :=
    List.drop_left tokA (repList tokA k)
  rw [hdrop10]
  have hidA : idA = tokA ++ tokA := by decide
  rw [hidA]
  show tokA ++ tokA ++ repList tokA k = tokA ++ (tokA ++ repList tokA k)
  rw [List.append_assoc]

theorem tokenLoopA_none : ∀ fuel k, tokenLoop cacheA fuel (repList tokA (k + 1)) (10 * k) = none := by
  intro fuel
  induction fuel with
  | zero => intro k; rfl
  | succ fuel ih =>
    intro k
    have hml : matchLen ((repList tokA (k + 1)).drop (10 * k)) = some 10 := by
      rw [repA_drop k]; decide
    have hx : execFrom (repList tokA (k + 1)) (10 * k) = some (10 * k, 10) := by
      rw [execFrom]
      rw [dif_neg (by rw [repA_length]; omega)]
      rw [hml]
    rw [tokenLoop_succ_some cacheA fuel hx, if_neg (by omega), tokenStepA k]
    have h2 : 10 * k + 10 = 10 * (k + 1) := by ring
    rw [h2]
    exact ih (k + 1)

/-! ## Single-token characterization of the replacement -/

theorem tokenLoop_single (cache : List ListData) (s : Str)
    (hca : ∀ l ∈ cache, idOK l.Id) (h1 : gm s ≤ 1) :
    ∀ fuel, 2 ≤ fuel → tokenLoop cache fuel s 0 = some (singleSpec cache s) := by
  intro fuel hfuel
  obtain ⟨f2, rfl⟩ : ∃ f2, fuel = f2 + 2 := ⟨fuel - 2, by omega⟩
  cases hx : execFrom s 0 with
  | none =>
    rw [tokenLoop_succ_none cache (f2 + 1) hx]
    unfold singleSpec
    rw [hx]
  | some p =>
    obtain ⟨i, len⟩ := p
    obtain ⟨-, hml⟩ := execFrom_sound hx
    have h3 := matchLen_three_le hml
    have hguard : ¬ i = i + len := by omega
    obtain ⟨a, b, hmtch, ha, hb, hlen⟩ := match_take_shape hml
    have hta := tokenTypeAt_shape hmtch ha
    have htb := tokenNameAt_shape hmtch ha
    have hparts : tokenParts ((s.drop i).take len) = (a, some b) := by
      rw [hmtch]; exact tokenParts_shape ha hb
    have huniq : ∀ p, (matchLen (s.drop p)).isSome → p = i := fun p hp =>
      match_uniq_of_gm_le_one h1 hp (by simp [hml])
    have hnoneS : execFrom s (i + len) = none := by
      apply execFrom_none_of_forall
      intro p hp
      by_contra hmm
      have hps : (matchLen (s.drop p)).isSome := by
        cases hmp : matchLen (s.drop p) with
        | none => exact absurd hmp hmm
        | some _ => simp
      have := huniq p hps
      omega
    by_cases hty : a = "listid".toList
    · cases hlu : uniqueTitleId cache b with
      | none =>
        have hlu' : lookupUnique cache (some b) = none := by
          rw [lookupUnique_eq_uniqueTitleId]; exact hlu
        have hstep : tokenStep cache s i len = s := by
          simp [tokenStep, hparts, hty, hlu']
        rw [tokenLoop_succ_some cache (f2 + 1) hx, if_neg hguard, hstep,
          tokenLoop_succ_none cache f2 hnoneS]
        simp [singleSpec, hx, hta, htb, hty, hlu]
      | some id =>
        have hlu' : lookupUnique cache (some b) = some id := by
          rw [lookupUnique_eq_uniqueTitleId]; exact hlu
        have hid : idOK id := by
          obtain ⟨l, hm, rfl⟩ := uniqueTitleId_mem hlu
          exact hca l hm
        have hlenle : len ≤ (s.drop i).length := matchLen_le_length hml
        have hlen_m : ((s.drop i).take len).length = len := by
          rw [List.length_take]; exact Nat.min_eq_left hlenle
        have hocc : ∃ u v, s = u ++ ((s.drop i).take len ++ v) :=
          ⟨s.take i, (s.drop i).drop len, by rw [List.take_append_drop, List.take_append_drop]⟩
        obtain ⟨f, hf⟩ := Option.isSome_iff_exists.mp (firstOccur_isSome_of hocc)
        obtain ⟨-, r, hr⟩ := firstOccur_some hf
        have hmf : matchLen (s.drop f) = some len := by
          rw [hr]
          exact matchLen_match_text hml r
        have hfi : f = i := huniq f (by simp [hmf])
        subst hfi
        have hstep : tokenStep cache s f len = s.take f ++ id ++ s.drop (f + len) := by
          have h0 : tokenStep cache s f len = replaceFirst s ((s.drop f).take len) id := by
            simp [tokenStep, hparts, hty, hlu']
          rw [h0, replaceFirst_eq hf hid.2.2.1, hlen_m]
        have hmm : matchLen ((s.drop f).take len ++
            s.drop (f + ((s.drop f).take len).length)) = some ((s.drop f).take len).length := by
          rw [hlen_m]
          exact matchLen_match_text hml _
        have hne : (s.drop f).take len ≠ [] := by
          intro hnil
          rw [hnil] at hlen_m
          simp at hlen_m
          omega
        have hdec := firstOccur_decomp hf
        rw [hlen_m] at hdec
        have hlt : gm (s.take f ++ id ++ s.drop (f + len)) < gm s := by
          have hstep2 := gm_replace_lt hid hmm hne (A := s.take f)
          rw [hlen_m] at hstep2
          rw [List.append_assoc]
          calc gm (s.take f ++ (id ++ s.drop (f + len))) <
              gm (s.take f ++ ((s.drop f).take len ++ s.drop (f + len))) := hstep2
            _ = gm s := by rw [← hdec]
        have hgm0 : gm (s.take f ++ id ++ s.drop (f + len)) = 0 := by omega
        have hnone2 : execFrom (s.take f ++ id ++ s.drop (f + len)) (f + len) = none :=
          execFrom_none_of_gm_zero hgm0 _
        rw [tokenLoop_succ_some cache (f2 + 1) hx, if_neg hguard, hstep,
          tokenLoop_succ_none cache f2 hnone2]
        simp [singleSpec, hx, hta, htb, hty, hlu]
    · have htyx : ¬ a = ['l', 'i', 's', 't', 'i', 'd'] := by simpa using hty
      have hstep : tokenStep cache s i len = s := by
        simp [tokenStep, hparts, htyx]
      rw [tokenLoop_succ_some cache (f2 + 1) hx, if_neg hguard, hstep,
        tokenLoop_succ_none cache f2 hnoneS]
      simp [singleSpec, hx, hta, htyx]

/-! ## Trace combinators -/

theorem TraceExtP_emit {p : Event → Prop} {c : RemoteCall} {r : Except Err Unit}
    (hp : p (.issue c)) (hs : ∀ b, p (.settle c b)) :
    TraceExtP p (fun st => emit st c r) := by
  intro st
  refine ⟨[.issue c, .settle c (exOk r)], rfl, ?_⟩
  intro ev hev
  rcases List.mem_cons.mp hev with rfl | hev
  · exact hp
  rcases List.mem_cons.mp hev with rfl | hev
  · exact hs _
  · simp at hev

theorem TraceExtP_seqP {α : Type} {p : Event → Prop} {f : α → St → St × Except Err Unit}
    (h : ∀ x, TraceExtP p (f x)) : ∀ xs, TraceExtP p (fun st => seqP f xs st) := by
  intro xs
  induction xs with
  | nil => intro st; exact ⟨[], by simp [seqP], by simp⟩
  | cons x rest ih =>
    intro st
    rcases hfx : f x st with ⟨st1, r1⟩
    have h1 := h x st
    rw [hfx] at h1
    obtain ⟨d1, hd1, hp1⟩ := h1
    cases r1 with
    | ok u =>
      obtain ⟨d2, hd2, hp2⟩ := ih st1
      refine ⟨d1 ++ d2, ?_, ?_⟩
      · show (seqP f (x :: rest) st).1.trace = _
        simp only [seqP, hfx]
        rw [hd2, hd1, List.append_assoc]
      · intro ev hev
        rcases List.mem_append.mp hev with hm | hm
        exacts [hp1 ev hm, hp2 ev hm]
    | error e =>
      refine ⟨d1, ?_, hp1⟩
      show (seqP f (x :: rest) st).1.trace = _
      simp only [seqP, hfx]
      exact hd1

theorem TraceExt_of_P {p : Event → Prop} {f : St → St × Except Err Unit}
    (h : TraceExtP p f) : TraceExt p (fun st => some (f st)) := by
  intro st st' r hst
  obtain ⟨d, hd, hp⟩ := h st
  simp only [Option.some.injEq] at hst
  rw [hst] at hd
  exact ⟨d, hd, hp⟩

theorem TraceExt_seqRun {α : Type} {p : Event → Prop}
    {f : α → St → Option (St × Except Err Unit)}
    (h : ∀ x, TraceExt p (f x)) : ∀ xs, TraceExt p (fun st => seqRun f xs st) := by
  intro xs
  induction xs with
  | nil =>
    intro st st' r hst
    simp only [seqRun, Option.some.injEq, Prod.mk.injEq] at hst
    obtain ⟨rfl, rfl⟩ := hst
    exact ⟨[], by simp, by simp⟩
  | cons x rest ih =>
    intro st st' r hst
    simp only [seqRun] at hst
    cases hfx : f x st with
    | none => rw [hfx] at hst; simp at hst
    | some pr =>
      obtain ⟨st1, r1⟩ := pr
      rw [hfx] at hst
      obtain ⟨d1, hd1, hp1⟩ := h x st st1 r1 hfx
      cases r1 with
      | ok u =>
        simp only at hst
        obtain ⟨d2, hd2, hp2⟩ := ih st1 st' r hst
        refine ⟨d1 ++ d2, ?_, ?_⟩
        · rw [hd2, hd1, List.append_assoc]
        · intro ev hev
          rcases List.mem_append.mp hev with hm | hm
          exacts [hp1 ev hm, hp2 ev hm]
      | error e =>
        simp only [Option.some.injEq, Prod.mk.injEq] at hst
        obtain ⟨rfl, rfl⟩ := hst
        exact ⟨d1, hd1, hp1⟩

theorem TraceExt_andThen {p : Event → Prop} {F : St → Option (St × Except Err Unit)}
    {G : St → Option (St × Except Err Unit)} (hF : TraceExt p F) (hG : TraceExt p G) :
    TraceExt p (fun st => andThen (F st) G) := by
  intro st st' r hst
  simp only [andThen] at hst
  cases hf : F st with
  | none => rw [hf] at hst; simp at hst
  | some pr =>
    obtain ⟨st1, r1⟩ := pr
    rw [hf] at hst
    obtain ⟨d1, hd1, hp1⟩ := hF st st1 r1 hf
    cases r1 with
    | ok u =>
      simp only at hst
      obtain ⟨d2, hd2, hp2⟩ := hG st1 st' r hst
      refine ⟨d1 ++ d2, ?_, ?_⟩
      · rw [hd2, hd1, List.append_assoc]
      · intro ev hev
        rcases List.mem_append.mp hev with hm | hm
        exacts [hp1 ev hm, hp2 ev hm]
    | error e =>
      simp only [Option.some.injEq, Prod.mk.injEq] at hst
      obtain ⟨rfl, rfl⟩ := hst
      exact ⟨d1, hd1, hp1⟩

/-! ## Behaviour bundles of the interpreter functions -/

theorem ErrShape_ok (env : Env) (d : List Event) : ErrShape env d (.ok ()) := by
  intro e he
  exact absurd he (by simp)

theorem ModP_weaken {env : Env} {p q : Event → Prop} {f : St → St × Except Err Unit}
    (h : ModP env p f) (hpq : ∀ ev, p ev → q ev) : ModP env q f := by
  intro st
  obtain ⟨d, r, hf, hp, he⟩ := h st
  exact ⟨d, r, hf, fun ev hev => hpq ev (hp ev hev), he⟩

theorem ModO_weaken {env : Env} {p q : Event → Prop} {f : St → Option (St × Except Err Unit)}
    (h : ModO env p f) (hpq : ∀ ev, p ev → q ev) : ModO env q f := by
  intro st
  rcases h st with hn | ⟨d, r, hf, hp, he⟩
  · exact Or.inl hn
  · exact Or.inr ⟨d, r, hf, fun ev hev => hpq ev (hp ev hev), he⟩

theorem ModO_of_P {env : Env} {p : Event → Prop} {f : St → St × Except Err Unit}
    (h : ModP env p f) : ModO env p (fun st => some (f st)) := by
  intro st
  obtain ⟨d, r, hf, hp, he⟩ := h st
  refine Or.inr ⟨d, r, ?_, hp, he⟩
  show some (f st) = _
  rw [hf]

theorem ModP_emit {env : Env} {p : Event → Prop} {c : RemoteCall} {r : Except Err Unit}
    (hr : ∀ e, r = .error e → envErrOf env c = some e)
    (hp : p (.issue c)) (hs : ∀ b, p (.settle c b)) :
    ModP env p (fun st => emit st c r) := by
  intro st
  refine ⟨[.issue c, .settle c (exOk r)], r, rfl, ?_, ?_⟩
  · intro ev hev
    rcases List.mem_cons.mp hev with rfl | hev
    · exact hp
    rcases List.mem_cons.mp hev with rfl | hev
    · exact hs _
    · simp at hev
  · intro e he
    subst he
    exact ⟨[.issue c], c, [], rfl, by simp, hr e rfl, by simp⟩

theorem ModP_seqP {α : Type} {env : Env} {p : Event → Prop}
    {f : α → St → St × Except Err Unit} (h : ∀ x, ModP env p (f x)) :
    ∀ xs, ModP env p (fun st => seqP f xs st) := by
  intro xs
  induction xs with
  | nil => intro st; exact ⟨[], .ok (), by simp [seqP], by simp, ErrShape_ok env []⟩
  | cons x rest ih =>
    intro st
    obtain ⟨d1, r1, hf, hp1, he1⟩ := h x st
    cases r1 with
    | ok u =>
      obtain ⟨d2, r2, hg, hp2, he2⟩ := ih ⟨st.cache, st.trace ++ d1⟩
      have hg' : seqP f rest ⟨st.cache, st.trace ++ d1⟩ =
          (⟨st.cache, (st.trace ++ d1) ++ d2⟩, r2) := hg
      refine ⟨d1 ++ d2, r2, ?_, ?_, ?_⟩
      · show seqP f (x :: rest) st = _
        simp only [seqP, hf]
        rw [hg', List.append_assoc]
      · intro ev hev
        rcases List.mem_append.mp hev with hm | hm
        exacts [hp1 ev hm, hp2 ev hm]
      · intro e he
        obtain ⟨pre, c, tail, hd, hin, herr, htail⟩ := he2 e he
        exact ⟨d1 ++ pre, c, tail, by rw [hd, List.append_assoc],
          List.mem_append_right _ hin, herr, htail⟩
    | error e1 =>
      refine ⟨d1, .error e1, ?_, hp1, he1⟩
      show seqP f (x :: rest) st = _
      simp only [seqP, hf]

theorem ModO_seqRun {α : Type} {env : Env} {p : Event → Prop}
    {f : α → St → Option (St × Except Err Unit)} (h : ∀ x, ModO env p (f x)) :
    ∀ xs, ModO env p (fun st => seqRun f xs st) := by
  intro xs
  induction xs with
  | nil =>
    intro st
    exact Or.inr ⟨[], .ok (), by simp [seqRun], by simp, ErrShape_ok env []⟩
  | cons x rest ih =>
    intro st
    rcases h x st with hn | ⟨d1, r1, hf, hp1, he1⟩
    · left
      show seqRun f (x :: rest) st = none
      simp only [seqRun, hn]
    cases r1 with
    | ok u =>
      rcases ih ⟨st.cache, st.trace ++ d1⟩ with hn | ⟨d2, r2, hg, hp2, he2⟩
      · left
        show seqRun f (x :: rest) st = none
        simp only [seqRun, hf]
        exact hn
      right
      have hg' : seqRun f rest ⟨st.cache, st.trace ++ d1⟩ =
          some (⟨st.cache, (st.trace ++ d1) ++ d2⟩, r2) := hg
      refine ⟨d1 ++ d2, r2, ?_, ?_, ?_⟩
      · show seqRun f (x :: rest) st = _
        simp only [seqRun, hf]
        rw [hg', List.append_assoc]
      · intro ev hev
        rcases List.mem_append.mp hev with hm | hm
        exacts [hp1 ev hm, hp2 ev hm]
      · intro e he
        obtain ⟨pre, c, tail, hd, hin, herr, htail⟩ := he2 e he
        exact ⟨d1 ++ pre, c, tail, by rw [hd, List.append_assoc],
          List.mem_append_right _ hin, herr, htail⟩
    | error e1 =>
      right
      refine ⟨d1, .error e1, ?_, hp1, he1⟩
      show seqRun f (x :: rest) st = _
      simp only [seqRun, hf]

theorem firstErr_map_error {g : Str → Except Err Unit} :
    ∀ (ids : List Str) (e : Err), firstErr (ids.map g) = .error e →
      ∃ idpre id idpost, ids = idpre ++ id :: idpost ∧ g id = .error e := by
  intro ids
  induction ids with
  | nil => intro e h; exact absurd h (by simp [firstErr])
  | cons i rest ih =>
    intro e h
    simp only [List.map_cons] at h
    cases hg : g i with
    | ok u =>
      rw [hg] at h
      simp only [firstErr] at h
      obtain ⟨p, id, q, hids, hq⟩ := ih e h
      exact ⟨i :: p, id, q, by rw [hids]; rfl, hq⟩
    | error e' =>
      rw [hg] at h
      simp only [firstErr, Except.error.injEq] at h
      subst h
      exact ⟨[], i, rest, rfl, hg⟩

theorem mod_ctBinding (env : Env) (lc : IList) (ct : Str) :
    ModP env (fun ev => evPhase ev = 1 ∧ isEnsureIssue ev = false ∧ evTitle ev = lc.Title)
      (processContentTypeBinding env lc ct) :=
  ModP_emit (fun e he => by simp [envErrOf, errOf, he]) ⟨rfl, rfl, rfl⟩
    (fun _ => ⟨rfl, rfl, rfl⟩)

theorem mod_deleteBatch (env : Env) (lt : Str) (ids : List Str) :
    ModP env (fun ev => evPhase ev = 1 ∧ isEnsureIssue ev = false ∧ evTitle ev = lt)
      (deleteBatch env lt ids) := by
  intro st
  refine ⟨ids.map (fun i => Event.issue (.deleteContentType lt i))
      ++ ids.map (fun i => Event.settle (.deleteContentType lt i)
        (exOk (env.deleteContentType lt i))),
    firstErr (ids.map (fun i => env.deleteContentType lt i)), ?_, ?_, ?_⟩
  · show ({ st with trace := _ }, _) = (_, _)
    simp [deleteBatch, List.append_assoc]
  · intro ev hev
    rcases List.mem_append.mp hev with hm | hm
    · obtain ⟨i, _, rfl⟩ := List.mem_map.mp hm
      exact ⟨rfl, rfl, rfl⟩
    · obtain ⟨i, _, rfl⟩ := List.mem_map.mp hm
      exact ⟨rfl, rfl, rfl⟩
  · intro e he
    obtain ⟨idpre, id, idpost, rfl, hgid⟩ := firstErr_map_error ids e he
    refine ⟨(idpre.map (fun i => Event.issue (.deleteContentType lt i)))
        ++ Event.issue (.deleteContentType lt id)
          :: (idpost.map (fun i => Event.issue (.deleteContentType lt i)))
        ++ (idpre.map (fun i => Event.settle (.deleteContentType lt i)
            (exOk (env.deleteContentType lt i)))),
      .deleteContentType lt id,
      idpost.map (fun i => Event.settle (.deleteContentType lt i)
        (exOk (env.deleteContentType lt i))), ?_, ?_, ?_, ?_⟩
    · simp only [List.map_append, List.map_cons, hgid, exOk]
      simp [List.append_assoc]
    · exact List.mem_append_left _ (List.mem_append_right _ (List.mem_cons_self _ _))
    · simp [envErrOf, errOf, hgid]
    · intro ev hev
      obtain ⟨i, _, rfl⟩ := List.mem_map.mp hev
      rfl

theorem mod_ctbs (env : Env) (lc : IList) :
    ModP env (fun ev => evPhase ev = 1 ∧ isEnsureIssue ev = false ∧ evTitle ev = lc.Title)
      (processContentTypeBindings env lc) := by
  intro st
  unfold processContentTypeBindings
  cases hb : lc.ContentTypeBindings with
  | none => exact ⟨[], .ok (), by simp, by simp, ErrShape_ok env []⟩
  | some ctbs =>
    obtain ⟨d1, r1, hs, hp1, he1⟩ :=
      ModP_seqP (fun b => mod_ctBinding env lc b.ContentTypeID) ctbs st
    have hs' : seqP (fun b => processContentTypeBinding env lc b.ContentTypeID) ctbs st =
        (⟨st.cache, st.trace ++ d1⟩, r1) := hs
    cases r1 with
    | error e =>
      refine ⟨d1, .error e, ?_, hp1, he1⟩
      simp only [hs']
    | ok u =>
      cases hrm : lc.RemoveExistingContentTypes with
      | false =>
        refine ⟨d1, .ok (), ?_, hp1, ErrShape_ok env d1⟩
        simp only [hs', hrm]
        rfl
      | true =>
        cases hg : env.getContentTypes lc.Title with
        | error e =>
          refine ⟨d1 ++ [Event.issue (.getContentTypes lc.Title),
            Event.settle (.getContentTypes lc.Title) false], .error e, ?_, ?_, ?_⟩
          · simp only [hs', hrm, emit, hg, exOk]
            simp [List.append_assoc]
          · intro ev hev
            rcases List.mem_append.mp hev with hm | hm
            · exact hp1 ev hm
            · rcases List.mem_cons.mp hm with rfl | hm
              · exact ⟨rfl, rfl, rfl⟩
              rcases List.mem_cons.mp hm with rfl | hm
              · exact ⟨rfl, rfl, rfl⟩
              · simp at hm
          · intro e' he'
            simp only [Except.error.injEq] at he'
            subst he'
            refine ⟨d1 ++ [Event.issue (.getContentTypes lc.Title)],
              .getContentTypes lc.Title, [], by simp, by simp, ?_, by simp⟩
            simp [envErrOf, errOf, hg]
        | ok cts =>
          obtain ⟨d3, r3, hdel, hp3, he3⟩ := mod_deleteBatch env lc.Title
            (cts.filter (shouldRemove ctbs))
            ⟨st.cache, st.trace ++ d1 ++ [Event.issue (.getContentTypes lc.Title),
              Event.settle (.getContentTypes lc.Title) true]⟩
          have hdel' : deleteBatch env lc.Title (cts.filter (shouldRemove ctbs))
              ⟨st.cache, st.trace ++ d1 ++ [Event.issue (.getContentTypes lc.Title),
                Event.settle (.getContentTypes lc.Title) true]⟩ =
              (⟨st.cache, (st.trace ++ d1 ++ [Event.issue (.getContentTypes lc.Title),
                Event.settle (.getContentTypes lc.Title) true]) ++ d3⟩, r3) := hdel
          refine ⟨d1 ++ [Event.issue (.getContentTypes lc.Title),
            Event.settle (.getContentTypes lc.Title) true] ++ d3, r3, ?_, ?_, ?_⟩
          · simp only [hs', hrm, emit, hg, exOk]
            rw [hdel']
            simp [List.append_assoc]
          · intro ev hev
            rcases List.mem_append.mp hev with hm | hm
            · rcases List.mem_append.mp hm with hm2 | hm2
              · exact hp1 ev hm2
              · rcases List.mem_cons.mp hm2 with rfl | hm3
                · exact ⟨rfl, rfl, rfl⟩
                rcases List.mem_cons.mp hm3 with rfl | hm3
                · exact ⟨rfl, rfl, rfl⟩
                · simp at hm3
            · exact hp3 ev hm
          · intro e he
            obtain ⟨pre, c, tail, hd, hin, herr, htail⟩ := he3 e he
            exact ⟨(d1 ++ [Event.issue (.getContentTypes lc.Title),
              Event.settle (.getContentTypes lc.Title) true]) ++ pre, c, tail,
              by rw [hd]; simp [List.append_assoc], List.mem_append_right _ hin, herr, htail⟩

theorem issuedCalls_append (a b : List Event) :
    issuedCalls (a ++ b) = issuedCalls a ++ issuedCalls b :=
  List.filterMap_append _ _ _

theorem ensure_filter_nil {d : List Event} (h : ∀ ev ∈ d, isEnsureIssue ev = false) :
    (issuedCalls d).filter isEnsure = [] := by
  induction d with
  | nil => rfl
  | cons ev rest ih =>
    have hev := h ev (List.mem_cons_self _ _)
    have hrest := ih (fun e he => h e (List.mem_cons_of_mem _ he))
    cases ev with
    | issue c =>
      have hc : isEnsure c = false := hev
      simp [issuedCalls, List.filterMap_cons, hc]
      simpa [issuedCalls] using hrest
    | settle c b =>
      simpa [issuedCalls, List.filterMap_cons] using hrest

theorem processList_mod (env : Env) (lc : IList) : ∀ st, ∃ d r,
    processList env lc st =
      (⟨st.cache ++ (if ensureOK env lc then [ensureData env lc] else []), st.trace ++ d⟩, r) ∧
    (∀ ev ∈ d, evPhase ev = 1 ∧ evTitle ev = lc.Title) ∧
    (issuedCalls d).filter isEnsure = [ensureCallOf lc] ∧
    ErrShape env d r ∧
    (r = .ok () → ensureOK env lc = true) := by
  intro st
  unfold processList
  cases hg : env.ensure lc.Title lc.Description lc.Template lc.ContentTypesEnabled
      lc.AdditionalSettings with
  | error e =>
    have hok : ensureOK env lc = false := by simp [ensureOK, hg, exOk]
    refine ⟨[.issue (ensureCallOf lc), .settle (ensureCallOf lc) false], .error e,
      ?_, ?_, ?_, ?_, ?_⟩
    · simp only [emit, hg, exOk, hok, if_false]
      simp [ensureCallOf]
    · intro ev hev
      rcases List.mem_cons.mp hev with rfl | hev
      · exact ⟨rfl, rfl⟩
      rcases List.mem_cons.mp hev with rfl | hev
      · exact ⟨rfl, rfl⟩
      · simp at hev
    · rfl
    · intro e' he'
      simp only [Except.error.injEq] at he'
      subst he'
      exact ⟨[.issue (ensureCallOf lc)], ensureCallOf lc, [], rfl, by simp, by
        simp [envErrOf, ensureCallOf, errOf, hg], by simp⟩
    · intro h; exact absurd h (by simp)
  | ok res =>
    have hok : ensureOK env lc = true := by simp [ensureOK, hg, exOk]
    have hdata : ensureData env lc = res.data := by simp [ensureData, hg]
    obtain ⟨d2, r2, hc, hp2, he2⟩ := mod_ctbs env lc
      ⟨st.cache ++ [res.data], st.trace ++ [.issue (ensureCallOf lc), .settle (ensureCallOf lc) true]⟩
    have hc' : processContentTypeBindings env lc ⟨st.cache ++ [res.data],
        st.trace ++ [Event.issue (ensureCallOf lc), Event.settle (ensureCallOf lc) true]⟩ =
        (⟨st.cache ++ [res.data],
          (st.trace ++ [Event.issue (ensureCallOf lc), Event.settle (ensureCallOf lc) true]) ++ d2⟩,
          r2) := hc
    refine ⟨[.issue (ensureCallOf lc), .settle (ensureCallOf lc) true] ++ d2, r2, ?_, ?_, ?_, ?_, ?_⟩
    · simp only [emit, hg, exOk]
      rw [show (RemoteCall.ensure lc.Title lc.Description lc.Template lc.ContentTypesEnabled
        lc.AdditionalSettings) = ensureCallOf lc from rfl, hc']
      simp [hok, hdata, List.append_assoc]
    · intro ev hev
      rcases List.mem_append.mp hev with hm | hm
      · rcases List.mem_cons.mp hm with rfl | hm
        · exact ⟨rfl, rfl⟩
        rcases List.mem_cons.mp hm with rfl | hm
        · exact ⟨rfl, rfl⟩
        · simp at hm
      · exact ⟨(hp2 ev hm).1, (hp2 ev hm).2.2⟩
    · rw [issuedCalls_append]
      rw [List.filter_append]
      have h1 : (issuedCalls [Event.issue (ensureCallOf lc),
          Event.settle (ensureCallOf lc) true]).filter isEnsure = [ensureCallOf lc] := rfl
      rw [h1, ensure_filter_nil (fun ev hev => (hp2 ev hev).2.1)]
      simp
    · intro e he
      obtain ⟨pre, c, tail, hd, hin, herr, htail⟩ := he2 e he
      exact ⟨[Event.issue (ensureCallOf lc), Event.settle (ensureCallOf lc) true] ++ pre,
        c, tail, by rw [hd]; simp [List.append_assoc], List.mem_append_right _ hin, herr, htail⟩
    · intro _; exact hok

/-- Phase 1 (`processList` over the configurations, in array order):
the cache receives exactly the `data` of each successfully ensured
configuration, the trace is pure phase-1, and the issued ensure calls are
exactly those of a prefix of the configurations. -/
theorem phase1_chain (env : Env) : ∀ (lists : List IList) (st : St), ∃ d r m,
    seqP (processList env) lists st =
      (⟨st.cache ++ ((lists.take m).filter (fun lc => ensureOK env lc)).map (ensureData env),
        st.trace ++ d⟩, r) ∧
    m ≤ lists.length ∧
    (∀ ev ∈ d, evPhase ev = 1) ∧
    (issuedCalls d).filter isEnsure = (lists.take m).map ensureCallOf ∧
    ErrShape env d r ∧
    (r = .ok () → m = lists.length) := by
  intro lists
  induction lists with
  | nil =>
    intro st
    exact ⟨[], .ok (), 0, by simp [seqP], by simp, by simp, rfl, ErrShape_ok env [], fun _ => rfl⟩
  | cons lc rest ih =>
    intro st
    obtain ⟨d1, r1, hf, hp1, hflt, he1, hok1⟩ := processList_mod env lc st
    cases r1 with
    | error e =>
      refine ⟨d1, .error e, 1, ?_, by simp, fun ev hev => (hp1 ev hev).1,
        by simpa using hflt, he1, ?_⟩
      · show seqP (processList env) (lc :: rest) st = _
        simp only [seqP, hf]
        cases hoks : ensureOK env lc <;> simp [hoks]
      · intro h; exact absurd h (by simp)
    | ok u =>
      have hoklc := hok1 rfl
      set st1 : St := ⟨st.cache ++ (if ensureOK env lc then [ensureData env lc] else []),
        st.trace ++ d1⟩ with hst1
      obtain ⟨d2, r2, m2, hg, hm2, hp2, hflt2, he2, hok2⟩ := ih st1
      refine ⟨d1 ++ d2, r2, m2 + 1, ?_, by simp; omega, ?_, ?_, ?_, ?_⟩
      · show seqP (processList env) (lc :: rest) st = _
        simp only [seqP, hf]
        rw [hg]
        simp only [hst1, hoklc, if_true]
        simp [List.append_assoc, List.take_succ_cons, List.filter_cons, hoklc]
      · intro ev hev
        rcases List.mem_append.mp hev with hm | hm
        exacts [(hp1 ev hm).1, hp2 ev hm]
      · rw [issuedCalls_append, List.filter_append, hflt, hflt2]
        simp [List.take_succ_cons]
      · intro e he
        obtain ⟨pre, c, tail, hd, hin, herr, htail⟩ := he2 e he
        exact ⟨d1 ++ pre, c, tail, by rw [hd]; simp [List.append_assoc],
          List.mem_append_right _ hin, herr, htail⟩
      · intro h
        have := hok2 h
        simp [this]

theorem fieldTryBlock_ext (env : Env) (lt fid : Str) (st : St) : ∃ dtry,
    fieldTryBlock env lt fid st = ⟨st.cache, st.trace ++ dtry⟩ ∧
    ∀ ev ∈ dtry, evPhase ev = 2 ∧ evTitle ev = lt := by
  unfold fieldTryBlock
  cases hgf : env.getFieldById lt fid with
  | error e =>
    refine ⟨[Event.issue (.getFieldById lt fid),
      Event.settle (.getFieldById lt fid) false], ?_, ?_⟩
    · simp [emit, exOk]
    · intro ev hev
      rcases List.mem_cons.mp hev with rfl | hev
      · exact ⟨rfl, rfl⟩
      rcases List.mem_cons.mp hev with rfl | hev
      · exact ⟨rfl, rfl⟩
      · simp at hev
  | ok u =>
    refine ⟨[Event.issue (.getFieldById lt fid),
        Event.settle (.getFieldById lt fid) true,
        Event.issue (.deleteField lt fid),
        Event.settle (.deleteField lt fid) (exOk (env.deleteField lt fid))], ?_, ?_⟩
    · simp [emit, exOk, List.append_assoc]
    · intro ev hev
      rcases List.mem_cons.mp hev with rfl | hev
      · exact ⟨rfl, rfl⟩
      rcases List.mem_cons.mp hev with rfl | hev
      · exact ⟨rfl, rfl⟩
      rcases List.mem_cons.mp hev with rfl | hev
      · exact ⟨rfl, rfl⟩
      rcases List.mem_cons.mp hev with rfl | hev
      · exact ⟨rfl, rfl⟩
      · simp at hev

theorem mod_processFieldTS (xl : XmlLib) (env : Env) (rfuel : Nat) (lc : IList) (fx : Str) :
    ModO env (fun ev => evPhase ev = 2 ∧ evTitle ev = lc.Title)
      (processFieldTS xl env rfuel lc fx) := by
  intro st
  obtain ⟨dtry, htry, hptry⟩ := fieldTryBlock_ext env lc.Title (xl.parseAttrs fx).ID st
  unfold processFieldTS
  rw [htry]
  dsimp only
  cases hTL : tokenLoop st.cache rfuel (xl.roundtrip fx) 0 with
  | none => exact Or.inl rfl
  | some sub =>
    obtain ⟨subx, subn⟩ := sub
    right
    cases hcr : env.createFieldAsXml lc.Title subx with
    | error e =>
      refine ⟨dtry ++ [Event.issue (.createFieldAsXml lc.Title subx),
        Event.settle (.createFieldAsXml lc.Title subx) false], .error e, ?_, ?_, ?_⟩
      · simp [emit, exOk, hcr, List.append_assoc]
      · intro ev hev
        rcases List.mem_append.mp hev with hm | hm
        · exact hptry ev hm
        rcases List.mem_cons.mp hm with rfl | hm
        · exact ⟨rfl, rfl⟩
        rcases List.mem_cons.mp hm with rfl | hm
        · exact ⟨rfl, rfl⟩
        · simp at hm
      · intro e' he'
        simp only [Except.error.injEq] at he'
        subst he'
        exact ⟨dtry ++ [Event.issue (.createFieldAsXml lc.Title subx)],
          .createFieldAsXml lc.Title subx, [], by simp, by simp,
          by simp [envErrOf, errOf, hcr], by simp⟩
    | ok u =>
      refine ⟨dtry ++ [Event.issue (.createFieldAsXml lc.Title subx),
          Event.settle (.createFieldAsXml lc.Title subx) true,
          Event.issue (.updateFieldTitle lc.Title (xl.parseAttrs fx).DisplayName),
          Event.settle (.updateFieldTitle lc.Title (xl.parseAttrs fx).DisplayName)
            (exOk (env.updateFieldTitle lc.Title (xl.parseAttrs fx).DisplayName))],
        env.updateFieldTitle lc.Title (xl.parseAttrs fx).DisplayName, ?_, ?_, ?_⟩
      · simp [emit, exOk, hcr, List.append_assoc]
      · intro ev hev
        rcases List.mem_append.mp hev with hm | hm
        · exact hptry ev hm
        rcases List.mem_cons.mp hm with rfl | hm
        · exact ⟨rfl, rfl⟩
        rcases List.mem_cons.mp hm with rfl | hm
        · exact ⟨rfl, rfl⟩
        rcases List.mem_cons.mp hm with rfl | hm
        · exact ⟨rfl, rfl⟩
        rcases List.mem_cons.mp hm with rfl | hm
        · exact ⟨rfl, rfl⟩
        · simp at hm
      · intro e' he'
        refine ⟨dtry ++ [Event.issue (.createFieldAsXml lc.Title subx),
          Event.settle (.createFieldAsXml lc.Title subx) true,
          Event.issue (.updateFieldTitle lc.Title (xl.parseAttrs fx).DisplayName)],
          .updateFieldTitle lc.Title (xl.parseAttrs fx).DisplayName, [], ?_, by simp, ?_, by simp⟩
        · rw [he']
          simp [exOk, List.append_assoc]
        · simp [envErrOf, errOf, he']

theorem mod_processFields (xl : XmlLib) (env : Env) (rfuel : Nat) (lc : IList) :
    ModO env (fun ev => evPhase ev = 2 ∧ evTitle ev = lc.Title)
      (processFields xl env rfuel lc) := by
  intro st
  unfold processFields
  cases lc.Fields with
  | none => exact Or.inr ⟨[], .ok (), by simp, by simp, ErrShape_ok env []⟩
  | some fs => exact ModO_seqRun (fun fx => mod_processFieldTS xl env rfuel lc fx) fs st

theorem mod_fieldRef (env : Env) (lc : IList) (fr : FieldRefCfg) :
    ModP env (fun ev => evPhase ev = 3 ∧ evTitle ev = lc.Title) (processFieldRef env lc fr) :=
  ModP_emit (fun e he => by simp [envErrOf, errOf, he]) ⟨rfl, rfl⟩ (fun _ => ⟨rfl, rfl⟩)

theorem mod_processFieldRefs (env : Env) (lc : IList) :
    ModP env (fun ev => evPhase ev = 3 ∧ evTitle ev = lc.Title) (processFieldRefs env lc) := by
  intro st
  unfold processFieldRefs
  cases lc.FieldRefs with
  | none => exact ⟨[], .ok (), by simp, by simp, ErrShape_ok env []⟩
  | some frs => exact ModP_seqP (mod_fieldRef env lc) frs st

theorem mod_processViewFields (env : Env) (lt vt : Str) (vfs : List Str) :
    ModP env (fun ev => evPhase ev = 4 ∧ evTitle ev = lt)
      (processViewFields env lt vt vfs) := by
  intro st
  unfold processViewFields
  cases hrm : env.removeAllViewFields lt vt with
  | error e =>
    refine ⟨[Event.issue (.removeAllViewFields lt vt),
      Event.settle (.removeAllViewFields lt vt) false], .error e, ?_, ?_, ?_⟩
    · simp [emit, exOk, hrm]
    · intro ev hev
      rcases List.mem_cons.mp hev with rfl | hev
      · exact ⟨rfl, rfl⟩
      rcases List.mem_cons.mp hev with rfl | hev
      · exact ⟨rfl, rfl⟩
      · simp at hev
    · intro e' he'
      simp only [Except.error.injEq] at he'
      subst he'
      exact ⟨[Event.issue (.removeAllViewFields lt vt)], .removeAllViewFields lt vt, [],
        rfl, by simp, by simp [envErrOf, errOf, hrm], by simp⟩
  | ok u =>
    have hmod : ∀ f : Str, ModP env (fun ev => evPhase ev = 4 ∧ evTitle ev = lt)
        (fun st => emit st (.addViewField lt vt f) (env.addViewField lt vt f)) :=
      fun f => ModP_emit (fun e he => by simp [envErrOf, errOf, he]) ⟨rfl, rfl⟩
        (fun _ => ⟨rfl, rfl⟩)
    obtain ⟨d2, r2, hs, hp2, he2⟩ := ModP_seqP hmod vfs
      ⟨st.cache, st.trace ++ [Event.issue (.removeAllViewFields lt vt),
        Event.settle (.removeAllViewFields lt vt) true]⟩
    have hs' : seqP (fun f st => emit st (.addViewField lt vt f) (env.addViewField lt vt f)) vfs
        ⟨st.cache, st.trace ++ [Event.issue (.removeAllViewFields lt vt),
          Event.settle (.removeAllViewFields lt vt) true]⟩ =
        (⟨st.cache, (st.trace ++ [Event.issue (.removeAllViewFields lt vt),
          Event.settle (.removeAllViewFields lt vt) true]) ++ d2⟩, r2) := hs
    have hemit : emit st (.removeAllViewFields lt vt) (Except.ok u : Except Err Unit) =
        (⟨st.cache, st.trace ++ [Event.issue (.removeAllViewFields lt vt),
          Event.settle (.removeAllViewFields lt vt) true]⟩, .ok u) := by
      simp [emit, exOk]
    refine ⟨[Event.issue (.removeAllViewFields lt vt),
      Event.settle (.removeAllViewFields lt vt) true] ++ d2, r2, ?_, ?_, ?_⟩
    · rw [hemit]
      dsimp only
      rw [hs']
      simp [List.append_assoc]
    · intro ev hev
      rcases List.mem_append.mp hev with hm | hm
      · rcases List.mem_cons.mp hm with rfl | hm
        · exact ⟨rfl, rfl⟩
        rcases List.mem_cons.mp hm with rfl | hm
        · exact ⟨rfl, rfl⟩
        · simp at hm
      · exact hp2 ev hm
    · intro e he
      obtain ⟨pre, c, tail, hd, hin, herr, htail⟩ := he2 e he
      exact ⟨[Event.issue (.removeAllViewFields lt vt),
        Event.settle (.removeAllViewFields lt vt) true] ++ pre, c, tail,
        by rw [hd]; simp [List.append_assoc], List.mem_append_right _ hin, herr, htail⟩

theorem mod_viewFallback (env : Env) (lc : IList) (v : ViewCfg) :
    ModP env (fun ev => evPhase ev = 4 ∧ evTitle ev = lc.Title) (viewFallback env lc v) := by
  intro st
  unfold viewFallback
  cases hav : env.addView lc.Title v.Title v.PersonalView v.AdditionalSettings with
  | error e =>
    refine ⟨[Event.issue (.addView lc.Title v.Title v.PersonalView v.AdditionalSettings),
      Event.settle (.addView lc.Title v.Title v.PersonalView v.AdditionalSettings) false],
      .error e, ?_, ?_, ?_⟩
    · simp [emit, exOk, hav]
    · intro ev hev
      rcases List.mem_cons.mp hev with rfl | hev
      · exact ⟨rfl, rfl⟩
      rcases List.mem_cons.mp hev with rfl | hev
      · exact ⟨rfl, rfl⟩
      · simp at hev
    · intro e' he'
      simp only [Except.error.injEq] at he'
      subst he'
      exact ⟨[Event.issue (.addView lc.Title v.Title v.PersonalView v.AdditionalSettings)],
        .addView lc.Title v.Title v.PersonalView v.AdditionalSettings, [],
        rfl, by simp, by simp [envErrOf, errOf, hav], by simp⟩
  | ok u =>
    obtain ⟨d2, r2, hs, hp2, he2⟩ := mod_processViewFields env lc.Title v.Title v.ViewFields
      ⟨st.cache, st.trace ++ [Event.issue (.addView lc.Title v.Title v.PersonalView
        v.AdditionalSettings), Event.settle (.addView lc.Title v.Title v.PersonalView
        v.AdditionalSettings) true]⟩
    have hs' : processViewFields env lc.Title v.Title v.ViewFields
        ⟨st.cache, st.trace ++ [Event.issue (.addView lc.Title v.Title v.PersonalView
          v.AdditionalSettings), Event.settle (.addView lc.Title v.Title v.PersonalView
          v.AdditionalSettings) true]⟩ =
        (⟨st.cache, (st.trace ++ [Event.issue (.addView lc.Title v.Title v.PersonalView
          v.AdditionalSettings), Event.settle (.addView lc.Title v.Title v.PersonalView
          v.AdditionalSettings) true]) ++ d2⟩, r2) := hs
    refine ⟨[Event.issue (.addView lc.Title v.Title v.PersonalView v.AdditionalSettings),
      Event.settle (.addView lc.Title v.Title v.PersonalView v.AdditionalSettings) true] ++ d2,
      r2, ?_, ?_, ?_⟩
    · simp only [emit, exOk, hav]
      rw [hs']
      simp [List.append_assoc]
    · intro ev hev
      rcases List.mem_append.mp hev with hm | hm
      · rcases List.mem_cons.mp hm with rfl | hm
        · exact ⟨rfl, rfl⟩
        rcases List.mem_cons.mp hm with rfl | hm
        · exact ⟨rfl, rfl⟩
        · simp at hm
      · exact hp2 ev hm
    · intro e he
      obtain ⟨pre, c, tail, hd, hin, herr, htail⟩ := he2 e he
      exact ⟨[Event.issue (.addView lc.Title v.Title v.PersonalView v.AdditionalSettings),
        Event.settle (.addView lc.Title v.Title v.PersonalView v.AdditionalSettings) true] ++ pre,
        c, tail, by rw [hd]; simp [List.append_assoc], List.mem_append_right _ hin, herr, htail⟩

theorem mod_processView (env : Env) (lc : IList) (v : ViewCfg) :
    ModP env (fun ev => evPhase ev = 4 ∧ evTitle ev = lc.Title) (processView env lc v) := by
  intro st
  unfold processView
  have hfb := mod_viewFallback env lc v
  cases hgv : env.getView lc.Title v.Title with
  | error e =>
    obtain ⟨d2, r2, hf, hp2, he2⟩ := hfb ⟨st.cache, st.trace ++
      [Event.issue (.getView lc.Title v.Title), Event.settle (.getView lc.Title v.Title) false]⟩
    have hf' : viewFallback env lc v ⟨st.cache, st.trace ++
        [Event.issue (.getView lc.Title v.Title),
          Event.settle (.getView lc.Title v.Title) false]⟩ =
        (⟨st.cache, (st.trace ++ [Event.issue (.getView lc.Title v.Title),
          Event.settle (.getView lc.Title v.Title) false]) ++ d2⟩, r2) := hf
    refine ⟨[Event.issue (.getView lc.Title v.Title),
      Event.settle (.getView lc.Title v.Title) false] ++ d2, r2, ?_, ?_, ?_⟩
    · simp only [emit, exOk, hgv]
      rw [hf']
      simp [List.append_assoc]
    · intro ev hev
      rcases List.mem_append.mp hev with hm | hm
      · rcases List.mem_cons.mp hm with rfl | hm
        · exact ⟨rfl, rfl⟩
        rcases List.mem_cons.mp hm with rfl | hm
        · exact ⟨rfl, rfl⟩
        · simp at hm
      · exact hp2 ev hm
    · intro e' he'
      obtain ⟨pre, c, tail, hd, hin, herr, htail⟩ := he2 e' he'
      exact ⟨[Event.issue (.getView lc.Title v.Title),
        Event.settle (.getView lc.Title v.Title) false] ++ pre, c, tail,
        by rw [hd]; simp [List.append_assoc], List.mem_append_right _ hin, herr, htail⟩
  | ok u0 =>
    have hpair2 : ∀ (b : Bool) (d2 : List Event),
        (∀ ev ∈ d2, evPhase ev = 4 ∧ evTitle ev = lc.Title) →
        ∀ ev ∈ ([Event.issue (.getView lc.Title v.Title),
            Event.settle (.getView lc.Title v.Title) true,
            Event.issue (.updateView lc.Title v.Title v.AdditionalSettings),
            Event.settle (.updateView lc.Title v.Title v.AdditionalSettings) b] ++ d2),
          evPhase ev = 4 ∧ evTitle ev = lc.Title := by
      intro b d2 hd2 ev hev
      rcases List.mem_append.mp hev with hm | hm
      · rcases List.mem_cons.mp hm with rfl | hm
        · exact ⟨rfl, rfl⟩
        rcases List.mem_cons.mp hm with rfl | hm
        · exact ⟨rfl, rfl⟩
        rcases List.mem_cons.mp hm with rfl | hm
        · exact ⟨rfl, rfl⟩
        rcases List.mem_cons.mp hm with rfl | hm
        · exact ⟨rfl, rfl⟩
        · simp at hm
      · exact hd2 ev hm
    cases huv : env.updateView lc.Title v.Title v.AdditionalSettings with
    | error e =>
      obtain ⟨d2, r2, hf, hp2, he2⟩ := hfb ⟨st.cache, st.trace ++
        [Event.issue (.getView lc.Title v.Title), Event.settle (.getView lc.Title v.Title) true]
        ++ [Event.issue (.updateView lc.Title v.Title v.AdditionalSettings),
          Event.settle (.updateView lc.Title v.Title v.AdditionalSettings) false]⟩
      have hf' : viewFallback env lc v ⟨st.cache, st.trace ++
          [Event.issue (.getView lc.Title v.Title), Event.settle (.getView lc.Title v.Title) true]
          ++ [Event.issue (.updateView lc.Title v.Title v.AdditionalSettings),
            Event.settle (.updateView lc.Title v.Title v.AdditionalSettings) false]⟩ =
          (⟨st.cache, (st.trace ++ [Event.issue (.getView lc.Title v.Title),
            Event.settle (.getView lc.Title v.Title) true]
            ++ [Event.issue (.updateView lc.Title v.Title v.AdditionalSettings),
            Event.settle (.updateView lc.Title v.Title v.AdditionalSettings) false]) ++ d2⟩,
            r2) := hf
      refine ⟨[Event.issue (.getView lc.Title v.Title),
        Event.settle (.getView lc.Title v.Title) true,
        Event.issue (.updateView lc.Title v.Title v.AdditionalSettings),
        Event.settle (.updateView lc.Title v.Title v.AdditionalSettings) false] ++ d2,
        r2, ?_, hpair2 false d2 hp2, ?_⟩
      · simp only [emit, exOk, hgv, huv]
        rw [hf']
        simp [List.append_assoc]
      · intro e' he'
        obtain ⟨pre, c, tail, hd, hin, herr, htail⟩ := he2 e' he'
        exact ⟨[Event.issue (.getView lc.Title v.Title),
          Event.settle (.getView lc.Title v.Title) true,
          Event.issue (.updateView lc.Title v.Title v.AdditionalSettings),
          Event.settle (.updateView lc.Title v.Title v.AdditionalSettings) false] ++ pre, c, tail,
          by rw [hd]; simp [List.append_assoc], List.mem_append_right _ hin, herr, htail⟩
    | ok u1 =>
      obtain ⟨d3, r3, hvf, hp3, he3⟩ := mod_processViewFields env lc.Title v.Title v.ViewFields
        ⟨st.cache, st.trace ++ [Event.issue (.getView lc.Title v.Title),
          Event.settle (.getView lc.Title v.Title) true]
          ++ [Event.issue (.updateView lc.Title v.Title v.AdditionalSettings),
          Event.settle (.updateView lc.Title v.Title v.AdditionalSettings) true]⟩
      have hvf' : processViewFields env lc.Title v.Title v.ViewFields
          ⟨st.cache, st.trace ++ [Event.issue (.getView lc.Title v.Title),
            Event.settle (.getView lc.Title v.Title) true]
            ++ [Event.issue (.updateView lc.Title v.Title v.AdditionalSettings),
            Event.settle (.updateView lc.Title v.Title v.AdditionalSettings) true]⟩ =
          (⟨st.cache, (st.trace ++ [Event.issue (.getView lc.Title v.Title),
            Event.settle (.getView lc.Title v.Title) true]
            ++ [Event.issue (.updateView lc.Title v.Title v.AdditionalSettings),
            Event.settle (.updateView lc.Title v.Title v.AdditionalSettings) true]) ++ d3⟩,
            r3) := hvf
      cases r3 with
      | ok u2 =>
        refine ⟨[Event.issue (.getView lc.Title v.Title),
          Event.settle (.getView lc.Title v.Title) true,
          Event.issue (.updateView lc.Title v.Title v.AdditionalSettings),
          Event.settle (.updateView lc.Title v.Title v.AdditionalSettings) true] ++ d3,
          .ok (), ?_, hpair2 true d3 hp3, ErrShape_ok env _⟩
        simp only [emit, exOk, hgv, huv]
        rw [hvf']
        simp [List.append_assoc]
      | error e3 =>
        obtain ⟨d4, r4, hf4, hp4, he4⟩ := hfb ⟨st.cache,
          ((st.trace ++ [Event.issue (.getView lc.Title v.Title),
            Event.settle (.getView lc.Title v.Title) true]
            ++ [Event.issue (.updateView lc.Title v.Title v.AdditionalSettings),
            Event.settle (.updateView lc.Title v.Title v.AdditionalSettings) true]) ++ d3)⟩
        have hf4' : viewFallback env lc v ⟨st.cache,
            ((st.trace ++ [Event.issue (.getView lc.Title v.Title),
              Event.settle (.getView lc.Title v.Title) true]
              ++ [Event.issue (.updateView lc.Title v.Title v.AdditionalSettings),
              Event.settle (.updateView lc.Title v.Title v.AdditionalSettings) true]) ++ d3)⟩ =
            (⟨st.cache, (((st.trace ++ [Event.issue (.getView lc.Title v.Title),
              Event.settle (.getView lc.Title v.Title) true]
              ++ [Event.issue (.updateView lc.Title v.Title v.AdditionalSettings),
              Event.settle (.updateView lc.Title v.Title v.AdditionalSettings) true]) ++ d3)
                ++ d4)⟩, r4) := hf4
        refine ⟨([Event.issue (.getView lc.Title v.Title),
          Event.settle (.getView lc.Title v.Title) true,
          Event.issue (.updateView lc.Title v.Title v.AdditionalSettings),
          Event.settle (.updateView lc.Title v.Title v.AdditionalSettings) true] ++ d3) ++ d4,
          r4, ?_, ?_, ?_⟩
        · simp only [emit, exOk, hgv, huv]
          rw [hvf']
          dsimp only
          rw [hf4']
          simp [List.append_assoc]
        · intro ev hev
          rcases List.mem_append.mp hev with hm | hm
          · exact hpair2 true d3 hp3 ev hm
          · exact hp4 ev hm
        · intro e' he'
          obtain ⟨pre, c, tail, hd, hin, herr, htail⟩ := he4 e' he'
          exact ⟨(([Event.issue (.getView lc.Title v.Title),
            Event.settle (.getView lc.Title v.Title) true,
            Event.issue (.updateView lc.Title v.Title v.AdditionalSettings),
            Event.settle (.updateView lc.Title v.Title v.AdditionalSettings) true] ++ d3)) ++ pre,
            c, tail, by rw [hd]; simp [List.append_assoc],
            List.mem_append_right _ hin, herr, htail⟩

theorem mod_processViews (env : Env) (lc : IList) :
    ModP env (fun ev => evPhase ev = 4 ∧ evTitle ev = lc.Title) (processViews env lc) := by
  intro st
  unfold processViews
  cases lc.Views with
  | none => exact ⟨[], .ok (), by simp, by simp, ErrShape_ok env []⟩
  | some vs => exact ModP_seqP (mod_processView env lc) vs st

theorem ensureIssue_phase {ev : Event} (h : isEnsureIssue ev = true) : evPhase ev = 1 := by
  cases ev with
  | issue c => cases c <;> simp [isEnsureIssue, isEnsure, evPhase, callPhase] at h ⊢
  | settle c b => simp [isEnsureIssue] at h

theorem ensure_filter_of_phase {d : List Event} {k : Nat} (hk : k ≠ 1)
    (hp : ∀ ev ∈ d, evPhase ev = k) : (issuedCalls d).filter isEnsure = [] := by
  apply ensure_filter_nil
  intro ev hev
  cases hq : isEnsureIssue ev
  · rfl
  · have := ensureIssue_phase hq
    rw [hp ev hev] at this
    exact absurd this hk

/-- One characterization of a whole `ProvisionObjects` run: it either
diverges, or produces the four phase chunks, the cache of the ensured
configurations, and (on rejection) an `ErrShape` rejection. -/
theorem provision_run (xl : XmlLib) (env : Env) (rfuel : Nat) (lists : List IList) (st : St) :
    ProvisionObjects xl env rfuel lists st = none ∨
    ∃ t1 t2 t3 t4 m r,
      ProvisionObjects xl env rfuel lists st = some
        (⟨st.cache ++ ((lists.take m).filter (fun lc => ensureOK env lc)).map (ensureData env),
          st.trace ++ (t1 ++ (t2 ++ (t3 ++ t4)))⟩, r) ∧
      m ≤ lists.length ∧
      (∀ ev ∈ t1, evPhase ev = 1) ∧ (∀ ev ∈ t2, evPhase ev = 2) ∧
      (∀ ev ∈ t3, evPhase ev = 3) ∧ (∀ ev ∈ t4, evPhase ev = 4) ∧
      (issuedCalls t1).filter isEnsure = (lists.take m).map ensureCallOf ∧
      ErrShape env (t1 ++ (t2 ++ (t3 ++ t4))) r ∧
      (r = .ok () → m = lists.length) := by
  obtain ⟨d1, r1, m, h1, hm, hp1, hflt, he1, hok1⟩ := phase1_chain env lists st
  unfold ProvisionObjects
  rw [h1]
  cases r1 with
  | error e =>
    right
    refine ⟨d1, [], [], [], m, .error e, ?_, hm, hp1, by simp, by simp, by simp, hflt, ?_, ?_⟩
    · simp [andThen]
    · intro e' he'
      obtain ⟨pre, c, tail, hd, hin, herr, htail⟩ := he1 e' he'
      exact ⟨pre, c, tail, by rw [hd]; simp, hin, herr, htail⟩
    · intro h; exact absurd h (by simp)
  | ok u =>
    simp only [andThen]
    rcases ModO_seqRun (fun lc => ModO_weaken (mod_processFields xl env rfuel lc)
        (fun ev h => h.1)) lists
      ⟨st.cache ++ ((lists.take m).filter (fun lc => ensureOK env lc)).map (ensureData env),
        st.trace ++ d1⟩ with hn | ⟨d2, r2, h2, hp2, he2⟩
    · left
      have hn' : seqRun (fun lc => processFields xl env rfuel lc) lists
          ⟨st.cache ++ ((lists.take m).filter (fun lc => ensureOK env lc)).map (ensureData env),
            st.trace ++ d1⟩ = none := hn
      rw [hn']
    · have h2' : seqRun (fun lc => processFields xl env rfuel lc) lists
          ⟨st.cache ++ ((lists.take m).filter (fun lc => ensureOK env lc)).map (ensureData env),
            st.trace ++ d1⟩ = some
          (⟨st.cache ++ ((lists.take m).filter (fun lc => ensureOK env lc)).map (ensureData env),
            (st.trace ++ d1) ++ d2⟩, r2) := h2
      rw [h2']
      cases r2 with
      | error e =>
        right
        refine ⟨d1, d2, [], [], m, .error e, ?_, hm, hp1, hp2, by simp, by simp, hflt, ?_, ?_⟩
        · simp [andThen, List.append_assoc]
        · intro e' he'
          obtain ⟨pre, c, tail, hd, hin, herr, htail⟩ := he2 e' he'
          refine ⟨d1 ++ pre, c, tail, ?_, List.mem_append_right _ hin, herr, htail⟩
          rw [hd]
          simp [List.append_assoc]
        · intro h; exact absurd h (by simp)
      | ok u2 =>
        simp only [andThen]
        obtain ⟨d3, r3, h3, hp3, he3⟩ := ModP_seqP (fun lc =>
          ModP_weaken (mod_processFieldRefs env lc) (fun ev h => h.1)) lists
          ⟨st.cache ++ ((lists.take m).filter (fun lc => ensureOK env lc)).map (ensureData env),
            (st.trace ++ d1) ++ d2⟩
        rw [show seqP (processFieldRefs env) lists
            ⟨st.cache ++ ((lists.take m).filter (fun lc => ensureOK env lc)).map (ensureData env),
              (st.trace ++ d1) ++ d2⟩ =
            (⟨st.cache ++ ((lists.take m).filter (fun lc => ensureOK env lc)).map (ensureData env),
              ((st.trace ++ d1) ++ d2) ++ d3⟩, r3) from h3]
        cases r3 with
        | error e =>
          right
          refine ⟨d1, d2, d3, [], m, .error e, ?_, hm, hp1, hp2, hp3, by simp, hflt, ?_, ?_⟩
          · simp [andThen, List.append_assoc]
          · intro e' he'
            obtain ⟨pre, c, tail, hd, hin, herr, htail⟩ := he3 e' he'
            refine ⟨d1 ++ (d2 ++ pre), c, tail, ?_, ?_, herr, htail⟩
            · rw [hd]
              simp [List.append_assoc]
            · exact List.mem_append_right _ (List.mem_append_right _ hin)
          · intro h; exact absurd h (by simp)
        | ok u3 =>
          simp only [andThen]
          obtain ⟨d4, r4, h4, hp4, he4⟩ := ModP_seqP (fun lc =>
            ModP_weaken (mod_processViews env lc) (fun ev h => h.1)) lists
            ⟨st.cache ++ ((lists.take m).filter (fun lc => ensureOK env lc)).map (ensureData env),
              ((st.trace ++ d1) ++ d2) ++ d3⟩
          rw [show seqP (processViews env) lists
              ⟨st.cache ++ ((lists.take m).filter (fun lc => ensureOK env lc)).map (ensureData env),
                ((st.trace ++ d1) ++ d2) ++ d3⟩ =
              (⟨st.cache ++ ((lists.take m).filter (fun lc => ensureOK env lc)).map (ensureData env),
                (((st.trace ++ d1) ++ d2) ++ d3) ++ d4⟩, r4) from h4]
          right
          refine ⟨d1, d2, d3, d4, m, r4, ?_, hm, hp1, hp2, hp3, hp4, hflt, ?_, ?_⟩
          · simp [List.append_assoc]
          · intro e' he'
            obtain ⟨pre, c, tail, hd, hin, herr, htail⟩ := he4 e' he'
            refine ⟨d1 ++ (d2 ++ (d3 ++ pre)), c, tail, ?_, ?_, herr, htail⟩
            · rw [hd]
              simp [List.append_assoc]
            · exact List.mem_append_right _ (List.mem_append_right _
                (List.mem_append_right _ hin))
          · intro hr4
            exact hok1 rfl

/-! ## Strict sequentiality of the trace (claim C3) -/

theorem seqOK_pair (c : RemoteCall) (b : Bool) : seqOK [.issue c, .settle c b] = true := by
  show (c == c && seqOK []) = true
  simp [seqOK]

theorem seqOK_append_aux (b : List Event) (hb : seqOK b = true) :
    ∀ n a, List.length a ≤ n → seqOK a = true → seqOK (a ++ b) = true := by
  intro n
  induction n with
  | zero =>
    intro a hlen ha
    have hnil : a = [] := List.eq_nil_of_length_eq_zero (by omega)
    subst hnil
    simpa using hb
  | succ n ih =>
    intro a hlen ha
    rcases a with _ | ⟨e1, a1⟩
    · simpa using hb
    rcases a1 with _ | ⟨e2, rest⟩
    · cases e1 <;> exact Bool.noConfusion ha
    cases e1 with
    | settle c x => exact Bool.noConfusion ha
    | issue c =>
      cases e2 with
      | issue c2 => exact Bool.noConfusion ha
      | settle c2 x =>
        have ha2 : (c == c2 && seqOK rest) = true := ha
        rw [Bool.and_eq_true] at ha2
        have hr := ih rest (by simp at hlen; omega) ha2.2
        show (c == c2 && seqOK (rest ++ b)) = true
        rw [Bool.and_eq_true]
        exact ⟨ha2.1, hr⟩

theorem seqOK_append {a b : List Event} (ha : seqOK a = true) (hb : seqOK b = true) :
    seqOK (a ++ b) = true := seqOK_append_aux b hb a.length a le_rfl ha

theorem seqExtP_emit {c : RemoteCall} {r : Except Err Unit} :
    SeqExtP (fun st => emit st c r) := by
  intro st
  exact ⟨[.issue c, .settle c (exOk r)], by simp [emit], seqOK_pair c (exOk r)⟩

theorem seqExtP_seqP {α : Type} {f : α → St → St × Except Err Unit} :
    ∀ xs : List α, (∀ x ∈ xs, SeqExtP (f x)) → SeqExtP (fun st => seqP f xs st) := by
  intro xs
  induction xs with
  | nil => intro _ st; exact ⟨[], by simp [seqP], rfl⟩
  | cons x rest ih =>
    intro h st
    rcases hfx : f x st with ⟨st1, r1⟩
    have h1 := h x (List.mem_cons_self x rest) st
    rw [hfx] at h1
    obtain ⟨d1, hd1, hs1⟩ := h1
    cases r1 with
    | ok u =>
      obtain ⟨d2, hd2, hs2⟩ := ih (fun y hy => h y (List.mem_cons_of_mem x hy)) st1
      refine ⟨d1 ++ d2, ?_, seqOK_append hs1 hs2⟩
      show (seqP f (x :: rest) st).1.trace = _
      simp only [seqP, hfx]
      rw [hd2, hd1, List.append_assoc]
    | error e =>
      refine ⟨d1, ?_, hs1⟩
      show (seqP f (x :: rest) st).1.trace = _
      simp only [seqP, hfx]
      exact hd1

theorem seqExt_of_P {f : St → St × Except Err Unit} (h : SeqExtP f) :
    SeqExt (fun st => some (f st)) := by
  intro st st' r hst
  obtain ⟨d, hd, hs⟩ := h st
  simp only [Option.some.injEq] at hst
  rw [hst] at hd
  exact ⟨d, hd, hs⟩

theorem seqExt_seqRun {α : Type} {f : α → St → Option (St × Except Err Unit)} :
    ∀ xs : List α, (∀ x ∈ xs, SeqExt (f x)) → SeqExt (fun st => seqRun f xs st) := by
  intro xs
  induction xs with
  | nil =>
    intro _ st st' r hst
    simp only [seqRun, Option.some.injEq, Prod.mk.injEq] at hst
    obtain ⟨rfl, rfl⟩ := hst
    exact ⟨[], by simp, rfl⟩
  | cons x rest ih =>
    intro h st st' r hst
    simp only [seqRun] at hst
    cases hfx : f x st with
    | none => rw [hfx] at hst; simp at hst
    | some pr =>
      obtain ⟨st1, r1⟩ := pr
      rw [hfx] at hst
      obtain ⟨d1, hd1, hs1⟩ := h x (List.mem_cons_self x rest) st st1 r1 hfx
      cases r1 with
      | ok u =>
        simp only at hst
        obtain ⟨d2, hd2, hs2⟩ := ih (fun y hy => h y (List.mem_cons_of_mem x hy)) st1 st' r hst
        refine ⟨d1 ++ d2, ?_, seqOK_append hs1 hs2⟩
        rw [hd2, hd1, List.append_assoc]
      | error e =>
        simp only [Option.some.injEq, Prod.mk.injEq] at hst
        obtain ⟨rfl, rfl⟩ := hst
        exact ⟨d1, hd1, hs1⟩

theorem seqExt_andThen {F : St → Option (St × Except Err Unit)}
    {G : St → Option (St × Except Err Unit)} (hF : SeqExt F) (hG : SeqExt G) :
    SeqExt (fun st => andThen (F st) G) := by
  intro st st' r hst
  simp only [andThen] at hst
  cases hf : F st with
  | none => rw [hf] at hst; simp at hst
  | some pr =>
    obtain ⟨st1, r1⟩ := pr
    rw [hf] at hst
    obtain ⟨d1, hd1, hs1⟩ := hF st st1 r1 hf
    cases r1 with
    | ok u =>
      simp only at hst
      obtain ⟨d2, hd2, hs2⟩ := hG st1 st' r hst
      refine ⟨d1 ++ d2, ?_, seqOK_append hs1 hs2⟩
      rw [hd2, hd1, List.append_assoc]
    | error e =>
      simp only [Option.some.injEq, Prod.mk.injEq] at hst
      obtain ⟨rfl, rfl⟩ := hst
      exact ⟨d1, hd1, hs1⟩

theorem seq_ctBinding (env : Env) (lc : IList) (ct : Str) :
    SeqExtP (processContentTypeBinding env lc ct) :=
  seqExtP_emit

theorem seq_ctbs (env : Env) (lc : IList) (hrm : lc.RemoveExistingContentTypes = false) :
    SeqExtP (processContentTypeBindings env lc) := by
  intro st
  unfold processContentTypeBindings
  cases hb : lc.ContentTypeBindings with
  | none => exact ⟨[], by simp, rfl⟩
  | some ctbs =>
    obtain ⟨d, hd, hs⟩ := seqExtP_seqP ctbs
      (fun b _ => seq_ctBinding env lc b.ContentTypeID) st
    have hd0 : (seqP (fun b => processContentTypeBinding env lc b.ContentTypeID) ctbs st).1.trace
        = st.trace ++ d := hd
    rcases hsp : seqP (fun b => processContentTypeBinding env lc b.ContentTypeID) ctbs st
      with ⟨st1, r1⟩
    rw [hsp] at hd0
    dsimp only
    rw [hsp]
    cases r1 with
    | error e => exact ⟨d, hd0, hs⟩
    | ok u =>
      rw [hrm]
      exact ⟨d, hd0, hs⟩

theorem seq_processList (env : Env) (lc : IList) (hrm : lc.RemoveExistingContentTypes = false) :
    SeqExtP (processList env lc) := by
  intro st
  unfold processList
  cases hg : env.ensure lc.Title lc.Description lc.Template lc.ContentTypesEnabled
      lc.AdditionalSettings with
  | error e =>
    refine ⟨[.issue (ensureCallOf lc), .settle (ensureCallOf lc) false], ?_,
      seqOK_pair (ensureCallOf lc) false⟩
    simp only [emit, hg, exOk]
    simp [ensureCallOf]
  | ok res =>
    obtain ⟨d2, hd2, hs2⟩ := seq_ctbs env lc hrm
      ⟨st.cache ++ [res.data],
        st.trace ++ [.issue (ensureCallOf lc), .settle (ensureCallOf lc) true]⟩
    have hc' : (processContentTypeBindings env lc ⟨st.cache ++ [res.data],
        st.trace ++ [Event.issue (ensureCallOf lc),
          Event.settle (ensureCallOf lc) true]⟩).1.trace =
        (st.trace ++ [Event.issue (ensureCallOf lc), Event.settle (ensureCallOf lc) true])
          ++ d2 := hd2
    refine ⟨[.issue (ensureCallOf lc), .settle (ensureCallOf lc) true] ++ d2, ?_,
      seqOK_append (seqOK_pair (ensureCallOf lc) true) hs2⟩
    simp only [emit, hg, exOk]
    rw [show (RemoteCall.ensure lc.Title lc.Description lc.Template lc.ContentTypesEnabled
      lc.AdditionalSettings) = ensureCallOf lc from rfl]
    rw [hc', List.append_assoc]

theorem seq_fieldTry (env : Env) (lt fid : Str) (st : St) :
    ∃ d, (fieldTryBlock env lt fid st).trace = st.trace ++ d ∧ seqOK d = true := by
  unfold fieldTryBlock
  cases hgf : env.getFieldById lt fid with
  | error e =>
    exact ⟨[.issue (.getFieldById lt fid), .settle (.getFieldById lt fid) false],
      by simp [emit, exOk], seqOK_pair _ false⟩
  | ok u =>
    refine ⟨[.issue (.getFieldById lt fid), .settle (.getFieldById lt fid) true] ++
      [.issue (.deleteField lt fid),
        .settle (.deleteField lt fid) (exOk (env.deleteField lt fid))], ?_,
      seqOK_append (seqOK_pair _ true) (seqOK_pair _ _)⟩
    simp [emit, exOk, List.append_assoc]

theorem seq_processFieldTS (xl : XmlLib) (env : Env) (rfuel : Nat) (lc : IList) (fx : Str) :
    SeqExt (processFieldTS xl env rfuel lc fx) := by
  intro st st' r hst
  obtain ⟨dtry, htry, hstry⟩ := seq_fieldTry env lc.Title (xl.parseAttrs fx).ID st
  unfold processFieldTS at hst
  cases hTL : tokenLoop (fieldTryBlock env lc.Title (xl.parseAttrs fx).ID st).cache rfuel
      (xl.roundtrip fx) 0 with
  | none => rw [hTL] at hst; simp at hst
  | some sub =>
    obtain ⟨subx, subn⟩ := sub
    rw [hTL] at hst
    cases hcr : env.createFieldAsXml lc.Title subx with
    | error e =>
      simp only [emit, hcr, exOk, Option.some.injEq, Prod.mk.injEq] at hst
      obtain ⟨rfl, rfl⟩ := hst
      refine ⟨dtry ++ [.issue (.createFieldAsXml lc.Title subx),
        .settle (.createFieldAsXml lc.Title subx) false], ?_,
        seqOK_append hstry (seqOK_pair _ false)⟩
      simp only
      rw [htry, List.append_assoc]
    | ok u =>
      simp only [emit, hcr, exOk, Option.some.injEq, Prod.mk.injEq] at hst
      obtain ⟨rfl, rfl⟩ := hst
      refine ⟨dtry ++ ([.issue (.createFieldAsXml lc.Title subx),
        .settle (.createFieldAsXml lc.Title subx) true] ++
        [.issue (.updateFieldTitle lc.Title (xl.parseAttrs fx).DisplayName),
         .settle (.updateFieldTitle lc.Title (xl.parseAttrs fx).DisplayName)
           (exOk (env.updateFieldTitle lc.Title (xl.parseAttrs fx).DisplayName))]), ?_,
        seqOK_append hstry (seqOK_append (seqOK_pair _ true) (seqOK_pair _ _))⟩
      simp only
      rw [htry]
      simp [exOk, List.append_assoc]

theorem seq_processFields (xl : XmlLib) (env : Env) (rfuel : Nat) (lc : IList) :
    SeqExt (processFields xl env rfuel lc) := by
  intro st st' r hst
  unfold processFields at hst
  cases hf : lc.Fields with
  | none =>
    rw [hf] at hst
    simp only [Option.some.injEq, Prod.mk.injEq] at hst
    obtain ⟨rfl, rfl⟩ := hst
    exact ⟨[], by simp, rfl⟩
  | some fs =>
    rw [hf] at hst
    exact seqExt_seqRun fs (fun fxx _ => seq_processFieldTS xl env rfuel lc fxx) st st' r hst

theorem seq_processFieldRefs (env : Env) (lc : IList) :
    SeqExtP (processFieldRefs env lc) := by
  intro st
  unfold processFieldRefs
  cases hf : lc.FieldRefs with
  | none => exact ⟨[], by simp, rfl⟩
  | some frs =>
    exact seqExtP_seqP frs (fun fr _ => fun s =>
      seqExtP_emit (c := .updateFieldRef lc.Title fr.ID fr.Hidden fr.Required fr.DisplayName) s) st

theorem seq_processViewFields (env : Env) (lt vt : Str) (vfs : List Str) :
    SeqExtP (processViewFields env lt vt vfs) := by
  intro st
  unfold processViewFields
  cases hrm : env.removeAllViewFields lt vt with
  | error e =>
    exact ⟨[.issue (.removeAllViewFields lt vt), .settle (.removeAllViewFields lt vt) false],
      by simp [emit, exOk], seqOK_pair _ false⟩
  | ok u =>
    obtain ⟨d2, hd2, hs2⟩ := seqExtP_seqP vfs
      (fun f _ => fun s => seqExtP_emit (c := .addViewField lt vt f) s)
      ⟨st.cache, st.trace ++ [.issue (.removeAllViewFields lt vt),
        .settle (.removeAllViewFields lt vt) true]⟩
    have hd2' : (seqP (fun f st => emit st (.addViewField lt vt f) (env.addViewField lt vt f)) vfs
        ⟨st.cache, st.trace ++ [Event.issue (.removeAllViewFields lt vt),
          Event.settle (.removeAllViewFields lt vt) true]⟩).1.trace =
        (st.trace ++ [Event.issue (.removeAllViewFields lt vt),
          Event.settle (.removeAllViewFields lt vt) true]) ++ d2 := hd2
    have hemit : emit st (.removeAllViewFields lt vt) (Except.ok u : Except Err Unit) =
        (⟨st.cache, st.trace ++ [Event.issue (.removeAllViewFields lt vt),
          Event.settle (.removeAllViewFields lt vt) true]⟩, .ok u) := by
      simp [emit, exOk]
    refine ⟨[.issue (.removeAllViewFields lt vt), .settle (.removeAllViewFields lt vt) true] ++ d2,
      ?_, seqOK_append (seqOK_pair _ true) hs2⟩
    rw [hemit]
    dsimp only
    rw [hd2', List.append_assoc]

theorem seq_viewFallback (env : Env) (lc : IList) (v : ViewCfg) :
    SeqExtP (viewFallback env lc v) := by
  intro st
  unfold viewFallback
  cases hav : env.addView lc.Title v.Title v.PersonalView v.AdditionalSettings with
  | error e =>
    exact ⟨[.issue (.addView lc.Title v.Title v.PersonalView v.AdditionalSettings),
      .settle (.addView lc.Title v.Title v.PersonalView v.AdditionalSettings) false],
      by simp [emit, exOk], seqOK_pair _ false⟩
  | ok u =>
    obtain ⟨d2, hd2, hs2⟩ := seq_processViewFields env lc.Title v.Title v.ViewFields
      ⟨st.cache, st.trace ++ [.issue (.addView lc.Title v.Title v.PersonalView v.AdditionalSettings),
        .settle (.addView lc.Title v.Title v.PersonalView v.AdditionalSettings) true]⟩
    have hd2' : (processViewFields env lc.Title v.Title v.ViewFields
        ⟨st.cache, st.trace ++ [Event.issue (.addView lc.Title v.Title v.PersonalView
          v.AdditionalSettings),
          Event.settle (.addView lc.Title v.Title v.PersonalView v.AdditionalSettings)
            true]⟩).1.trace =
        (st.trace ++ [Event.issue (.addView lc.Title v.Title v.PersonalView v.AdditionalSettings),
          Event.settle (.addView lc.Title v.Title v.PersonalView v.AdditionalSettings) true])
          ++ d2 := hd2
    refine ⟨[.issue (.addView lc.Title v.Title v.PersonalView v.AdditionalSettings),
      .settle (.addView lc.Title v.Title v.PersonalView v.AdditionalSettings) true] ++ d2, ?_,
      seqOK_append (seqOK_pair _ true) hs2⟩
    simp only [emit, hav, exOk]
    rw [hd2', List.append_assoc]

theorem seq_processView (env : Env) (lc : IList) (v : ViewCfg) :
    SeqExtP (processView env lc v) := by
  intro st
  unfold processView
  cases hgv : env.getView lc.Title v.Title with
  | error e =>
    obtain ⟨d2, hd2, hs2⟩ := seq_viewFallback env lc v
      ⟨st.cache, st.trace ++ [.issue (.getView lc.Title v.Title),
        .settle (.getView lc.Title v.Title) false]⟩
    have hd2' : (viewFallback env lc v ⟨st.cache,
        st.trace ++ [Event.issue (.getView lc.Title v.Title),
          Event.settle (.getView lc.Title v.Title) false]⟩).1.trace =
        (st.trace ++ [Event.issue (.getView lc.Title v.Title),
          Event.settle (.getView lc.Title v.Title) false]) ++ d2 := hd2
    refine ⟨[.issue (.getView lc.Title v.Title), .settle (.getView lc.Title v.Title) false] ++ d2,
      ?_, seqOK_append (seqOK_pair _ false) hs2⟩
    simp only [emit, hgv, exOk]
    rw [hd2', List.append_assoc]
  | ok u0 =>
    cases huv : env.updateView lc.Title v.Title v.AdditionalSettings with
    | error e =>
      obtain ⟨d2, hd2, hs2⟩ := seq_viewFallback env lc v
        ⟨st.cache, (st.trace ++ [.issue (.getView lc.Title v.Title),
          .settle (.getView lc.Title v.Title) true]) ++
          [.issue (.updateView lc.Title v.Title v.AdditionalSettings),
            .settle (.updateView lc.Title v.Title v.AdditionalSettings) false]⟩
      have hd2' : (viewFallback env lc v ⟨st.cache,
          (st.trace ++ [Event.issue (.getView lc.Title v.Title),
            Event.settle (.getView lc.Title v.Title) true]) ++
            [Event.issue (.updateView lc.Title v.Title v.AdditionalSettings),
              Event.settle (.updateView lc.Title v.Title v.AdditionalSettings) false]⟩).1.trace =
          ((st.trace ++ [Event.issue (.getView lc.Title v.Title),
            Event.settle (.getView lc.Title v.Title) true]) ++
            [Event.issue (.updateView lc.Title v.Title v.AdditionalSettings),
              Event.settle (.updateView lc.Title v.Title v.AdditionalSettings) false]) ++ d2 := hd2
      refine ⟨([.issue (.getView lc.Title v.Title), .settle (.getView lc.Title v.Title) true] ++
        [.issue (.updateView lc.Title v.Title v.AdditionalSettings),
          .settle (.updateView lc.Title v.Title v.AdditionalSettings) false]) ++ d2, ?_,
        seqOK_append (seqOK_append (seqOK_pair _ true) (seqOK_pair _ false)) hs2⟩
      simp only [emit, hgv, huv, exOk]
      rw [hd2']
      simp [List.append_assoc]
    | ok u1 =>
      obtain ⟨d3, hd3, hs3⟩ := seq_processViewFields env lc.Title v.Title v.ViewFields
        ⟨st.cache, (st.trace ++ [.issue (.getView lc.Title v.Title),
          .settle (.getView lc.Title v.Title) true]) ++
          [.issue (.updateView lc.Title v.Title v.AdditionalSettings),
            .settle (.updateView lc.Title v.Title v.AdditionalSettings) true]⟩
      rcases hvf : processViewFields env lc.Title v.Title v.ViewFields
          ⟨st.cache, (st.trace ++ [Event.issue (.getView lc.Title v.Title),
            Event.settle (.getView lc.Title v.Title) true]) ++
            [Event.issue (.updateView lc.Title v.Title v.AdditionalSettings),
              Event.settle (.updateView lc.Title v.Title v.AdditionalSettings) true]⟩
          with ⟨st3, r3⟩
      rw [hvf] at hd3
      cases r3 with
      | error e3 =>
        obtain ⟨d4, hd4, hs4⟩ := seq_viewFallback env lc v st3
        refine ⟨([.issue (.getView lc.Title v.Title), .settle (.getView lc.Title v.Title) true] ++
          [.issue (.updateView lc.Title v.Title v.AdditionalSettings),
            .settle (.updateView lc.Title v.Title v.AdditionalSettings) true]) ++ (d3 ++ d4), ?_,
          seqOK_append (seqOK_append (seqOK_pair _ true) (seqOK_pair _ true))
            (seqOK_append hs3 hs4)⟩
        simp only [emit, hgv, huv, exOk]
        rw [hvf]
        simp only
        rw [hd4, hd3]
        simp [List.append_assoc]
      | ok u3 =>
        refine ⟨([.issue (.getView lc.Title v.Title), .settle (.getView lc.Title v.Title) true] ++
          [.issue (.updateView lc.Title v.Title v.AdditionalSettings),
            .settle (.updateView lc.Title v.Title v.AdditionalSettings) true]) ++ d3, ?_,
          seqOK_append (seqOK_append (seqOK_pair _ true) (seqOK_pair _ true)) hs3⟩
        simp only [emit, hgv, huv, exOk]
        rw [hvf]
        simp only
        rw [hd3]
        simp [List.append_assoc]

theorem seq_processViews (env : Env) (lc : IList) :
    SeqExtP (processViews env lc) := by
  intro st
  unfold processViews
  cases hv : lc.Views with
  | none => exact ⟨[], by simp, rfl⟩
  | some vs => exact seqExtP_seqP vs (fun v _ => seq_processView env lc v) st

/-- The whole run under the no-removal hypothesis appends a strictly
sequential chunk. -/
theorem seq_provision (xl : XmlLib) (env : Env) (rfuel : Nat) (lists : List IList)
    (hnr : ∀ lc ∈ lists, lc.RemoveExistingContentTypes = false) :
    SeqExt (ProvisionObjects xl env rfuel lists) := by
  have h1 : SeqExt (fun st => some (seqP (processList env) lists st)) :=
    seqExt_of_P (seqExtP_seqP lists (fun lc hlc => seq_processList env lc (hnr lc hlc)))
  have h2 : SeqExt (fun st => seqRun (fun lc => processFields xl env rfuel lc) lists st) :=
    seqExt_seqRun lists (fun lc _ => seq_processFields xl env rfuel lc)
  have h3 : SeqExt (fun st => some (seqP (processFieldRefs env) lists st)) :=
    seqExt_of_P (seqExtP_seqP lists (fun lc _ => seq_processFieldRefs env lc))
  have h4 : SeqExt (fun st => some (seqP (processViews env) lists st)) :=
    seqExt_of_P (seqExtP_seqP lists (fun lc _ => seq_processViews env lc))
  exact seqExt_andThen h1 (seqExt_andThen h2 (seqExt_andThen h3 h4))

/-! ## All-ok chunks for the view and content-type loops -/

theorem addFields_ok (env : Env) (lt vt : Str) :
    ∀ (vfs : List Str), (∀ f ∈ vfs, env.addViewField lt vt f = .ok ()) → ∀ st,
      seqP (fun f st => emit st (.addViewField lt vt f) (env.addViewField lt vt f)) vfs st =
        (⟨st.cache, st.trace ++ (vfs.map (fun f =>
          [Event.issue (.addViewField lt vt f),
           Event.settle (.addViewField lt vt f) true])).flatten⟩, .ok ()) := by
  intro vfs
  induction vfs with
  | nil => intro _ st; simp [seqP]
  | cons f rest ih =>
    intro h st
    have hf := h f (List.mem_cons_self f rest)
    have hemit : emit st (.addViewField lt vt f) (env.addViewField lt vt f) =
        (⟨st.cache, st.trace ++ [Event.issue (.addViewField lt vt f),
          Event.settle (.addViewField lt vt f) true]⟩, .ok ()) := by
      rw [hf]; simp [emit, exOk]
    simp only [seqP]
    rw [hemit]
    dsimp only
    rw [ih (fun g hg => h g (List.mem_cons_of_mem f hg))]
    simp [List.append_assoc]

theorem ctAdds_ok (env : Env) (lc : IList) :
    ∀ (ctbs : List CTB),
      (∀ b ∈ ctbs, env.addAvailableContentType lc.Title b.ContentTypeID = .ok ()) → ∀ st,
      seqP (fun b => processContentTypeBinding env lc b.ContentTypeID) ctbs st =
        (⟨st.cache, st.trace ++ (ctbs.map (fun b =>
          [Event.issue (.addAvailableContentType lc.Title b.ContentTypeID),
           Event.settle (.addAvailableContentType lc.Title b.ContentTypeID) true])).flatten⟩,
          .ok ()) := by
  intro ctbs
  induction ctbs with
  | nil => intro _ st; simp [seqP]
  | cons b rest ih =>
    intro h st
    have hb := h b (List.mem_cons_self b rest)
    have hemit : processContentTypeBinding env lc b.ContentTypeID st =
        (⟨st.cache, st.trace ++ [Event.issue (.addAvailableContentType lc.Title b.ContentTypeID),
          Event.settle (.addAvailableContentType lc.Title b.ContentTypeID) true]⟩, .ok ()) := by
      unfold processContentTypeBinding
      rw [hb]; simp [emit, exOk]
    simp only [seqP]
    rw [hemit]
    dsimp only
    rw [ih (fun g hg => h g (List.mem_cons_of_mem b hg))]
    simp [List.append_assoc]

theorem viewFields_ok (env : Env) (lt vt : Str) (vfs : List Str)
    (hrm : env.removeAllViewFields lt vt = .ok ())
    (hadd : ∀ f ∈ vfs, env.addViewField lt vt f = .ok ()) (st : St) :
    processViewFields env lt vt vfs st =
      (⟨st.cache, st.trace ++ ([Event.issue (.removeAllViewFields lt vt),
        Event.settle (.removeAllViewFields lt vt) true] ++
        (vfs.map (fun f => [Event.issue (.addViewField lt vt f),
          Event.settle (.addViewField lt vt f) true])).flatten)⟩, .ok ()) := by
  unfold processViewFields
  have hemit : emit st (.removeAllViewFields lt vt) (env.removeAllViewFields lt vt) =
      (⟨st.cache, st.trace ++ [Event.issue (.removeAllViewFields lt vt),
        Event.settle (.removeAllViewFields lt vt) true]⟩, .ok ()) := by
    rw [hrm]; simp [emit, exOk]
  rw [hemit]
  dsimp only
  rw [addFields_ok env lt vt vfs hadd]
  simp [List.append_assoc]

/-- Decoding `shouldRemove` into the substring conditions of the claim. -/
theorem shouldRemove_iff (ctbs : List CTB) (ct : Str) :
    shouldRemove ctbs ct = true ↔
      ((∀ b ∈ ctbs, ¬ ∃ u v, ct = u ++ (b.ContentTypeID ++ v)) ∧
        ¬ ∃ u v, ct = u ++ ("0x0120".toList ++ v)) := by
  unfold shouldRemove
  rw [Bool.and_eq_true]
  constructor
  · rintro ⟨h1, h2⟩
    constructor
    · intro b hb hex
      have hsome : (firstOccur ct b.ContentTypeID).isSome := firstOccur_isSome_iff.mpr hex
      have hflt : (ctbs.filter (fun b => (firstOccur ct b.ContentTypeID).isSome)).length = 0 := by
        simpa using h1
      have hnil : ctbs.filter (fun b => (firstOccur ct b.ContentTypeID).isSome) = [] :=
        List.eq_nil_of_length_eq_zero hflt
      have : b ∈ ctbs.filter (fun b => (firstOccur ct b.ContentTypeID).isSome) :=
        List.mem_filter.mpr ⟨hb, by simpa using hsome⟩
      rw [hnil] at this
      simp at this
    · intro hex
      have hsome : (firstOccur ct ("0x0120".toList)).isSome := firstOccur_isSome_iff.mpr hex
      rw [Bool.not_eq_true'] at h2
      rw [h2] at hsome
      simp at hsome
  · rintro ⟨h1, h2⟩
    constructor
    · have hnil : ctbs.filter (fun b => (firstOccur ct b.ContentTypeID).isSome) = [] := by
        rw [List.filter_eq_nil_iff]
        intro b hb
        simp only [Bool.not_eq_true]
        rw [← Bool.not_eq_true]
        intro hsome
        exact h1 b hb (firstOccur_isSome_iff.mp (by simpa using hsome))
      simp [hnil]
    · rw [Bool.not_eq_true']
      rw [← Bool.not_eq_true]
      intro hsome
      exact h2 (firstOccur_isSome_iff.mp (by simpa using hsome))

/-! ## Per-configuration chunk decomposition of the phases (claim C2) -/

theorem flatten_phase {ds : List (List Event)} {xs : List IList} {k : Nat}
    (hlen : ds.length ≤ xs.length)
    (hQ : ∀ i (hi : i < ds.length) (hxi : i < xs.length),
      ∀ ev ∈ ds.get ⟨i, hi⟩, evPhase ev = k ∧ evTitle ev = (xs.get ⟨i, hxi⟩).Title) :
    ∀ ev ∈ ds.flatten, evPhase ev = k := by
  intro ev hev
  obtain ⟨l, hl, hevl⟩ := List.mem_flatten.mp hev
  obtain ⟨⟨i, hi⟩, hget⟩ := List.mem_iff_get.mp hl
  rw [← hget] at hevl
  exact (hQ i hi (by omega) ev hevl).1

/-- A sequential `seqP` chain produces one trace chunk per processed element,
in list order: `P` holds of each element's chunk, `Pok` additionally when the
element's promise resolved (on a resolving chain: of every element). -/
theorem seqP_chunks {α : Type} {env : Env} {P : α → List Event → Prop}
    {Pok : α → List Event → Prop} {f : α → St → St × Except Err Unit}
    (h : ∀ x st, ∃ d r, f x st = (⟨st.cache, st.trace ++ d⟩, r) ∧ P x d ∧
      (r = .ok () → Pok x d) ∧ ErrShape env d r) :
    ∀ (xs : List α) (st : St), ∃ (ds : List (List Event)) (r : Except Err Unit),
      seqP f xs st = (⟨st.cache, st.trace ++ ds.flatten⟩, r) ∧
      ds.length ≤ xs.length ∧
      (∀ i (hi : i < ds.length) (hxi : i < xs.length),
        P (xs.get ⟨i, hxi⟩) (ds.get ⟨i, hi⟩)) ∧
      ErrShape env ds.flatten r ∧
      (r = .ok () → ds.length = xs.length ∧
        ∀ i (hi : i < ds.length) (hxi : i < xs.length),
          Pok (xs.get ⟨i, hxi⟩) (ds.get ⟨i, hi⟩)) := by
  intro xs
  induction xs with
  | nil =>
    intro st
    refine ⟨[], .ok (), by simp [seqP], by simp, ?_, ErrShape_ok env _, ?_⟩
    · intro i hi
      exact absurd hi (Nat.not_lt_zero i)
    · intro _
      refine ⟨rfl, ?_⟩
      intro i hi
      exact absurd hi (Nat.not_lt_zero i)
  | cons x rest ih =>
    intro st
    obtain ⟨d1, r1, hf, hP1, hPok1, he1⟩ := h x st
    cases r1 with
    | error e =>
      refine ⟨[d1], .error e, ?_, by simp, ?_, ?_, ?_⟩
      · show seqP f (x :: rest) st = _
        simp only [seqP, hf]
        simp
      · intro i hi hxi
        cases i with
        | zero => exact hP1
        | succ j => simp at hi
      · intro e' he'
        obtain ⟨pre, c, tail, hd, hin, herr, htail⟩ := he1 e' he'
        refine ⟨pre, c, tail, ?_, hin, herr, htail⟩
        rw [show ([d1] : List (List Event)).flatten = d1 from by simp, hd]
      · intro hh
        exact absurd hh (by simp)
    | ok u =>
      obtain ⟨ds2, r2, hg, hle2, hQ2, he2, hok2⟩ := ih ⟨st.cache, st.trace ++ d1⟩
      have hg' : seqP f rest ⟨st.cache, st.trace ++ d1⟩ =
          (⟨st.cache, (st.trace ++ d1) ++ ds2.flatten⟩, r2) := hg
      refine ⟨d1 :: ds2, r2, ?_, by simp; omega, ?_, ?_, ?_⟩
      · show seqP f (x :: rest) st = _
        simp only [seqP, hf]
        rw [hg']
        simp [List.append_assoc]
      · intro i hi hxi
        cases i with
        | zero => exact hP1
        | succ j =>
          exact hQ2 j (by simpa using hi) (by simpa using hxi)
      · intro e he
        obtain ⟨pre, c, tail, hd, hin, herr, htail⟩ := he2 e he
        refine ⟨d1 ++ pre, c, tail, ?_, List.mem_append_right _ hin, herr, htail⟩
        rw [show (d1 :: ds2).flatten = d1 ++ ds2.flatten from by simp, hd, List.append_assoc]
      · intro hh
        obtain ⟨hlen, hQok⟩ := hok2 hh
        refine ⟨by simp [hlen], ?_⟩
        intro i hi hxi
        cases i with
        | zero => exact hPok1 rfl
        | succ j =>
          exact hQok j (by simpa using hi) (by simpa using hxi)

/-- As `seqP_chunks`, for the possibly diverging field phase. -/
theorem seqRun_chunks {α : Type} {env : Env} {P : α → List Event → Prop}
    {Pok : α → List Event → Prop} {f : α → St → Option (St × Except Err Unit)}
    (h : ∀ x st, f x st = none ∨ ∃ d r, f x st = some (⟨st.cache, st.trace ++ d⟩, r) ∧ P x d ∧
      (r = .ok () → Pok x d) ∧ ErrShape env d r) :
    ∀ (xs : List α) (st : St), seqRun f xs st = none ∨
      ∃ (ds : List (List Event)) (r : Except Err Unit),
      seqRun f xs st = some (⟨st.cache, st.trace ++ ds.flatten⟩, r) ∧
      ds.length ≤ xs.length ∧
      (∀ i (hi : i < ds.length) (hxi : i < xs.length),
        P (xs.get ⟨i, hxi⟩) (ds.get ⟨i, hi⟩)) ∧
      ErrShape env ds.flatten r ∧
      (r = .ok () → ds.length = xs.length ∧
        ∀ i (hi : i < ds.length) (hxi : i < xs.length),
          Pok (xs.get ⟨i, hxi⟩) (ds.get ⟨i, hi⟩)) := by
  intro xs
  induction xs with
  | nil =>
    intro st
    refine Or.inr ⟨[], .ok (), by simp [seqRun], by simp, ?_, ErrShape_ok env _, ?_⟩
    · intro i hi
      exact absurd hi (Nat.not_lt_zero i)
    · intro _
      refine ⟨rfl, ?_⟩
      intro i hi
      exact absurd hi (Nat.not_lt_zero i)
  | cons x rest ih =>
    intro st
    rcases h x st with hn | ⟨d1, r1, hf, hP1, hPok1, he1⟩
    · left
      show seqRun f (x :: rest) st = none
      simp only [seqRun, hn]
    cases r1 with
    | error e =>
      right
      refine ⟨[d1], .error e, ?_, by simp, ?_, ?_, ?_⟩
      · show seqRun f (x :: rest) st = _
        simp only [seqRun, hf]
        simp
      · intro i hi hxi
        cases i with
        | zero => exact hP1
        | succ j => simp at hi
      · intro e' he'
        obtain ⟨pre, c, tail, hd, hin, herr, htail⟩ := he1 e' he'
        refine ⟨pre, c, tail, ?_, hin, herr, htail⟩
        rw [show ([d1] : List (List Event)).flatten = d1 from by simp, hd]
      · intro hh
        exact absurd hh (by simp)
    | ok u =>
      rcases ih ⟨st.cache, st.trace ++ d1⟩ with hn | ⟨ds2, r2, hg, hle2, hQ2, he2, hok2⟩
      · left
        show seqRun f (x :: rest) st = none
        simp only [seqRun, hf]
        exact hn
      right
      have hg' : seqRun f rest ⟨st.cache, st.trace ++ d1⟩ =
          some (⟨st.cache, (st.trace ++ d1) ++ ds2.flatten⟩, r2) := hg
      refine ⟨d1 :: ds2, r2, ?_, by simp; omega, ?_, ?_, ?_⟩
      · show seqRun f (x :: rest) st = _
        simp only [seqRun, hf]
        rw [hg']
        simp [List.append_assoc]
      · intro i hi hxi
        cases i with
        | zero => exact hP1
        | succ j =>
          exact hQ2 j (by simpa using hi) (by simpa using hxi)
      · intro e he
        obtain ⟨pre, c, tail, hd, hin, herr, htail⟩ := he2 e he
        refine ⟨d1 ++ pre, c, tail, ?_, List.mem_append_right _ hin, herr, htail⟩
        rw [show (d1 :: ds2).flatten = d1 ++ ds2.flatten from by simp, hd, List.append_assoc]
      · intro hh
        obtain ⟨hlen, hQok⟩ := hok2 hh
        refine ⟨by simp [hlen], ?_⟩
        intro i hi hxi
        cases i with
        | zero => exact hPok1 rfl
        | succ j =>
          exact hQok j (by simpa using hi) (by simpa using hxi)

/-- The field-ref loop issues exactly the configured updates, in configured
order, truncated at the first rejection. -/
theorem refs_calls (env : Env) (lc : IList) :
    ∀ (frs : List FieldRefCfg) (st : St), ∃ d r,
      seqP (processFieldRef env lc) frs st = (⟨st.cache, st.trace ++ d⟩, r) ∧
      (∀ ev ∈ d, evPhase ev = 3 ∧ evTitle ev = lc.Title) ∧
      (∃ rest, frs.map (refCallOf lc) = issuedCalls d ++ rest) ∧
      (r = .ok () → issuedCalls d = frs.map (refCallOf lc)) ∧
      ErrShape env d r := by
  intro frs
  induction frs with
  | nil =>
    intro st
    exact ⟨[], .ok (), by simp [seqP], by simp, ⟨[], rfl⟩, fun _ => rfl, ErrShape_ok env []⟩
  | cons fr rest ih =>
    intro st
    cases hu : env.updateFieldRef lc.Title fr.ID fr.Hidden fr.Required fr.DisplayName with
    | error e =>
      have hemit : processFieldRef env lc fr st =
          (⟨st.cache, st.trace ++ [Event.issue (refCallOf lc fr),
            Event.settle (refCallOf lc fr) false]⟩, .error e) := by
        unfold processFieldRef
        rw [hu]
        simp [emit, exOk, refCallOf]
      refine ⟨[Event.issue (refCallOf lc fr), Event.settle (refCallOf lc fr) false],
        .error e, ?_, ?_, ⟨rest.map (refCallOf lc), rfl⟩, ?_, ?_⟩
      · show seqP (processFieldRef env lc) (fr :: rest) st = _
        simp only [seqP, hemit]
      · intro ev hev
        rcases List.mem_cons.mp hev with rfl | hev
        · exact ⟨rfl, rfl⟩
        rcases List.mem_cons.mp hev with rfl | hev
        · exact ⟨rfl, rfl⟩
        · simp at hev
      · intro hh
        exact absurd hh (by simp)
      · intro e' he'
        simp only [Except.error.injEq] at he'
        subst he'
        exact ⟨[Event.issue (refCallOf lc fr)], refCallOf lc fr, [], rfl, by simp,
          by simp [envErrOf, refCallOf, errOf, hu], by simp⟩
    | ok u =>
      have hemit : processFieldRef env lc fr st =
          (⟨st.cache, st.trace ++ [Event.issue (refCallOf lc fr),
            Event.settle (refCallOf lc fr) true]⟩, .ok ()) := by
        unfold processFieldRef
        rw [hu]
        simp [emit, exOk, refCallOf]
      obtain ⟨d2, r2, hg, hev2, ⟨rest2, hpre2⟩, hok2, he2⟩ :=
        ih ⟨st.cache, st.trace ++ [Event.issue (refCallOf lc fr),
          Event.settle (refCallOf lc fr) true]⟩
      have hg' : seqP (processFieldRef env lc) rest ⟨st.cache,
          st.trace ++ [Event.issue (refCallOf lc fr), Event.settle (refCallOf lc fr) true]⟩ =
          (⟨st.cache, (st.trace ++ [Event.issue (refCallOf lc fr),
            Event.settle (refCallOf lc fr) true]) ++ d2⟩, r2) := hg
      have hic : issuedCalls ([Event.issue (refCallOf lc fr),
          Event.settle (refCallOf lc fr) true] ++ d2) = refCallOf lc fr :: issuedCalls d2 := by
        rw [issuedCalls_append]
        rfl
      refine ⟨[Event.issue (refCallOf lc fr), Event.settle (refCallOf lc fr) true] ++ d2,
        r2, ?_, ?_, ?_, ?_, ?_⟩
      · show seqP (processFieldRef env lc) (fr :: rest) st = _
        simp only [seqP, hemit]
        rw [hg', List.append_assoc]
      · intro ev hev
        rcases List.mem_append.mp hev with hm | hm
        · rcases List.mem_cons.mp hm with rfl | hm
          · exact ⟨rfl, rfl⟩
          rcases List.mem_cons.mp hm with rfl | hm
          · exact ⟨rfl, rfl⟩
          · simp at hm
        · exact hev2 ev hm
      · refine ⟨rest2, ?_⟩
        rw [hic, List.map_cons, hpre2]
        rfl
      · intro hh
        rw [hic, List.map_cons, hok2 hh]
      · intro e he
        obtain ⟨pre, c, tail, hd, hin, herr, htail⟩ := he2 e he
        exact ⟨[Event.issue (refCallOf lc fr), Event.settle (refCallOf lc fr) true] ++ pre,
          c, tail, by rw [hd, List.append_assoc], List.mem_append_right _ hin, herr, htail⟩

/-- `processFieldRefs` as one per-configuration chunk: only phase-3 calls on
the configuration's list, a prefix of its configured updates in order, all of
them on resolution. -/
theorem refs_element (env : Env) (lc : IList) (st : St) : ∃ d r,
    processFieldRefs env lc st = (⟨st.cache, st.trace ++ d⟩, r) ∧
    (∀ ev ∈ d, evPhase ev = 3 ∧ evTitle ev = lc.Title) ∧
    (∃ rest, refCallsOf lc = issuedCalls d ++ rest) ∧
    (r = .ok () → issuedCalls d = refCallsOf lc) ∧
    ErrShape env d r := by
  unfold processFieldRefs
  cases hfr : lc.FieldRefs with
  | none =>
    refine ⟨[], .ok (), by simp, by simp, ⟨[], ?_⟩, ?_, ErrShape_ok env []⟩
    · rw [refCallsOf, hfr]
      rfl
    · intro _
      simp [refCallsOf, hfr, issuedCalls]
  | some frs =>
    obtain ⟨d, r, hs, hev, ⟨rest, hpre⟩, hok, he⟩ := refs_calls env lc frs st
    refine ⟨d, r, hs, hev, ⟨rest, ?_⟩, ?_, he⟩
    · rw [refCallsOf, hfr]
      simpa using hpre
    · intro hh
      rw [refCallsOf, hfr]
      simpa using hok hh

/-- Phase 1 with its per-configuration chunks: chunk `i` of the trace is
configuration `i`'s ensure (exactly one) plus its content-type calls, all on
configuration `i`'s title. -/
theorem phase1_chunks (env : Env) : ∀ (lists : List IList) (st : St), ∃ ds r m,
    seqP (processList env) lists st =
      (⟨st.cache ++ ((lists.take m).filter (fun lc => ensureOK env lc)).map (ensureData env),
        st.trace ++ List.flatten ds⟩, r) ∧
    m ≤ lists.length ∧
    ds.length = m ∧
    (∀ i (hi : i < ds.length) (hxi : i < lists.length),
      (issuedCalls (ds.get ⟨i, hi⟩)).filter isEnsure = [ensureCallOf (lists.get ⟨i, hxi⟩)] ∧
      ∀ ev ∈ ds.get ⟨i, hi⟩, evPhase ev = 1 ∧ evTitle ev = (lists.get ⟨i, hxi⟩).Title) ∧
    (issuedCalls (List.flatten ds)).filter isEnsure = (lists.take m).map ensureCallOf ∧
    ErrShape env (List.flatten ds) r ∧
    (r = .ok () → m = lists.length) := by
  intro lists
  induction lists with
  | nil =>
    intro st
    refine ⟨[], .ok (), 0, by simp [seqP], by simp, rfl, ?_, rfl, ErrShape_ok env [], fun _ => rfl⟩
    intro i hi
    exact absurd hi (Nat.not_lt_zero i)
  | cons lc rest ih =>
    intro st
    obtain ⟨d1, r1, hf, hp1, hflt, he1, hok1⟩ := processList_mod env lc st
    cases r1 with
    | error e =>
      refine ⟨[d1], .error e, 1, ?_, by simp, rfl, ?_, ?_, ?_, ?_⟩
      · show seqP (processList env) (lc :: rest) st = _
        simp only [seqP, hf]
        cases hoks : ensureOK env lc <;> simp [hoks]
      · intro i hi hxi
        cases i with
        | zero => exact ⟨hflt, hp1⟩
        | succ j => simp at hi
      · rw [show ([d1] : List (List Event)).flatten = d1 from by simp]
        simpa using hflt
      · intro e' he'
        obtain ⟨pre, c, tail, hd, hin, herr, htail⟩ := he1 e' he'
        refine ⟨pre, c, tail, ?_, hin, herr, htail⟩
        rw [show ([d1] : List (List Event)).flatten = d1 from by simp, hd]
      · intro h
        exact absurd h (by simp)
    | ok u =>
      have hoklc := hok1 rfl
      obtain ⟨ds2, r2, m2, hg, hm2, hlen2, hchunk2, hflt2, he2, hok2⟩ :=
        ih ⟨st.cache ++ (if ensureOK env lc then [ensureData env lc] else []), st.trace ++ d1⟩
      have hg' : seqP (processList env) rest
          ⟨st.cache ++ (if ensureOK env lc then [ensureData env lc] else []), st.trace ++ d1⟩ =
          (⟨(st.cache ++ (if ensureOK env lc then [ensureData env lc] else [])) ++
            ((rest.take m2).filter (fun lc => ensureOK env lc)).map (ensureData env),
            (st.trace ++ d1) ++ List.flatten ds2⟩, r2) := hg
      refine ⟨d1 :: ds2, r2, m2 + 1, ?_, by simp; omega, by simp [hlen2], ?_, ?_, ?_, ?_⟩
      · show seqP (processList env) (lc :: rest) st = _
        simp only [seqP, hf]
        rw [hg']
        simp only [hoklc, if_true]
        simp [List.append_assoc, List.take_succ_cons, List.filter_cons, hoklc]
      · intro i hi hxi
        cases i with
        | zero => exact ⟨hflt, hp1⟩
        | succ j =>
          exact hchunk2 j (by simpa using hi) (by simpa using hxi)
      · rw [show (d1 :: ds2).flatten = d1 ++ List.flatten ds2 from by simp,
          issuedCalls_append, List.filter_append, hflt, hflt2]
        simp [List.take_succ_cons]
      · intro e he
        obtain ⟨pre, c, tail, hd, hin, herr, htail⟩ := he2 e he
        refine ⟨d1 ++ pre, c, tail, ?_, List.mem_append_right _ hin, herr, htail⟩
        rw [show (d1 :: ds2).flatten = d1 ++ List.flatten ds2 from by simp, hd,
          List.append_assoc]
      · intro h
        have := hok2 h
        simp [this]

/-- `provision_run` with the per-configuration chunk structure of every
phase. -/
theorem provision_chunks (xl : XmlLib) (env : Env) (rfuel : Nat) (lists : List IList) (st : St) :
    ProvisionObjects xl env rfuel lists st = none ∨
    ∃ t1 t2 t3 t4 m r,
      ProvisionObjects xl env rfuel lists st = some
        (⟨st.cache ++ ((lists.take m).filter (fun lc => ensureOK env lc)).map (ensureData env),
          st.trace ++ (t1 ++ (t2 ++ (t3 ++ t4)))⟩, r) ∧
      m ≤ lists.length ∧
      (issuedCalls t1).filter isEnsure = (lists.take m).map ensureCallOf ∧
      ListChunks lists t1 m ∧
      PhaseChunks lists 2 t2 r ∧
      RefChunks lists t3 r ∧
      PhaseChunks lists 4 t4 r ∧
      (r = .ok () → m = lists.length) := by
  have hemptyPC : ∀ k e, PhaseChunks lists k [] (.error e) := by
    intro k e
    refine ⟨[], by simp, by simp, ?_, ?_⟩
    · intro i hi
      exact absurd hi (Nat.not_lt_zero i)
    · intro hh
      exact absurd hh (by simp)
  have hemptyRC : ∀ e, RefChunks lists [] (.error e) := by
    intro e
    refine ⟨[], by simp, by simp, ?_, ?_⟩
    · intro i hi
      exact absurd hi (Nat.not_lt_zero i)
    · intro hh
      exact absurd hh (by simp)
  obtain ⟨ds1, r1, m, h1, hm, hlen1, hchunk1, hflt, he1, hok1⟩ := phase1_chunks env lists st
  unfold ProvisionObjects
  rw [h1]
  cases r1 with
  | error e =>
    right
    refine ⟨List.flatten ds1, [], [], [], m, .error e, ?_, hm, hflt,
      ⟨ds1, rfl, hlen1, hchunk1⟩, hemptyPC 2 e, hemptyRC e, hemptyPC 4 e, ?_⟩
    · simp [andThen]
    · intro h
      exact absurd h (by simp)
  | ok u =>
    simp only [andThen]
    have h2el : ∀ (lc : IList) (st : St), processFields xl env rfuel lc st = none ∨
        ∃ d r, processFields xl env rfuel lc st = some (⟨st.cache, st.trace ++ d⟩, r) ∧
          (∀ ev ∈ d, evPhase ev = 2 ∧ evTitle ev = lc.Title) ∧
          (r = .ok () → True) ∧ ErrShape env d r := by
      intro lc st
      rcases mod_processFields xl env rfuel lc st with hn | ⟨d, r, hf, hp, he⟩
      · exact Or.inl hn
      · exact Or.inr ⟨d, r, hf, hp, fun _ => trivial, he⟩
    rcases seqRun_chunks h2el lists
      ⟨st.cache ++ ((lists.take m).filter (fun lc => ensureOK env lc)).map (ensureData env),
        st.trace ++ List.flatten ds1⟩ with hn | ⟨ds2, r2, h2, hle2, hQ2, he2, hok2⟩
    · left
      have hn' : seqRun (fun lc => processFields xl env rfuel lc) lists
          ⟨st.cache ++ ((lists.take m).filter (fun lc => ensureOK env lc)).map (ensureData env),
            st.trace ++ List.flatten ds1⟩ = none := hn
      rw [hn']
    · have h2' : seqRun (fun lc => processFields xl env rfuel lc) lists
          ⟨st.cache ++ ((lists.take m).filter (fun lc => ensureOK env lc)).map (ensureData env),
            st.trace ++ List.flatten ds1⟩ = some
          (⟨st.cache ++ ((lists.take m).filter (fun lc => ensureOK env lc)).map (ensureData env),
            (st.trace ++ List.flatten ds1) ++ List.flatten ds2⟩, r2) := h2
      rw [h2']
      cases r2 with
      | error e =>
        right
        refine ⟨List.flatten ds1, List.flatten ds2, [], [], m, .error e, ?_, hm, hflt,
          ⟨ds1, rfl, hlen1, hchunk1⟩,
          ⟨ds2, rfl, hle2, hQ2, fun hh => ((hok2 hh).1)⟩,
          hemptyRC e, hemptyPC 4 e, ?_⟩
        · simp [andThen, List.append_assoc]
        · intro h
          exact absurd h (by simp)
      | ok u2 =>
        simp only [andThen]
        have h3el : ∀ (lc : IList) (st : St), ∃ d r,
            processFieldRefs env lc st = (⟨st.cache, st.trace ++ d⟩, r) ∧
            ((∀ ev ∈ d, evPhase ev = 3 ∧ evTitle ev = lc.Title) ∧
              ∃ rest, refCallsOf lc = issuedCalls d ++ rest) ∧
            (r = .ok () → issuedCalls d = refCallsOf lc) ∧ ErrShape env d r := by
          intro lc st
          obtain ⟨d, r, hf, hev, hpre, hok, he⟩ := refs_element env lc st
          exact ⟨d, r, hf, ⟨hev, hpre⟩, hok, he⟩
        obtain ⟨ds3, r3, h3, hle3, hQ3, he3, hok3⟩ := seqP_chunks h3el lists
          ⟨st.cache ++ ((lists.take m).filter (fun lc => ensureOK env lc)).map (ensureData env),
            (st.trace ++ List.flatten ds1) ++ List.flatten ds2⟩
        rw [show seqP (processFieldRefs env) lists
            ⟨st.cache ++ ((lists.take m).filter (fun lc => ensureOK env lc)).map (ensureData env),
              (st.trace ++ List.flatten ds1) ++ List.flatten ds2⟩ =
            (⟨st.cache ++ ((lists.take m).filter (fun lc => ensureOK env lc)).map (ensureData env),
              ((st.trace ++ List.flatten ds1) ++ List.flatten ds2) ++ List.flatten ds3⟩, r3)
            from h3]
        cases r3 with
        | error e =>
          right
          refine ⟨List.flatten ds1, List.flatten ds2, List.flatten ds3, [], m, .error e,
            ?_, hm, hflt, ⟨ds1, rfl, hlen1, hchunk1⟩,
            ⟨ds2, rfl, hle2, hQ2, fun _ => ((hok2 rfl).1)⟩,
            ⟨ds3, rfl, hle3, hQ3, fun hh => ⟨(hok3 hh).1, (hok3 hh).2⟩⟩,
            hemptyPC 4 e, ?_⟩
          · simp [andThen, List.append_assoc]
          · intro h
            exact absurd h (by simp)
        | ok u3 =>
          simp only [andThen]
          have h4el : ∀ (lc : IList) (st : St), ∃ d r,
              processViews env lc st = (⟨st.cache, st.trace ++ d⟩, r) ∧
              (∀ ev ∈ d, evPhase ev = 4 ∧ evTitle ev = lc.Title) ∧
              (r = .ok () → True) ∧ ErrShape env d r := by
            intro lc st
            obtain ⟨d, r, hf, hp, he⟩ := mod_processViews env lc st
            exact ⟨d, r, hf, hp, fun _ => trivial, he⟩
          obtain ⟨ds4, r4, h4, hle4, hQ4, he4, hok4⟩ := seqP_chunks h4el lists
            ⟨st.cache ++ ((lists.take m).filter (fun lc => ensureOK env lc)).map (ensureData env),
              ((st.trace ++ List.flatten ds1) ++ List.flatten ds2) ++ List.flatten ds3⟩
          rw [show seqP (processViews env) lists
              ⟨st.cache ++
                ((lists.take m).filter (fun lc => ensureOK env lc)).map (ensureData env),
                ((st.trace ++ List.flatten ds1) ++ List.flatten ds2) ++ List.flatten ds3⟩ =
              (⟨st.cache ++
                ((lists.take m).filter (fun lc => ensureOK env lc)).map (ensureData env),
                (((st.trace ++ List.flatten ds1) ++ List.flatten ds2) ++ List.flatten ds3) ++
                  List.flatten ds4⟩, r4) from h4]
          right
          refine ⟨List.flatten ds1, List.flatten ds2, List.flatten ds3, List.flatten ds4, m, r4,
            ?_, hm, hflt, ⟨ds1, rfl, hlen1, hchunk1⟩,
            ⟨ds2, rfl, hle2, hQ2, fun _ => ((hok2 rfl).1)⟩,
            ⟨ds3, rfl, hle3, hQ3, fun _ => ⟨(hok3 rfl).1, (hok3 rfl).2⟩⟩,
            ⟨ds4, rfl, hle4, hQ4, fun hh => ((hok4 hh).1)⟩, ?_⟩
          · simp [List.append_assoc]
          · intro hr4
            exact hok1 rfl

/-! ## The claims -/

/-- C1: on a field xml with at most one token occurrence and a cache of
GUID-like ids — no braces, no dollar sign (so `replace` inserts the id
literally), and at least one character no regex class accepts, true of every
real SharePoint id — `replaceFieldXmlTokens` behaves exactly as the spec says:
a `{listid:Name}` token with a unique cached title `Name` is replaced by that
list's id, any other token is left in place, and every other character is
unchanged (`singleSpec` states that prediction).  The unrestricted claim is
false: the shared regex's `lastIndex` survives a replacement by a shorter id
and skips a second identical token (see the counterexample). -/
theorem c1_token_replacement (cache : List ListData) (s : Str) (fuel : Nat)
    (hca : ∀ l ∈ cache, idOK l.Id) (h1 : gm s ≤ 1) (hf : 2 ≤ fuel) :
    replaceFieldXmlTokens cache fuel s = some (singleSpec cache s) := by
  unfold replaceFieldXmlTokens
  exact tokenLoop_single cache s hca h1 fuel hf

theorem c1_token_replacement_witness :
    replaceFieldXmlTokens [⟨"A".toList, "1-2".toList⟩] 3 ("x{listid:A}y".toList) =
      some ("x1-2y".toList, 0) := by
  have h := c1_token_replacement [⟨"A".toList, "1-2".toList⟩] ("x{listid:A}y".toList) 3
    (by decide) (by decide) (by decide)
  have hexec : execFrom ("x{listid:A}y".toList) 0 = some (1, 10) := by
    rw [execFrom, execFrom]
    rfl
  have hspec : singleSpec [⟨"A".toList, "1-2".toList⟩] ("x{listid:A}y".toList) =
      ("x1-2y".toList, 0) := by
    unfold singleSpec
    rw [hexec]
    rfl
  rw [hspec] at h
  exact h

/-- C1 counterexample: with the cache mapping `A` to the two-character-shorter
id `G` and the input `{listid:A}{listid:A}`, the loop replaces the first token
but `lastIndex` then sits beyond the second token's start, so the second
identical token is skipped — the claim predicts `GG`. -/
theorem c1_skipped_token_cex :
    replaceFieldXmlTokens cacheG 5 ("{listid:A}{listid:A}".toList) =
      some ("G{listid:A}".toList, 0) ∧
    ("G{listid:A}".toList : Str) ≠ "GG".toList := by
  constructor
  · have h0 : execFrom ("{listid:A}{listid:A}".toList) 0 = some (0, 10) := by
      rw [execFrom]
      rfl
    have hstep : tokenStep cacheG ("{listid:A}{listid:A}".toList) 0 10 =
        "G{listid:A}".toList := by decide
    have h1 : execFrom ("G{listid:A}".toList) 10 = none := by
      rw [execFrom, execFrom]
      rfl
    show tokenLoop cacheG 5 ("{listid:A}{listid:A}".toList) 0 = _
    rw [show (5 : Nat) = 4 + 1 from rfl, tokenLoop_succ_some cacheG 4 h0]
    rw [if_neg (by omega), hstep]
    rw [show (4 : Nat) = 3 + 1 from rfl, tokenLoop_succ_none cacheG 3 h1]
  · decide

/-- C4: when the `getById`/`delete` existence check of the TypeScript
`processField` fails (either call rejecting), the rejection is swallowed: the
field is still created from the token-substituted xml, its title is still
updated, and the function resolves successfully. -/
theorem c4_delete_error_swallowed (xl : XmlLib) (env : Env) (rfuel : Nat) (lc : IList)
    (fx sub : Str) (n : Nat) (st : St)
    (hfail : (∃ e, env.getFieldById lc.Title (xl.parseAttrs fx).ID = .error e) ∨
      (env.getFieldById lc.Title (xl.parseAttrs fx).ID = .ok () ∧
        ∃ e, env.deleteField lc.Title (xl.parseAttrs fx).ID = .error e))
    (hloop : tokenLoop st.cache rfuel (xl.roundtrip fx) 0 = some (sub, n))
    (hcr : env.createFieldAsXml lc.Title sub = .ok ())
    (hup : env.updateFieldTitle lc.Title (xl.parseAttrs fx).DisplayName = .ok ()) :
    ∃ dtry,
      (dtry = [Event.issue (.getFieldById lc.Title (xl.parseAttrs fx).ID),
        Event.settle (.getFieldById lc.Title (xl.parseAttrs fx).ID) false] ∨
       dtry = [Event.issue (.getFieldById lc.Title (xl.parseAttrs fx).ID),
        Event.settle (.getFieldById lc.Title (xl.parseAttrs fx).ID) true,
        Event.issue (.deleteField lc.Title (xl.parseAttrs fx).ID),
        Event.settle (.deleteField lc.Title (xl.parseAttrs fx).ID) false]) ∧
      processFieldTS xl env rfuel lc fx st = some (⟨st.cache, st.trace ++ (dtry ++
        [Event.issue (.createFieldAsXml lc.Title sub),
         Event.settle (.createFieldAsXml lc.Title sub) true,
         Event.issue (.updateFieldTitle lc.Title (xl.parseAttrs fx).DisplayName),
         Event.settle (.updateFieldTitle lc.Title (xl.parseAttrs fx).DisplayName) true])⟩,
        .ok ()) := by
  obtain ⟨dtry, hcase, hftb⟩ :
      ∃ dtry, (dtry = [Event.issue (.getFieldById lc.Title (xl.parseAttrs fx).ID),
        Event.settle (.getFieldById lc.Title (xl.parseAttrs fx).ID) false] ∨
       dtry = [Event.issue (.getFieldById lc.Title (xl.parseAttrs fx).ID),
        Event.settle (.getFieldById lc.Title (xl.parseAttrs fx).ID) true,
        Event.issue (.deleteField lc.Title (xl.parseAttrs fx).ID),
        Event.settle (.deleteField lc.Title (xl.parseAttrs fx).ID) false]) ∧
        fieldTryBlock env lc.Title (xl.parseAttrs fx).ID st = ⟨st.cache, st.trace ++ dtry⟩ := by
    rcases hfail with ⟨e, hg⟩ | ⟨hg, e, hdel⟩
    · refine ⟨_, Or.inl rfl, ?_⟩
      unfold fieldTryBlock
      rw [hg]
      simp [emit, exOk]
    · refine ⟨_, Or.inr rfl, ?_⟩
      unfold fieldTryBlock
      rw [hg, hdel]
      simp [emit, exOk, List.append_assoc]
  refine ⟨dtry, hcase, ?_⟩
  unfold processFieldTS
  rw [hftb]
  dsimp only
  rw [hloop]
  dsimp only
  have hemit1 : emit (⟨st.cache, st.trace ++ dtry⟩ : St) (.createFieldAsXml lc.Title sub)
      (env.createFieldAsXml lc.Title sub) =
      (⟨st.cache, (st.trace ++ dtry) ++ [Event.issue (.createFieldAsXml lc.Title sub),
        Event.settle (.createFieldAsXml lc.Title sub) true]⟩, .ok ()) := by
    rw [hcr]; simp [emit, exOk, List.append_assoc]
  rw [hemit1]
  dsimp only
  have hemit2 : emit (⟨st.cache, (st.trace ++ dtry) ++
      [Event.issue (.createFieldAsXml lc.Title sub),
        Event.settle (.createFieldAsXml lc.Title sub) true]⟩ : St)
      (.updateFieldTitle lc.Title (xl.parseAttrs fx).DisplayName)
      (env.updateFieldTitle lc.Title (xl.parseAttrs fx).DisplayName) =
      (⟨st.cache, ((st.trace ++ dtry) ++ [Event.issue (.createFieldAsXml lc.Title sub),
        Event.settle (.createFieldAsXml lc.Title sub) true]) ++
        [Event.issue (.updateFieldTitle lc.Title (xl.parseAttrs fx).DisplayName),
         Event.settle (.updateFieldTitle lc.Title (xl.parseAttrs fx).DisplayName) true]⟩,
        .ok ()) := by
    rw [hup]; simp [emit, exOk, List.append_assoc]
  rw [hemit2]
  simp [List.append_assoc]

theorem c4_delete_error_swallowed_witness :
    ∃ dtry,
      (dtry = [Event.issue (.getFieldById "A".toList "fid".toList),
        Event.settle (.getFieldById "A".toList "fid".toList) false] ∨
       dtry = [Event.issue (.getFieldById "A".toList "fid".toList),
        Event.settle (.getFieldById "A".toList "fid".toList) true,
        Event.issue (.deleteField "A".toList "fid".toList),
        Event.settle (.deleteField "A".toList "fid".toList) false]) ∧
      processFieldTS xl0 envDelFail 1 lc0 fx0 st0 = some (⟨[], dtry ++
        [Event.issue (.createFieldAsXml "A".toList "<Field/>".toList),
         Event.settle (.createFieldAsXml "A".toList "<Field/>".toList) true,
         Event.issue (.updateFieldTitle "A".toList "DispName".toList),
         Event.settle (.updateFieldTitle "A".toList "DispName".toList) true]⟩,
        .ok ()) :=
  c4_delete_error_swallowed xl0 envDelFail 1 lc0 fx0 ("<Field/>".toList) 0 st0
    (Or.inr ⟨rfl, 7, rfl⟩)
    (tokenLoop_succ_none _ 0 (execFrom_none_of_gm_zero (by decide) 0)) rfl rfl

/-- C8: the compiled `lib/handlers/lists.js` is not behaviourally equivalent
to the TypeScript source.  Its `processField` catch block ends in `throw err`,
absent from the TypeScript: under an environment whose field delete rejects
(error 7), the TypeScript handler swallows the rejection, still creates the
field and resolves, while the compiled JavaScript stops after the delete,
issues no create, and propagates error 7. -/
theorem c8_ts_js_divergence :
    processFieldTS xl0 envDelFail 2 lc0 fx0 st0 = some (⟨[], trTSDel⟩, .ok ()) ∧
    processFieldJS xl0 envDelFail 2 lc0 fx0 st0 = some (⟨[], trJSDel⟩, .error 7) ∧
    (Except.error 7 : Except Err Unit) ≠ .ok () := by
  refine ⟨?_, rfl, fun h => Except.noConfusion h⟩
  unfold processFieldTS
  rw [show tokenLoop (fieldTryBlock envDelFail lc0.Title (xl0.parseAttrs fx0).ID st0).cache 2
      (xl0.roundtrip fx0) 0 = some ("<Field/>".toList, 0) from
    tokenLoop_succ_none _ 1 (execFrom_none_of_gm_zero (by decide) 0)]
  rfl

/-- C10: the claim's termination statement is false — with a cached id that
itself contains the token being replaced, the loop grows the string ahead of
`lastIndex` forever and `replaceFieldXmlTokens` diverges on the single-token
input `{listid:A}` (no fuel suffices). -/
theorem c10_divergence_cex :
    ¬ ∃ fuel r, replaceFieldXmlTokens cacheA fuel ("{listid:A}".toList) = some r := by
  rintro ⟨fuel, r, hr⟩
  have h0 : ("{listid:A}".toList : Str) = repList tokA 1 := by decide
  unfold replaceFieldXmlTokens at hr
  rw [h0] at hr
  have hnone := tokenLoopA_none fuel 0
  rw [show 10 * 0 = 0 from rfl] at hnone
  rw [hnone] at hr
  exact Option.noConfusion hr

/-- C10 (amended): for caches whose ids are GUID-like — no braces, no dollar
sign (so `replace` inserts the id literally), and at least one character no
regex class accepts, true of every real SharePoint id — the loop terminates
on every input with `lastIndex` reset to zero, so consecutive calls behave
independently. -/
theorem c10_termination_for_guid_ids (cache : List ListData)
    (hca : ∀ l ∈ cache, idOK l.Id) (s : Str) :
    ∃ fuel0, ∀ fuel, fuel0 ≤ fuel →
      ∃ out, replaceFieldXmlTokens cache fuel s = some (out, 0) := by
  obtain ⟨fuel0, r, hr⟩ := tokenLoop_term cache hca (gm s) s.length s 0 le_rfl (by omega)
  obtain ⟨out, li⟩ := r
  have hz : li = 0 := tokenLoop_snd_zero hr
  subst hz
  exact ⟨fuel0, fun fuel hf => ⟨out, tokenLoop_mono_le hf hr⟩⟩

theorem c10_termination_for_guid_ids_witness :
    ∃ fuel0, ∀ fuel, fuel0 ≤ fuel →
      ∃ out, replaceFieldXmlTokens [⟨"A".toList, "1-2".toList⟩] fuel
        ("x{listid:A}y".toList) = some (out, 0) :=
  c10_termination_for_guid_ids _ (by decide) _

/-- C2: every completed run of `ProvisionObjects` splits its trace into four
consecutive chunks — lists (ensure plus content types), then fields, then
field refs, then views — each containing only calls of its phase; every ensure
call lies in the first chunk, and they are exactly the ensures of a prefix of
the configurations in array order (the whole array when the run resolves), so
a list exists before any of its dependents is processed. Within each phase the
configurations are processed one at a time in array order: the lists chunk
splits into per-configuration chunks each holding that configuration's single
ensure together with its content-type calls, and the fields, field-refs and
views chunks split into per-configuration chunks addressing the
configurations' lists in array order, the field-refs chunk issuing each
configuration's updates in configured order (all of them when the run
resolves). -/
theorem c2_four_ordered_phases (xl : XmlLib) (env : Env) (rfuel : Nat) (lists : List IList)
    (cache0 : List ListData) (st' : St) (r : Except Err Unit)
    (h : ProvisionObjects xl env rfuel lists ⟨cache0, []⟩ = some (st', r)) :
    ∃ t1 t2 t3 t4,
      st'.trace = t1 ++ (t2 ++ (t3 ++ t4)) ∧
      (∀ ev ∈ t1, evPhase ev = 1) ∧ (∀ ev ∈ t2, evPhase ev = 2) ∧
      (∀ ev ∈ t3, evPhase ev = 3) ∧ (∀ ev ∈ t4, evPhase ev = 4) ∧
      (∃ m, m ≤ lists.length ∧
        (issuedCalls t1).filter isEnsure = (lists.take m).map ensureCallOf ∧
        ListChunks lists t1 m ∧
        (r = .ok () → m = lists.length)) ∧
      (issuedCalls t2).filter isEnsure = [] ∧
      (issuedCalls t3).filter isEnsure = [] ∧
      (issuedCalls t4).filter isEnsure = [] ∧
      PhaseChunks lists 2 t2 r ∧
      RefChunks lists t3 r ∧
      PhaseChunks lists 4 t4 r := by
  rcases provision_chunks xl env rfuel lists ⟨cache0, []⟩ with hn |
    ⟨t1, t2, t3, t4, m, r0, hrun, hm, hflt, hLC, hPC2, hRC, hPC4, hok⟩
  · rw [hn] at h
    exact absurd h (by simp)
  · rw [hrun] at h
    simp only [Option.some.injEq, Prod.mk.injEq] at h
    obtain ⟨hst, hr⟩ := h
    subst hr
    obtain ⟨ds1, hfl1, hlen1, hch1⟩ := hLC
    obtain ⟨ds2, hfl2, hle2, hQ2, hko2⟩ := hPC2
    obtain ⟨ds3, hfl3, hle3, hQ3, hko3⟩ := hRC
    obtain ⟨ds4, hfl4, hle4, hQ4, hko4⟩ := hPC4
    have hp1 : ∀ ev ∈ t1, evPhase ev = 1 := by
      rw [hfl1]
      exact flatten_phase (by omega) (fun i hi hxi => (hch1 i hi hxi).2)
    have hp2 : ∀ ev ∈ t2, evPhase ev = 2 := by
      rw [hfl2]
      exact flatten_phase hle2 hQ2
    have hp3 : ∀ ev ∈ t3, evPhase ev = 3 := by
      rw [hfl3]
      exact flatten_phase hle3 (fun i hi hxi => (hQ3 i hi hxi).1)
    have hp4 : ∀ ev ∈ t4, evPhase ev = 4 := by
      rw [hfl4]
      exact flatten_phase hle4 hQ4
    refine ⟨t1, t2, t3, t4, ?_, hp1, hp2, hp3, hp4,
      ⟨m, hm, hflt, ⟨ds1, hfl1, hlen1, hch1⟩, hok⟩,
      ensure_filter_of_phase (by omega) hp2,
      ensure_filter_of_phase (by omega) hp3,
      ensure_filter_of_phase (by omega) hp4,
      ⟨ds2, hfl2, hle2, hQ2, hko2⟩,
      ⟨ds3, hfl3, hle3, hQ3, hko3⟩,
      ⟨ds4, hfl4, hle4, hQ4, hko4⟩⟩
    rw [← hst]
    rfl

theorem c2_four_ordered_phases_witness :
    ∃ t1 t2 t3 t4,
      trOkV = t1 ++ (t2 ++ (t3 ++ t4)) ∧
      (∀ ev ∈ t1, evPhase ev = 1) ∧ (∀ ev ∈ t2, evPhase ev = 2) ∧
      (∀ ev ∈ t3, evPhase ev = 3) ∧ (∀ ev ∈ t4, evPhase ev = 4) ∧
      (∃ m, m ≤ [lcV].length ∧
        (issuedCalls t1).filter isEnsure = ([lcV].take m).map ensureCallOf ∧
        ListChunks [lcV] t1 m ∧
        ((Except.ok () : Except Err Unit) = .ok () → m = [lcV].length)) ∧
      (issuedCalls t2).filter isEnsure = [] ∧
      (issuedCalls t3).filter isEnsure = [] ∧
      (issuedCalls t4).filter isEnsure = [] ∧
      PhaseChunks [lcV] 2 t2 (Except.ok ()) ∧
      RefChunks [lcV] t3 (Except.ok ()) ∧
      PhaseChunks [lcV] 4 t4 (Except.ok ()) :=
  c2_four_ordered_phases xl0 okEnv 1 [lcV] [] ⟨[dataA], trOkV⟩ (.ok ()) rfl

/-- C3 (amended): the remote calls of a run are strictly sequential — each
call settles before the next is issued — provided no configuration sets
`RemoveExistingContentTypes`.  The unrestricted claim is false: the content
type deletions are pushed into a `Promise.all` batch, so all deletes are in
flight at once (see the counterexample). -/
theorem c3_sequential_without_removal (xl : XmlLib) (env : Env) (rfuel : Nat)
    (lists : List IList)
    (hnr : ∀ lc ∈ lists, lc.RemoveExistingContentTypes = false)
    (cache0 : List ListData) (st' : St) (r : Except Err Unit)
    (h : ProvisionObjects xl env rfuel lists ⟨cache0, []⟩ = some (st', r)) :
    seqOK st'.trace = true := by
  obtain ⟨d, hd, hs⟩ := seq_provision xl env rfuel lists hnr ⟨cache0, []⟩ st' r h
  rw [hd]
  simpa using hs

theorem c3_sequential_without_removal_witness : seqOK trOkV = true :=
  c3_sequential_without_removal xl0 okEnv 1 [lcV] (by decide) [] ⟨[dataA], trOkV⟩ (.ok ()) rfl

/-- C3 counterexample: a run with `RemoveExistingContentTypes` issues both
content-type deletes before either settles (the `Promise.all` batch), so the
trace is not a chain of issue/settle pairs. -/
theorem c3_parallel_batch_cex :
    ProvisionObjects xl0 envCT 1 [lcCT] st0 = some (⟨[dataA], trCT⟩, .ok ()) ∧
    seqOK trCT = false := ⟨rfl, by decide⟩

/-- C5: `processView` first tries to fetch the view by title; on rejection it
swallows the error and adds the view with the configured title, personal-view
flag and settings, on success it updates the view with the settings; in both
branches it then removes all view fields and adds the configured view fields
one by one in configured order (`claimViewTrace` states that prediction as a
function of the fetch verdict). -/
theorem c5_view_update_or_create (env : Env) (lc : IList) (v : ViewCfg) (st : St)
    (hadd : env.addView lc.Title v.Title v.PersonalView v.AdditionalSettings = .ok ())
    (hupd : env.updateView lc.Title v.Title v.AdditionalSettings = .ok ())
    (hrm : env.removeAllViewFields lc.Title v.Title = .ok ())
    (haf : ∀ f ∈ v.ViewFields, env.addViewField lc.Title v.Title f = .ok ()) :
    processView env lc v st =
      (⟨st.cache, st.trace ++ claimViewTrace env lc.Title v⟩, .ok ()) := by
  unfold processView
  cases hgv : env.getView lc.Title v.Title with
  | error e =>
    have hemit : emit st (.getView lc.Title v.Title) (Except.error e : Except Err Unit) =
        (⟨st.cache, st.trace ++ [Event.issue (.getView lc.Title v.Title),
          Event.settle (.getView lc.Title v.Title) false]⟩, .error e) := by
      simp [emit, exOk]
    rw [hemit]
    dsimp only
    unfold viewFallback
    have hemit2 : emit (⟨st.cache, st.trace ++ [Event.issue (.getView lc.Title v.Title),
        Event.settle (.getView lc.Title v.Title) false]⟩ : St)
        (.addView lc.Title v.Title v.PersonalView v.AdditionalSettings)
        (env.addView lc.Title v.Title v.PersonalView v.AdditionalSettings) =
        (⟨st.cache, (st.trace ++ [Event.issue (.getView lc.Title v.Title),
          Event.settle (.getView lc.Title v.Title) false]) ++
          [Event.issue (.addView lc.Title v.Title v.PersonalView v.AdditionalSettings),
           Event.settle (.addView lc.Title v.Title v.PersonalView v.AdditionalSettings) true]⟩,
          .ok ()) := by
      rw [hadd]; simp [emit, exOk, List.append_assoc]
    rw [hemit2]
    dsimp only
    rw [viewFields_ok env lc.Title v.Title v.ViewFields hrm haf]
    unfold claimViewTrace
    rw [hgv]
    simp [List.append_assoc]
  | ok u =>
    have hemit : emit st (.getView lc.Title v.Title) (Except.ok u : Except Err Unit) =
        (⟨st.cache, st.trace ++ [Event.issue (.getView lc.Title v.Title),
          Event.settle (.getView lc.Title v.Title) true]⟩, .ok u) := by
      simp [emit, exOk]
    rw [hemit]
    dsimp only
    have hemit2 : emit (⟨st.cache, st.trace ++ [Event.issue (.getView lc.Title v.Title),
        Event.settle (.getView lc.Title v.Title) true]⟩ : St)
        (.updateView lc.Title v.Title v.AdditionalSettings)
        (env.updateView lc.Title v.Title v.AdditionalSettings) =
        (⟨st.cache, (st.trace ++ [Event.issue (.getView lc.Title v.Title),
          Event.settle (.getView lc.Title v.Title) true]) ++
          [Event.issue (.updateView lc.Title v.Title v.AdditionalSettings),
           Event.settle (.updateView lc.Title v.Title v.AdditionalSettings) true]⟩,
          .ok ()) := by
      rw [hupd]; simp [emit, exOk, List.append_assoc]
    rw [hemit2]
    dsimp only
    rw [viewFields_ok env lc.Title v.Title v.ViewFields hrm haf]
    dsimp only
    unfold claimViewTrace
    rw [hgv]
    simp [List.append_assoc]

theorem c5_view_update_or_create_witness :
    processView envGetViewFail lc0 v0 st0 =
      (⟨[], [.issue (.getView "A".toList "V".toList),
             .settle (.getView "A".toList "V".toList) false,
             .issue (.addView "A".toList "V".toList false "vs".toList),
             .settle (.addView "A".toList "V".toList false "vs".toList) true,
             .issue (.removeAllViewFields "A".toList "V".toList),
             .settle (.removeAllViewFields "A".toList "V".toList) true,
             .issue (.addViewField "A".toList "V".toList "F1".toList),
             .settle (.addViewField "A".toList "V".toList "F1".toList) true]⟩, .ok ()) :=
  c5_view_update_or_create envGetViewFail lc0 v0 st0 rfl rfl rfl (by
    intro f hf
    rw [show v0.ViewFields = ["F1".toList] from rfl] at hf
    rcases List.mem_singleton.mp hf with rfl
    rfl)

/-- C6 (amended): a rejection that `ProvisionObjects` propagates is always a
remote error verbatim — the failing call was issued, its oracle error is the
propagated error unchanged, and the trace ends at the failing settle (modulo
settles of an already-issued deletion batch): no retry and nothing processed
afterwards.  The claim's converse direction is false: an `updateView` error —
a remote operation outside the two existence-check blocks the claim names —
is caught by `processView`'s try and triggers the add-view fallback instead
of propagating (see the counterexample). -/
theorem c6_propagated_errors_verbatim (xl : XmlLib) (env : Env) (rfuel : Nat)
    (lists : List IList) (st st' : St) (e : Err)
    (h : ProvisionObjects xl env rfuel lists st = some (st', .error e)) :
    ∃ d pre c tail,
      st'.trace = st.trace ++ d ∧
      d = pre ++ Event.settle c false :: tail ∧
      Event.issue c ∈ pre ∧
      envErrOf env c = some e ∧
      (∀ ev ∈ tail, isSettle ev = true) := by
  rcases provision_run xl env rfuel lists st with hn |
    ⟨t1, t2, t3, t4, m, r0, hrun, hm, hp1, hp2, hp3, hp4, hflt, herr, hok⟩
  · rw [hn] at h
    exact absurd h (by simp)
  · rw [hrun] at h
    simp only [Option.some.injEq, Prod.mk.injEq] at h
    obtain ⟨hst, hr⟩ := h
    obtain ⟨pre, c, tail, hd, hin, henv, htail⟩ := herr e hr
    refine ⟨t1 ++ (t2 ++ (t3 ++ t4)), pre, c, tail, ?_, hd, hin, henv, htail⟩
    rw [← hst]

theorem c6_propagated_errors_verbatim_witness :
    ∃ d pre c tail,
      trRefFail = [] ++ d ∧
      d = pre ++ Event.settle c false :: tail ∧
      Event.issue c ∈ pre ∧
      envErrOf envRefFail c = some 9 ∧
      (∀ ev ∈ tail, isSettle ev = true) :=
  c6_propagated_errors_verbatim xl0 envRefFail 1 [lcR] st0 ⟨[dataA], trRefFail⟩ 9 rfl

/-- C6 counterexample: under an environment whose `updateView` rejects with
error 3 — a remote operation outside the two existence-check try/catch blocks
the claim names — the run still resolves successfully and the add-view
fallback runs (its `addView` call is issued), so the error neither propagates
nor stops later processing. -/
theorem c6_update_error_swallowed_cex :
    ProvisionObjects xl0 envUpdFail 1 [lcV] st0 = some (⟨[dataA], trUpdFail⟩, .ok ()) ∧
    Event.settle (.updateView "A".toList "V".toList "vs".toList) false ∈ trUpdFail ∧
    Event.issue (.addView "A".toList "V".toList false "vs".toList) ∈ trUpdFail ∧
    envErrOf envUpdFail (.updateView "A".toList "V".toList "vs".toList) = some 3 :=
  ⟨rfl, by decide, by decide, rfl⟩

/-- C7: the only state `ProvisionObjects` mutates is the lists cache, and it
is append-only: the starting cache is left in place as a prefix, and what is
appended is exactly the `ensure` metadata of a prefix of the configurations in
processing order (one entry per successfully ensured configuration, created or
not; every configuration when the run resolves). -/
theorem c7_cache_append_only (xl : XmlLib) (env : Env) (rfuel : Nat) (lists : List IList)
    (st st' : St) (r : Except Err Unit)
    (h : ProvisionObjects xl env rfuel lists st = some (st', r)) :
    ∃ m, m ≤ lists.length ∧
      st'.cache = st.cache ++
        ((lists.take m).filter (fun lc => ensureOK env lc)).map (ensureData env) ∧
      (r = .ok () → st'.cache = st.cache ++
        (lists.filter (fun lc => ensureOK env lc)).map (ensureData env)) := by
  rcases provision_run xl env rfuel lists st with hn |
    ⟨t1, t2, t3, t4, m, r0, hrun, hm, hp1, hp2, hp3, hp4, hflt, herr, hok⟩
  · rw [hn] at h
    exact absurd h (by simp)
  · rw [hrun] at h
    simp only [Option.some.injEq, Prod.mk.injEq] at h
    obtain ⟨hst, hr⟩ := h
    refine ⟨m, hm, ?_, ?_⟩
    · rw [← hst]
    · intro hro
      rw [← hst]
      have hml : m = lists.length := hok (hr.trans hro)
      rw [hml, List.take_length]

theorem c7_cache_append_only_witness :
    ∃ m, m ≤ [lcV].length ∧
      [dataA] = [] ++
        (([lcV].take m).filter (fun lc => ensureOK okEnv lc)).map (ensureData okEnv) ∧
      ((Except.ok () : Except Err Unit) = .ok () → [dataA] = [] ++
        ([lcV].filter (fun lc => ensureOK okEnv lc)).map (ensureData okEnv)) :=
  c7_cache_append_only xl0 okEnv 1 [lcV] st0 ⟨[dataA], trOkV⟩ (.ok ()) rfl

/-- C9: content types are deleted only by the removal pass of
`processContentTypeBindings`: with bindings configured and
`RemoveExistingContentTypes` set (the adds and the fetch succeeding), the
deletes issued are exactly those existing content types whose id contains no
configured `ContentTypeID` as a substring and does not contain the folder
marker `0x0120`; with no bindings or the flag unset, no delete is ever
issued. -/
theorem c9_removal_set (env : Env) (lc : IList) (st : St) :
    ∃ d, (processContentTypeBindings env lc st).1.trace = st.trace ++ d ∧
      ((lc.ContentTypeBindings = none ∨ lc.RemoveExistingContentTypes = false) →
        ∀ ct, Event.issue (.deleteContentType lc.Title ct) ∉ d) ∧
      (∀ ctbs cts, lc.ContentTypeBindings = some ctbs →
        lc.RemoveExistingContentTypes = true →
        (∀ b ∈ ctbs, env.addAvailableContentType lc.Title b.ContentTypeID = .ok ()) →
        env.getContentTypes lc.Title = .ok cts →
        ∀ ct, (Event.issue (.deleteContentType lc.Title ct) ∈ d ↔
          (ct ∈ cts ∧
            (∀ b ∈ ctbs, ¬ ∃ u v, ct = u ++ (b.ContentTypeID ++ v)) ∧
            ¬ ∃ u v, ct = u ++ ("0x0120".toList ++ v)))) := by
  cases hb : lc.ContentTypeBindings with
  | none =>
    refine ⟨[], ?_, fun _ ct => List.not_mem_nil _, ?_⟩
    · unfold processContentTypeBindings
      rw [hb]
      simp
    · intro ctbs cts hb2
      simp at hb2
  | some ctbs0 =>
    cases hrm : lc.RemoveExistingContentTypes with
    | false =>
      obtain ⟨d, hd, hp⟩ := TraceExtP_seqP (p := fun ev => isDelIssue ev = false)
        (fun b => TraceExtP_emit (c := .addAvailableContentType lc.Title b.ContentTypeID)
          rfl (fun _ => rfl)) ctbs0 st
      have hd0 : (seqP (fun b => processContentTypeBinding env lc b.ContentTypeID) ctbs0
          st).1.trace = st.trace ++ d := hd
      rcases hsp : seqP (fun b => processContentTypeBinding env lc b.ContentTypeID) ctbs0 st
        with ⟨st1, r1⟩
      rw [hsp] at hd0
      have hnodel : ∀ ct, Event.issue (.deleteContentType lc.Title ct) ∉ d := by
        intro ct hmem
        have := hp _ hmem
        simp [isDelIssue] at this
      unfold processContentTypeBindings
      rw [hb]
      dsimp only
      rw [hsp]
      cases r1 with
      | error e =>
        refine ⟨d, hd0, fun _ => hnodel, ?_⟩
        intro ctbs cts hb2 hrm2
        exact absurd hrm2 (by simp)
      | ok u =>
        rw [hrm]
        refine ⟨d, hd0, fun _ => hnodel, ?_⟩
        intro ctbs cts hb2 hrm2
        exact absurd hrm2 (by simp)
    | true =>
      by_cases hadd : ∀ b ∈ ctbs0, env.addAvailableContentType lc.Title b.ContentTypeID = .ok ()
      · cases hg : env.getContentTypes lc.Title with
        | error e =>
          refine ⟨(ctbs0.map (fun b =>
              [Event.issue (.addAvailableContentType lc.Title b.ContentTypeID),
               Event.settle (.addAvailableContentType lc.Title b.ContentTypeID) true])).flatten ++
              [Event.issue (.getContentTypes lc.Title),
               Event.settle (.getContentTypes lc.Title) false], ?_, ?_, ?_⟩
          · unfold processContentTypeBindings
            rw [hb]
            dsimp only
            rw [ctAdds_ok env lc ctbs0 hadd st]
            dsimp only
            rw [hrm, if_pos rfl, hg]
            have hemitG : emit (⟨st.cache, st.trace ++ (ctbs0.map (fun b =>
                [Event.issue (.addAvailableContentType lc.Title b.ContentTypeID),
                 Event.settle (.addAvailableContentType lc.Title b.ContentTypeID)
                   true])).flatten⟩ : St)
                (.getContentTypes lc.Title) (Except.error e : Except Err (List Str)) =
                (⟨st.cache, (st.trace ++ (ctbs0.map (fun b =>
                  [Event.issue (.addAvailableContentType lc.Title b.ContentTypeID),
                   Event.settle (.addAvailableContentType lc.Title b.ContentTypeID)
                     true])).flatten) ++
                  [Event.issue (.getContentTypes lc.Title),
                   Event.settle (.getContentTypes lc.Title) false]⟩, .error e) := by
              simp [emit, exOk, List.append_assoc]
            rw [hemitG]
            simp [List.append_assoc]
          · intro hOr
            rcases hOr with h1 | h1 <;> simp at h1
          · intro ctbs cts hb2 hrm2 hadd2 hget2
            simp at hget2
        | ok cts0 =>
          refine ⟨(ctbs0.map (fun b =>
              [Event.issue (.addAvailableContentType lc.Title b.ContentTypeID),
               Event.settle (.addAvailableContentType lc.Title b.ContentTypeID) true])).flatten ++
              ([Event.issue (.getContentTypes lc.Title),
                Event.settle (.getContentTypes lc.Title) true] ++
               ((cts0.filter (shouldRemove ctbs0)).map
                  (fun i => Event.issue (.deleteContentType lc.Title i)) ++
                (cts0.filter (shouldRemove ctbs0)).map
                  (fun i => Event.settle (.deleteContentType lc.Title i)
                    (exOk (env.deleteContentType lc.Title i))))), ?_, ?_, ?_⟩
          · unfold processContentTypeBindings
            rw [hb]
            dsimp only
            rw [ctAdds_ok env lc ctbs0 hadd st]
            dsimp only
            rw [hrm, if_pos rfl, hg]
            have hemitG : emit (⟨st.cache, st.trace ++ (ctbs0.map (fun b =>
                [Event.issue (.addAvailableContentType lc.Title b.ContentTypeID),
                 Event.settle (.addAvailableContentType lc.Title b.ContentTypeID)
                   true])).flatten⟩ : St)
                (.getContentTypes lc.Title) (Except.ok cts0 : Except Err (List Str)) =
                (⟨st.cache, (st.trace ++ (ctbs0.map (fun b =>
                  [Event.issue (.addAvailableContentType lc.Title b.ContentTypeID),
                   Event.settle (.addAvailableContentType lc.Title b.ContentTypeID)
                     true])).flatten) ++
                  [Event.issue (.getContentTypes lc.Title),
                   Event.settle (.getContentTypes lc.Title) true]⟩, .ok cts0) := by
              simp [emit, exOk, List.append_assoc]
            rw [hemitG]
            dsimp only
            unfold deleteBatch
            simp [List.append_assoc]
          · intro hOr
            rcases hOr with h1 | h1 <;> simp at h1
          · intro ctbs cts hb2 hrm2 hadd2 hget2
            injection hb2 with hb3
            subst hb3
            injection hget2 with hg3
            subst hg3
            intro ct
            constructor
            · intro hmem
              have hct : ct ∈ cts0.filter (shouldRemove ctbs0) := by
                rcases List.mem_append.mp hmem with hin | hin
                · exfalso
                  obtain ⟨l, hl, hevl⟩ := List.mem_flatten.mp hin
                  obtain ⟨b, hbmem, rfl⟩ := List.mem_map.mp hl
                  rcases List.mem_cons.mp hevl with heq | hevl
                  · simp at heq
                  rcases List.mem_cons.mp hevl with heq | hevl
                  · simp at heq
                  · simp at hevl
                rcases List.mem_append.mp hin with hin2 | hin2
                · exfalso
                  rcases List.mem_cons.mp hin2 with heq | hin2
                  · simp at heq
                  rcases List.mem_cons.mp hin2 with heq | hin2
                  · simp at heq
                  · simp at hin2
                rcases List.mem_append.mp hin2 with hin3 | hin3
                · obtain ⟨a, hamem, haeq⟩ := List.mem_map.mp hin3
                  have : a = ct := by
                    injection haeq with hc
                    injection hc
                  rw [← this]
                  exact hamem
                · exfalso
                  obtain ⟨a, hamem, haeq⟩ := List.mem_map.mp hin3
                  simp at haeq
              obtain ⟨hmemct, hsr⟩ := List.mem_filter.mp hct
              obtain ⟨h1, h2⟩ := (shouldRemove_iff ctbs0 ct).mp hsr
              exact ⟨hmemct, h1, h2⟩
            · rintro ⟨hmemct, h1, h2⟩
              have hsr : shouldRemove ctbs0 ct = true := (shouldRemove_iff ctbs0 ct).mpr ⟨h1, h2⟩
              have hct : ct ∈ cts0.filter (shouldRemove ctbs0) :=
                List.mem_filter.mpr ⟨hmemct, hsr⟩
              refine List.mem_append.mpr (Or.inr (List.mem_append.mpr (Or.inr
                (List.mem_append.mpr (Or.inl (List.mem_map.mpr ⟨ct, hct, rfl⟩))))))
      · obtain ⟨d, r, hc, hp, he⟩ := mod_ctbs env lc st
        refine ⟨d, ?_, ?_, ?_⟩
        · rw [hc]
        · intro hOr
          rcases hOr with h1 | h1 <;> simp at h1
        · intro ctbs cts hb2 hrm2 hadd2 hget2
          exfalso
          apply hadd
          intro b hbmem
          injection hb2 with hb3
          subst hb3
          exact hadd2 b hbmem

end PnpLists
